import Mathlib

/-!
# Posting lists of the sleepycat backend and the empty posting list

A shallow embedding of `backends/sleepycat/sleepycat_database.h` and
`matcher/emptypostlist.h`.

Conventions of the embedding:

* `doccount` (the type of `pos` and `termfreq`) is declared outside these
  sources.  It is taken to be an unsigned integer type of `bits` bits, `bits`
  being a parameter of every operation that computes with it: `pos ++` is
  `(pos + 1) % 2 ^ bits` and `pos - 1` is `(pos + 2 ^ bits - 1) % 2 ^ bits`.
* `docid *data` is the memory the pointer addresses, read by index:
  `data i` is the C++ expression `data[i]`.  The postings of the list are
  `data 0`, ..., `data (termfreq - 1)`.
* `weight` is a floating-point typedef declared outside these sources.  The
  functions embedded here never compute with a weight (they ignore the
  argument, or return the literal `0`), so a weight is a rational number here.
* `Assert(...)` is compiled out: every operation is defined on every state.
  The asserted conditions are kept as separate predicates where a statement
  needs them.
* A returned `PostList *` is an `Option PostList`, `none` being `NULL`.
* The `while` loop of `skip_to` takes a bound on the number of times its body
  may run; `none` means that the bound was reached with the loop still
  running.
* `termcount` (the type of `pos` and `terms` of a term list) is treated as
  `doccount` is: an unsigned integer type of `bits` bits.
* The reads of `data` are not part of a state; where a statement is about
  them, the index read is given by a definition of its own
  (`get_docid_index`, `skip_to_reads`, `get_termname_index`).
* A member function that throws returns an `Except` error, paired with the
  state it leaves.
* `docid` is declared outside these sources as well.  Doc-ids are natural
  numbers here; where a statement needs a doc-id to be one the type can hold, it
  is taken to have the width of `doccount` (`did < 2 ^ bits`).  A posting list
  of valid doc-ids (`well_formed`) has strictly increasing, strictly positive
  postings.
-/

/-- The `weight` typedef: see the conventions above. -/
abbrev weight := Rat

/-- The increment `pos ++` on a `doccount` of `bits` bits. -/
def doccount_incr (bits n : Nat) : Nat := (n + 1) % 2 ^ bits

/-- The index `pos - 1` on a `doccount` of `bits` bits. -/
def doccount_pred (bits n : Nat) : Nat := (n + 2 ^ bits - 1) % 2 ^ bits

/-- The data members of `class SleepyPostList`. -/
structure SleepyPostList where
  pos : Nat
  data : Nat → Nat
  termfreq : Nat

/-- The data members of `class EmptyPostList`: there are none. -/
structure EmptyPostList where
  deriving DecidableEq, Repr

/-- The posting-list nodes a `PostList *` can address in these sources. -/
inductive PostList where
  | sleepy (s : SleepyPostList)
  | empty (e : EmptyPostList)

namespace EmptyPostList

/-- Embeds `EmptyPostList::get_termfreq`. -/
def get_termfreq (_e : EmptyPostList) : Nat := 0

/-- Embeds `EmptyPostList::get_docid`, its `Assert(0)` compiled out. -/
def get_docid (_e : EmptyPostList) : Nat := 0

/-- Embeds `EmptyPostList::get_weight`, its `Assert(0)` compiled out. -/
def get_weight (_e : EmptyPostList) : weight := 0

/-- Embeds `EmptyPostList::get_maxweight`. -/
def get_maxweight (_e : EmptyPostList) : weight := 0

/-- Embeds `EmptyPostList::recalc_maxweight`: the value returned and the state left. -/
def recalc_maxweight (e : EmptyPostList) : weight × EmptyPostList := (0, e)

/-- Embeds `EmptyPostList::next`: the pointer returned and the state left. -/
def next (e : EmptyPostList) (_w_min : weight) : Option PostList × EmptyPostList :=
  (none, e)

/-- Embeds `EmptyPostList::skip_to`: the pointer returned and the state left. -/
def skip_to (e : EmptyPostList) (_did : Nat) (_w_min : weight) :
    Option PostList × EmptyPostList :=
  (none, e)

/-- Embeds `EmptyPostList::at_end`. -/
def at_end (_e : EmptyPostList) : Bool := true

end EmptyPostList

/-- One of the two advancing calls of the `PostList` interface, with its arguments. -/
inductive PostListCall where
  | next (w_min : weight)
  | skip_to (did : Nat) (w_min : weight)

namespace EmptyPostList

/-- Perform one advancing call on an empty posting list. -/
def call (e : EmptyPostList) : PostListCall → Option PostList × EmptyPostList
  | .next w_min => e.next w_min
  | .skip_to did w_min => e.skip_to did w_min

/-- The state left by a sequence of advancing calls, performed left to right. -/
def run (e : EmptyPostList) : List PostListCall → EmptyPostList
  | [] => e
  | c :: cs => run (e.call c).2 cs

/-- A traversal as a caller performs it: call `next`, stop when the list is
`at_end`, otherwise record `get_docid` and go on.  `fuel` bounds the number of
calls of `next`; `none` means the list was not `at_end` after `fuel` calls. -/
def traverse (w_min : weight) : Nat → EmptyPostList → Option (List Nat)
  | 0, _ => none
  | fuel + 1, e =>
    let e' := (e.next w_min).2
    if e'.at_end then some []
    else (traverse w_min fuel e').map (fun ds => e'.get_docid :: ds)

end EmptyPostList

namespace SleepyPostList

/-- Embeds `SleepyPostList::get_termfreq`. -/
def get_termfreq (s : SleepyPostList) : Nat := s.termfreq

/-- Embeds `SleepyPostList::at_end`. -/
def at_end (s : SleepyPostList) : Bool :=
  if s.pos > s.termfreq then true else false

/-- Embeds `SleepyPostList::get_docid`, its assertions compiled out. -/
def get_docid (bits : Nat) (s : SleepyPostList) : Nat :=
  s.data (doccount_pred bits s.pos)

/-- The two assertions of `SleepyPostList::get_docid`. -/
def get_docid_asserted (s : SleepyPostList) : Bool :=
  !s.at_end && s.pos != 0

/-- Embeds `SleepyPostList::next`: the pointer returned and the state left. -/
def next (bits : Nat) (s : SleepyPostList) (_w_min : weight) :
    Option PostList × SleepyPostList :=
  (none, { s with pos := doccount_incr bits s.pos })

/-- The `while` loop of `SleepyPostList::skip_to`; `fuel` bounds the number of
times the body runs. -/
def skip_to_loop (bits did : Nat) (w_min : weight) :
    Nat → SleepyPostList → Option (Option PostList × SleepyPostList)
  | 0, s =>
    if s.at_end = false ∧ s.data (doccount_pred bits s.pos) < did then none
    else some (none, s)
  | fuel + 1, s =>
    if s.at_end = false ∧ s.data (doccount_pred bits s.pos) < did then
      match s.next bits w_min with
      | (some ret, s') => some (some ret, s')
      | (none, s') => skip_to_loop bits did w_min fuel s'
    else some (none, s)

/-- Embeds `SleepyPostList::skip_to`: the pointer returned and the state left, or
`none` when the loop is still running after `fuel` iterations. -/
def skip_to (bits fuel : Nat) (s : SleepyPostList) (did : Nat) (w_min : weight) :
    Option (Option PostList × SleepyPostList) :=
  let s1 := if s.pos = 0 then { s with pos := doccount_incr bits s.pos } else s
  skip_to_loop bits did w_min fuel s1

/-- The postings `data[0 .. termfreq-1]` are strictly increasing. -/
def strictly_increasing (s : SleepyPostList) : Prop :=
  ∀ i j, i < j → j < s.termfreq → s.data i < s.data j

/-- A traversal as a caller performs it: call `next`, stop when the list is
`at_end`, otherwise record `get_docid` and go on.  `fuel` bounds the number of
calls of `next`; `none` means the list was not `at_end` after `fuel` calls. -/
def traverse (bits : Nat) (w_min : weight) : Nat → SleepyPostList → Option (List Nat)
  | 0, _ => none
  | fuel + 1, s =>
    let s' := (s.next bits w_min).2
    if s'.at_end then some []
    else (traverse bits w_min fuel s').map (fun ds => s'.get_docid bits :: ds)

/-- The state after `k` successive calls of `next`. -/
def nexts (bits : Nat) (w_min : weight) : Nat → SleepyPostList → SleepyPostList
  | 0, s => s
  | k + 1, s => nexts bits w_min k (s.next bits w_min).2

end SleepyPostList

/-- Members of `class SleepyDatabaseTermCache`: its two member functions are declared in
the header and defined elsewhere, so they are parameters here.  A `termid` is a
natural number and a `termname` a string. -/
structure SleepyDatabaseTermCache where
  term_id_to_name : Nat → String
  term_name_to_id : String → Nat

/-- The data members of `class SleepyTermList`; `data i` is `data[i]`. -/
structure SleepyTermList where
  pos : Nat
  data : Nat → Nat
  terms : Nat
  dbsize : Nat
  termcache : SleepyDatabaseTermCache

namespace SleepyTermList

/-- Embeds `SleepyTermList::get_approx_size`. -/
def get_approx_size (t : SleepyTermList) : Nat := t.terms

/-- Embeds `SleepyTermList::at_end`. -/
def at_end (t : SleepyTermList) : Bool :=
  if t.pos > t.terms then true else false

/-- Embeds `SleepyTermList::get_termname`, its assertions compiled out. -/
def get_termname (t : SleepyTermList) : String :=
  t.termcache.term_id_to_name (t.data t.pos)

/-- Embeds `SleepyTermList::get_wdf`, its assertions compiled out. -/
def get_wdf (_t : SleepyTermList) : Nat := 1

/-- Embeds `SleepyTermList::get_termfreq`, its assertions compiled out. -/
def get_termfreq (_t : SleepyTermList) : Nat := 1

/-- The two assertions shared by the accessors of `SleepyTermList`: the list is
positioned on a term. -/
def on_term (t : SleepyTermList) : Bool :=
  !t.at_end && t.pos != 0

end SleepyTermList

/-- Embeds `PostList::get_termfreq`, a virtual call dispatched on the node. -/
def PostList.get_termfreq : PostList → Nat
  | .sleepy s => s.get_termfreq
  | .empty e => e.get_termfreq

/-- Modelled from the spec: `class RSet` is declared outside these sources; the
spec describes a relevance set as the set of doc-ids flagged relevant. -/
structure RSet where
  items : List Nat

/-- The data members of `class SleepyDatabase`.  `open_post_list` is declared in
the header and defined elsewhere, so it is a parameter here (the database
internals it reads are behind it); `none` is the `NULL` pointer, as argument and
as result. -/
structure SleepyDatabase where
  opened : Bool
  termcache : SleepyDatabaseTermCache
  open_post_list : String → Option RSet → Option PostList

namespace SleepyDatabase

/-- Embeds `SleepyDatabase::get_doccount`, its assertion compiled out. -/
def get_doccount (_db : SleepyDatabase) : Nat := 1

/-- Embeds `SleepyDatabase::get_termfreq`. -/
def get_termfreq (db : SleepyDatabase) (tname : String) : Nat :=
  let pl := db.open_post_list tname none
  let freq := 0
  match pl with
  | some p => p.get_termfreq
  | none => freq

/-- Embeds `SleepyDatabase::term_exists`. -/
def term_exists (db : SleepyDatabase) (tname : String) : Bool :=
  if db.termcache.term_name_to_id tname ≠ 0 then true else false

end SleepyDatabase

/-- Modelled from the spec: the multi-database fan-out is not among the sources
(only its tests are).  The spec maps local id `l` of sub-database `i` (0-based),
with `N` sub-databases, to `(l − 1) · N + i + 1`. -/
def multidb_map_docid (N i l : Nat) : Nat := (l - 1) * N + i + 1

namespace SleepyPostList

/-- The posting list of a term indexing documents 2 and 4, the cursor on the
first posting. -/
def sample : SleepyPostList :=
  { pos := 1, data := fun i => if i = 0 then 2 else if i = 1 then 4 else 0, termfreq := 2 }

/-- A posting list whose term frequency is the largest value of a 32-bit
`doccount`: the postings are 1, 2, ..., 2^32 - 1, the word of memory after them
holds 1, and the cursor is on the last posting. -/
def full_last : SleepyPostList :=
  { pos := 2 ^ 32 - 1, data := fun i => if i < 2 ^ 32 - 1 then i + 1 else 1,
    termfreq := 2 ^ 32 - 1 }

/-- A posting list whose term frequency is the largest value of a 32-bit
`doccount` and whose doc-ids are all 1, the cursor on the last posting. -/
def full_ones : SleepyPostList :=
  { pos := 2 ^ 32 - 1, data := fun _ => 1, termfreq := 2 ^ 32 - 1 }

/-- The position `skip_to` starts looking from: the cursor, or position 1 when
the list is not yet positioned.  The posting at position `p` is `data[p - 1]`. -/
def start_pos (s : SleepyPostList) : Nat := if s.pos = 0 then 1 else s.pos

/-- The posting list of `full_last`, not yet positioned. -/
def full_start : SleepyPostList := { full_last with pos := 0 }

end SleepyPostList

/-- A term cache that names term 5 "inmemory" and term 6 "word". -/
def sample_termcache : SleepyDatabaseTermCache :=
  { term_id_to_name := fun i => if i = 5 then "inmemory" else if i = 6 then "word" else "",
    term_name_to_id := fun n => if n = "inmemory" then 5 else if n = "word" then 6 else 0 }

/-- A database in which "word" indexes documents 2 and 4, "inmemory" indexes
the same two documents, and no other term has a posting list. -/
def sample_database : SleepyDatabase :=
  { opened := true
    termcache := sample_termcache
    open_post_list := fun n _ =>
      if n = "word" ∨ n = "inmemory" then
        some (PostList.sleepy { SleepyPostList.sample with pos := 0 })
      else none }

/-- The term list of document 2 of `sample_database` (terms 5 and 6), the
cursor on its first position. -/
def sample_termlist : SleepyTermList :=
  { pos := 1, data := fun i => if i = 0 then 5 else if i = 1 then 6 else 0, terms := 2,
    dbsize := 4, termcache := sample_termcache }

/-!
## The query pipeline

The query classes (`OmQuery`, `OmEnquire`, `OmMSet`) are exercised by
`tests/apitest.cc` but defined outside the sources.  Their model below follows
sections 3, 4.2 to 4.4 and 4.7 of the specification, with the names the tests
use.
-/

/-- Modelled from the spec: the error kinds of section 7; the exception classes
(`OmInvalidArgumentError`, ...) are declared outside the sources. -/
inductive OmError where
  | InvalidArgument
  | OpeningError
  | FeatureUnavailable
  | RangeError
  | InvalidResult
  | InternalError
  | NetworkError
  deriving DecidableEq, Repr

/-- Modelled from the spec: the query operators of section 4.7 (`OmQuery::OP_OR`,
...), an enumeration declared outside the sources. -/
inductive om_queryop where
  | OP_OR
  | OP_AND
  | OP_AND_NOT
  | OP_FILTER
  | OP_XOR
  | OP_PHRASE
  | OP_NEAR
  deriving DecidableEq, Repr

/-- Modelled from the spec: the query tree of sections 3 and 4.7, defined outside
the sources: a node is `Term(name, wqf, position)` or
`Compound(op, children, window)`; the `Empty` variant is the absent tree of a
null `OmQuery`. -/
inductive QueryTree where
  | term (tname : String) (wqf : Nat) (term_pos : Nat)
  | compound (op : om_queryop) (children : List QueryTree) (window : Nat)

namespace QueryTree

mutual
/-- Modelled from the spec: the length of a query tree, the sum of wqf over its
leaves (section 3); the query classes are defined outside the sources. -/
def wqf_sum : QueryTree → Nat
  | .term _ wqf _ => wqf
  | .compound _ children _ => wqf_sum_list children
/-- Modelled from the spec: the sum of wqf over the leaves of a list of trees. -/
def wqf_sum_list : List QueryTree → Nat
  | [] => 0
  | c :: cs => wqf_sum c + wqf_sum_list cs
end

/-- Modelled from the spec: associative flattening (section 4.7), which is done
outside the sources: under an `OR` (an `AND`) a child that is itself an `OR`
(an `AND`) is replaced by its children, in place and in order; no other
operator is flattened. -/
def splice (op : om_queryop) : List QueryTree → List QueryTree
  | [] => []
  | .compound op' cs w :: rest =>
    if (op = .OP_OR ∨ op = .OP_AND) ∧ op' = op then cs ++ splice op rest
    else .compound op' cs w :: splice op rest
  | .term n wqf p :: rest => .term n wqf p :: splice op rest

/-- Modelled from the spec: whether a tree is the term leaf of this name and
position ("identical" children in the position-collapse rule of section 4.7). -/
def is_leaf_at (tname : String) (term_pos : Nat) : QueryTree → Bool
  | .term n _ p => n = tname ∧ p = term_pos
  | .compound _ _ _ => false

/-- Modelled from the spec: add `wqf` to the first leaf of this name and
position in the list. -/
def add_wqf (tname : String) (term_pos : Nat) (wqf : Nat) : List QueryTree → List QueryTree
  | [] => []
  | c :: cs =>
    match c with
    | .term n w p =>
      if n = tname ∧ p = term_pos then .term n (w + wqf) p :: cs
      else c :: add_wqf tname term_pos wqf cs
    | .compound _ _ _ => c :: add_wqf tname term_pos wqf cs

/-- Modelled from the spec: one step of position-collapse: a leaf identical to
one already kept is merged into it by summing wqfs, and is itself deleted;
any other child is kept, in order. -/
def collapse_into (kept : List QueryTree) (c : QueryTree) : List QueryTree :=
  match c with
  | .term n w p =>
    if kept.any (is_leaf_at n p) then add_wqf n p w kept else kept ++ [c]
  | .compound _ _ _ => kept ++ [c]

/-- Modelled from the spec: position-collapse (section 4.7), which is done
outside the sources: `OR` children that are identical (same term name, same
position) are merged by summing wqfs and deleting duplicates. -/
def collapse (children : List QueryTree) : List QueryTree :=
  children.foldl collapse_into []

/-- Modelled from the spec: the canonical children of a compound node: flattened
and, under `OR`, position-collapsed. -/
def canonical_children (op : om_queryop) (children : List QueryTree) : List QueryTree :=
  if op = .OP_OR then collapse (splice op children) else splice op children

/-- Modelled from the spec: a child that flattening would still splice into a
node of operator `op`. -/
def nests (op : om_queryop) : QueryTree → Bool
  | .term _ _ _ => false
  | .compound op' _ _ => (op = .OP_OR ∨ op = .OP_AND) ∧ op' = op

/-- Modelled from the spec: a node is flat when none of its children is a node
of its own associative operator. -/
def top_flat : QueryTree → Prop
  | .term _ _ _ => True
  | .compound op cs _ => ∀ c ∈ cs, nests op c = false

end QueryTree

/-- Modelled from the spec: `class OmQuery`, defined outside the sources: a query
tree (absent for the null query), the boolean mark of `set_bool`, and the
cached length (sections 3 and 4.7). -/
structure OmQuery where
  tree : Option QueryTree
  is_bool : Bool
  qlen : Nat

namespace OmQuery

/-- Modelled from the spec: the null query `OmQuery()`. -/
def null : OmQuery := { tree := none, is_bool := false, qlen := 0 }

/-- Modelled from the spec: the term query `OmQuery(tname, wqf, term_pos)`; the
tests' `OmQuery(tname)` is `term tname 1 1`. -/
def term (tname : String) (wqf : Nat) (term_pos : Nat) : OmQuery :=
  { tree := some (.term tname wqf term_pos), is_bool := false, qlen := wqf }

/-- Modelled from the spec: `OmQuery::set_bool`. -/
def set_bool (q : OmQuery) (b : Bool) : OmQuery := { q with is_bool := b }

/-- Modelled from the spec: `OmQuery::set_length`, which overrides the length. -/
def set_length (q : OmQuery) (n : Nat) : OmQuery := { q with qlen := n }

/-- Modelled from the spec: `OmQuery::get_length`. -/
def get_length (q : OmQuery) : Nat := q.qlen

/-- Modelled from the spec: the sum of wqf over the leaves of a query, 0 for the
null query. -/
def wqf_sum (q : OmQuery) : Nat :=
  match q.tree with
  | none => 0
  | some t => t.wqf_sum

/-- Modelled from the spec: the trees of the operands of a compound query. -/
def trees : List OmQuery → List QueryTree
  | [] => []
  | q :: qs =>
    match q.tree with
    | none => trees qs
    | some t => t :: trees qs

/-- Modelled from the spec: the compound constructors of `OmQuery` (from a pair
of queries, a vector of queries or of query pointers; a vector of terms is the
vector of its term queries), defined outside the sources.  In order:
a boolean operand is rejected unless the operator is `FILTER`; a `FILTER` whose
left operand is null is the pure-boolean query of its right operand (as
`test_boolquery1` builds it); any other null operand is rejected; an empty
vector gives the null query; otherwise the node holds the canonical children
and the length is the sum of wqf over its leaves. -/
def compound (op : om_queryop) (qs : List OmQuery) (window : Nat) : Except OmError OmQuery :=
  if op ≠ .OP_FILTER ∧ qs.any (fun q => q.is_bool) = true then
    .error .InvalidArgument
  else
    match op, qs with
    | .OP_FILTER, [{ tree := none, .. }, { tree := some t, .. }] =>
      .ok { tree := some t, is_bool := true, qlen := t.wqf_sum }
    | _, _ =>
      if qs.any (fun q => q.tree.isNone) = true then .error .InvalidArgument
      else if qs.isEmpty then .ok null
      else
        let children := QueryTree.canonical_children op (trees qs)
        .ok { tree := some (.compound op children window), is_bool := false,
              qlen := QueryTree.wqf_sum_list children }

/-- Modelled from the spec: the compound constructor from a vector of term
names: the compound query of their term queries (wqf 1, position 1). -/
def from_terms (op : om_queryop) (tnames : List String) : Except OmError OmQuery :=
  compound op (tnames.map (fun n => term n 1 1)) 0

end OmQuery

/-- Modelled from the spec: a posting (section 3), supplied by a backend outside
the sources: the within-document frequency and, when the backend stores them,
the sorted positions of the term in the document. -/
structure Posting where
  wdf : Nat
  positions : Option (List Nat)

/-- Modelled from the spec: the backend contract of section 4.1, implemented
outside the sources: documents have the ids 1 to `lastdocid`; `posting t d` is
the posting of term `t` in document `d`, if any; `key d k` is the value of key
number `k` of document `d`. -/
structure Backend where
  lastdocid : Nat
  posting : String → Nat → Option Posting
  doclength : Nat → Nat
  key : Nat → Nat → String

namespace Backend

/-- Modelled from the spec: the term frequency, the number of documents
containing the term. -/
def termfreq (db : Backend) (tname : String) : Nat :=
  (List.range db.lastdocid).countP (fun i => (db.posting tname (i + 1)).isSome)

/-- Modelled from the spec: the length of a document relative to the average
document length (`dlen / avlen` in section 4.3). -/
def normlen (db : Backend) (did : Nat) : Rat :=
  ((db.doclength did : Nat) : Rat) * (db.lastdocid : Rat) /
    (((List.range db.lastdocid).map (fun i => db.doclength (i + 1))).sum : Nat)

end Backend

/-- Modelled from the spec: the weighting model of section 4.3, implemented
outside the sources: `term_weight wdf normlen termfreq collection_size wqf qlen`
is a non-negative weight, and `term_maxweight termfreq collection_size wqf qlen`
an upper bound of it. -/
structure Weighting where
  term_weight : Nat → Rat → Nat → Nat → Nat → Nat → weight
  term_maxweight : Nat → Nat → Nat → Nat → weight
  weight_nonneg : ∀ wdf nl tf n wqf qlen, 0 ≤ term_weight wdf nl tf n wqf qlen
  weight_le_max : ∀ wdf nl tf n wqf qlen,
    term_weight wdf nl tf n wqf qlen ≤ term_maxweight tf n wqf qlen

namespace om_queryop

/-- Modelled from the spec: what a binary node of the iterator algebra (section
4.2) yields at one document, from what its two sides yield there (`none`: the
side does not hold the document).  `PHRASE` and `NEAR` intersect like `AND`;
their positional test is `QueryTree.positional_ok`. -/
def combine : om_queryop → Option weight → Option weight → Option weight
  | .OP_OR, some a, some b => some (a + b)
  | .OP_OR, some a, none => some a
  | .OP_OR, none, b => b
  | .OP_AND, some a, some b => some (a + b)
  | .OP_AND, _, _ => none
  | .OP_AND_NOT, some a, none => some a
  | .OP_AND_NOT, _, _ => none
  | .OP_FILTER, some a, some _ => some a
  | .OP_FILTER, _, _ => none
  | .OP_XOR, some a, none => some a
  | .OP_XOR, none, some b => some b
  | .OP_XOR, _, _ => none
  | .OP_PHRASE, some a, some b => some (a + b)
  | .OP_PHRASE, _, _ => none
  | .OP_NEAR, some a, some b => some (a + b)
  | .OP_NEAR, _, _ => none

/-- Modelled from the spec: a node over a list of children is the chain of
binary nodes over them, from the left; without children it yields nothing. -/
def combine_all (op : om_queryop) : List (Option weight) → Option weight
  | [] => none
  | r :: rs => rs.foldl op.combine r

/-- Modelled from the spec: the static upper bound of a binary node from those
of its sides: the sum for `OR` (and for the intersecting `AND`, `PHRASE`,
`NEAR`), the left bound for `AND-NOT` and `FILTER`, the greater for `XOR`. -/
def combine_max : om_queryop → weight → weight → weight
  | .OP_OR, a, b => a + b
  | .OP_AND, a, b => a + b
  | .OP_AND_NOT, a, _ => a
  | .OP_FILTER, a, _ => a
  | .OP_XOR, a, b => max a b
  | .OP_PHRASE, a, b => a + b
  | .OP_NEAR, a, b => a + b

/-- Modelled from the spec: the upper bound of a node over a list of children. -/
def combine_max_all (op : om_queryop) : List weight → weight
  | [] => 0
  | m :: ms => ms.foldl op.combine_max m

end om_queryop

/-- Modelled from the spec: the rest of a phrase match: positions chosen from
the remaining children, each after the previous one, the last less than
`window` after the first. -/
def phrase_chain (window first : Nat) : Nat → List (List Nat) → Bool
  | prev, [] => decide (prev - first < window)
  | prev, ps :: rest => ps.any (fun p => decide (prev < p) && phrase_chain window first p rest)

/-- Modelled from the spec: the positional test of `PHRASE` (section 4.2): there
are positions `p_1 < p_2 < ... < p_k`, one from each child in order, with
`p_k − p_1 < window`. -/
def phrase_ok (window : Nat) : List (List Nat) → Bool
  | [] => true
  | ps :: rest => ps.any (fun p => phrase_chain window p p rest)

/-- Modelled from the spec: the positional test of `NEAR`: that of `PHRASE` for
some permutation of the children. -/
def near_ok (window : Nat) (pss : List (List Nat)) : Bool :=
  pss.permutations.any (phrase_ok window)

namespace QueryTree

/-- Modelled from the spec: the positions a child of `PHRASE` or `NEAR` has in a
document; only a term with positional information has any. -/
def child_positions (db : Backend) (did : Nat) : QueryTree → Option (List Nat)
  | .term n _ _ => (db.posting n did).bind (fun p => p.positions)
  | .compound _ _ _ => none

/-- Modelled from the spec: the positions of all children, if every child has
positional information. -/
def children_positions (db : Backend) (did : Nat) : List QueryTree → Option (List (List Nat))
  | [] => some []
  | c :: cs =>
    match child_positions db did c, children_positions db did cs with
    | some ps, some pss => some (ps :: pss)
    | _, _ => none

/-- Modelled from the spec: whether a node passes the positional test of its
operator at a document; a node whose children lack positions yields nothing,
and operators other than `PHRASE` and `NEAR` have no positional test. -/
def positional_ok (db : Backend) (op : om_queryop) (window did : Nat)
    (children : List QueryTree) : Bool :=
  match op with
  | .OP_PHRASE =>
    match children_positions db did children with
    | some pss => phrase_ok window pss
    | none => false
  | .OP_NEAR =>
    match children_positions db did children with
    | some pss => near_ok window pss
    | none => false
  | _ => true

/-- Modelled from the spec: the weight a term leaf contributes at a document
that holds the term: 0 in a boolean query, otherwise the weight of section
4.3. -/
def leaf_weight (db : Backend) (W : Weighting) (is_bool : Bool) (qlen : Nat)
    (tname : String) (wqf did : Nat) : Option weight :=
  (db.posting tname did).map (fun p =>
    if is_bool then 0
    else W.term_weight p.wdf (db.normlen did) (db.termfreq tname) db.lastdocid wqf qlen)

mutual
/-- Modelled from the spec: what the posting iterator built for a query tree
yields at a document: `none` if it does not yield the document, else the
weight (section 4.2); the iterator classes are defined outside the sources. -/
def eval (db : Backend) (W : Weighting) (is_bool : Bool) (qlen : Nat) :
    QueryTree → Nat → Option weight
  | .term n wqf _, did => leaf_weight db W is_bool qlen n wqf did
  | .compound op cs window, did =>
    if positional_ok db op window did cs then
      op.combine_all (eval_children db W is_bool qlen cs did)
    else none
/-- Modelled from the spec: what the children of a node yield at a document. -/
def eval_children (db : Backend) (W : Weighting) (is_bool : Bool) (qlen : Nat) :
    List QueryTree → Nat → List (Option weight)
  | [], _ => []
  | c :: cs, did => eval db W is_bool qlen c did :: eval_children db W is_bool qlen cs did
end

mutual
/-- Modelled from the spec: the static upper bound of the iterator built for a
query tree: 0 for every leaf of a boolean query. -/
def maxweight (db : Backend) (W : Weighting) (is_bool : Bool) (qlen : Nat) :
    QueryTree → weight
  | .term n wqf _ =>
    if is_bool then 0 else W.term_maxweight (db.termfreq n) db.lastdocid wqf qlen
  | .compound op cs _ => op.combine_max_all (maxweight_children db W is_bool qlen cs)
/-- Modelled from the spec: the upper bounds of the children of a node. -/
def maxweight_children (db : Backend) (W : Weighting) (is_bool : Bool) (qlen : Nat) :
    List QueryTree → List weight
  | [] => []
  | c :: cs => maxweight db W is_bool qlen c :: maxweight_children db W is_bool qlen cs
end

/-- Modelled from the spec: the documents the root iterator produces, in
increasing doc-id, each with its weight. -/
def candidates (db : Backend) (W : Weighting) (is_bool : Bool) (qlen : Nat)
    (t : QueryTree) : List (Nat × weight) :=
  (List.range db.lastdocid).filterMap (fun i =>
    (eval db W is_bool qlen t (i + 1)).map (fun w => (i + 1, w)))

end QueryTree

/-- Modelled from the spec: a row of a match set (section 3); `class OmMSetItem`
is defined outside the sources. -/
structure OmMSetItem where
  wt : weight
  did : Nat
  collapse_key : String
  deriving DecidableEq

/-- Modelled from the spec: a match set (section 3); `class OmMSet` is defined
outside the sources. -/
structure OmMSet where
  items : List OmMSetItem
  firstitem : Nat
  mbound : Nat
  max_attained : weight
  max_possible : weight
  deriving DecidableEq

/-- Modelled from the spec: the match options of section 6 that the collector
reads (an `OmSettings` in the tests): the key to collapse on, if any, the
percentage cutoff and the direction of the doc-id tie-break.  The optional cap
`match_max_or_terms` is left at its default (unlimited) and is not modelled. -/
structure MatchOptions where
  match_collapse_key : Option Nat
  match_percent_cutoff : Nat
  match_sort_forward : Bool

/-- Modelled from the spec: the default match options: no collapsing, cutoff 0,
forward sort. -/
def MatchOptions.default : MatchOptions :=
  { match_collapse_key := none, match_percent_cutoff := 0, match_sort_forward := true }

/-- Modelled from the spec: the order of a match set (section 4.4, steps 1 and
6): descending weight, ties broken by ascending doc-id when `sort_forward`,
else by descending doc-id. -/
def ranks_before (sort_forward : Bool) (a b : OmMSetItem) : Prop :=
  b.wt < a.wt ∨ (a.wt = b.wt ∧ if sort_forward then a.did ≤ b.did else b.did ≤ a.did)

instance ranks_before_decidable (sort_forward : Bool) :
    DecidableRel (ranks_before sort_forward) :=
  fun a b => inferInstanceAs
    (Decidable (b.wt < a.wt ∨ (a.wt = b.wt ∧ if sort_forward then a.did ≤ b.did else b.did ≤ a.did)))

/-- Modelled from the spec: what the match collector maintains during the
traversal (section 4.4): the ranked items kept (best first), the number of
candidates considered past the decider, and the greatest weight seen. -/
structure Collector where
  heap : List OmMSetItem
  mbound : Nat
  max_attained : weight

/-- Modelled from the spec: the percentage cutoff (section 4.4, step 5): an item
is kept unless `weight / max_possible` is below `percent / 100`; the comparison
is cross-multiplied, so it is defined for `max_possible = 0`.  Items exactly at
the threshold are kept. -/
def cutoff_keeps (percent : Nat) (max_possible : weight) (it : OmMSetItem) : Bool :=
  decide ((percent : weight) * max_possible ≤ 100 * it.wt)

/-- Modelled from the spec: the match-decider predicate, if any, is consulted for
each document the root produces; without one every document is accepted. -/
def decider_accepts (decider : Option (Nat → Bool)) (did : Nat) : Bool :=
  match decider with
  | some f => f did
  | none => true

/-- Modelled from the spec: the item of a document produced by the root when no
collapse key is set: its collapse key is empty. -/
def plain_item (c : Nat × weight) : OmMSetItem :=
  { wt := c.2, did := c.1, collapse_key := "" }

/-- Modelled from the spec: what the collector does with one document produced
by the root (section 4.4, steps 1, 3 and 4), `capacity` being
`first + max_items`: a document the decider rejects is skipped; otherwise it is
counted and its weight seen; with collapsing, it is skipped if an item with the
same non-empty key and at least its weight is kept, else the weaker items of
that key are evicted; then it is inserted in rank order and the items beyond
`capacity` are dropped. -/
def collect_step (db : Backend) (opts : MatchOptions) (decider : Option (Nat → Bool))
    (capacity : Nat) (st : Collector) (c : Nat × weight) : Collector :=
  if decider_accepts decider c.1 = false then st
  else
    let key := match opts.match_collapse_key with
      | some k => db.key c.1 k
      | none => ""
    let it : OmMSetItem := { wt := c.2, did := c.1, collapse_key := key }
    let seen : Collector :=
      { st with mbound := st.mbound + 1, max_attained := max st.max_attained c.2 }
    if key ≠ "" ∧ st.heap.any (fun h => decide (h.collapse_key = key ∧ it.wt ≤ h.wt)) = true then
      seen
    else
      let others := if key ≠ "" then st.heap.filter (fun h => decide (h.collapse_key ≠ key))
        else st.heap
      { seen with
        heap := (others.orderedInsert (ranks_before opts.match_sort_forward) it).take capacity }

/-- Modelled from the spec: the traversal of the match collector over the
documents the root produces.  The minimum-weight threshold of step 2 only lets
the iterators skip documents that could not enter the ranking; here every
document the root can produce is handed to the collector. -/
def collect (db : Backend) (opts : MatchOptions) (decider : Option (Nat → Bool))
    (capacity : Nat) (cands : List (Nat × weight)) : Collector :=
  cands.foldl (collect_step db opts decider capacity)
    { heap := [], mbound := 0, max_attained := 0 }

/-- Modelled from the spec: `OmEnquire::get_mset(first, maxitems, ...)`, defined
outside the sources (section 4.4): a null query is an invalid argument;
otherwise the root iterator of the query is traversed by the collector with
room for `first + maxitems` items, the `first` items at the head of the ranking
are dropped (as `test_msetfirst1` expects), and the percentage cutoff applied;
`max_possible` is the root's static upper bound.  The relevance set, which only
enters the weighting, is not a parameter here. -/
def OmEnquire.get_mset (db : Backend) (W : Weighting) (q : OmQuery) (first maxitems : Nat)
    (opts : MatchOptions) (decider : Option (Nat → Bool)) : Except OmError OmMSet :=
  match q.tree with
  | none => .error .InvalidArgument
  | some t =>
    let max_possible := t.maxweight db W q.is_bool q.qlen
    let st := collect db opts decider (first + maxitems)
      (t.candidates db W q.is_bool q.qlen)
    .ok { items := (st.heap.drop first).filter
            (cutoff_keeps opts.match_percent_cutoff max_possible)
          firstitem := first
          mbound := st.mbound
          max_attained := st.max_attained
          max_possible := max_possible }


/-- Modelled from the spec: the queries that can be built from term leaves and
the compound constructors, possibly marked boolean, without `set_length`. -/
inductive OmQuery.Built : OmQuery → Prop where
  | null : OmQuery.Built OmQuery.null
  | term (tname : String) (wqf term_pos : Nat) : OmQuery.Built (OmQuery.term tname wqf term_pos)
  | compound (op : om_queryop) (qs : List OmQuery) (window : Nat) (q : OmQuery) :
      (∀ o ∈ qs, OmQuery.Built o) → OmQuery.compound op qs window = .ok q → OmQuery.Built q
  | set_bool (q : OmQuery) (b : Bool) : OmQuery.Built q → OmQuery.Built (q.set_bool b)

/-- Modelled from the spec: `later` is not a term leaf identical (same name, same
position) to `earlier`. -/
def QueryTree.not_identical (earlier later : QueryTree) : Prop :=
  match later with
  | .term n _ p => QueryTree.is_leaf_at n p earlier = false
  | .compound _ _ _ => True

/-- The query of `test_querylen2`: `(foo OR bar) AND (wibble OR spoon)`. -/
def querylen2_query : Except OmError OmQuery :=
  (OmQuery.compound .OP_OR [OmQuery.term "foo" 1 1, OmQuery.term "bar" 1 1] 0).bind fun a =>
  (OmQuery.compound .OP_OR [OmQuery.term "wibble" 1 1, OmQuery.term "spoon" 1 1] 0).bind fun b =>
  OmQuery.compound .OP_AND [a, b] 0

/-- The query `myq2_1` of `test_querylen3` and `myquery1` of `test_subqcollapse1`:
`OR` over the vector `wibble`, `wobble`, `(jelly OR belly)`. -/
def subqcollapse_or_query : Except OmError OmQuery :=
  (OmQuery.compound .OP_OR [OmQuery.term "jelly" 1 1, OmQuery.term "belly" 1 1] 0).bind fun j =>
  OmQuery.compound .OP_OR [OmQuery.term "wibble" 1 1, OmQuery.term "wobble" 1 1, j] 0

/-- The query `myquery2` of `test_subqcollapse1`: `AND` over the vector
`(jelly AND belly)`, `wibble`, `wobble`. -/
def subqcollapse_and_query : Except OmError OmQuery :=
  (OmQuery.compound .OP_AND [OmQuery.term "jelly" 1 1, OmQuery.term "belly" 1 1] 0).bind fun j =>
  OmQuery.compound .OP_AND [j, OmQuery.term "wibble" 1 1, OmQuery.term "wobble" 1 1] 0

/-- The query `myquery` of `test_querylen3`: `myq1 OR (myq2_1 OR myq2_2)`, with
`myq1 = foo AND bar AND baz` and `myq2_2 = (ball AND club) AND ring`. -/
def querylen3_query : Except OmError OmQuery :=
  (OmQuery.compound .OP_AND
    [OmQuery.term "foo" 1 1, OmQuery.term "bar" 1 1, OmQuery.term "baz" 1 1] 0).bind fun myq1 =>
  subqcollapse_or_query.bind fun myq2_1 =>
  (OmQuery.compound .OP_AND [OmQuery.term "ball" 1 1, OmQuery.term "club" 1 1] 0).bind fun d1 =>
  (OmQuery.compound .OP_AND [d1, OmQuery.term "ring" 1 1] 0).bind fun myq2_2 =>
  (OmQuery.compound .OP_OR [myq2_1, myq2_2] 0).bind fun myq2 =>
  OmQuery.compound .OP_OR [myq1, myq2] 0

/-- The tree of `a OR b`, as the constructor leaves it. -/
def a_or_b : OmQuery :=
  { tree := some (.compound .OP_OR [.term "a" 1 1, .term "b" 1 1] 0), is_bool := false,
    qlen := 2 }

/-- Modelled from the spec: the greatest weight among the items of a match set, 0
when there are none (the loop of `test_maxattain1`). -/
def OmMSet.max_item_weight (m : OmMSet) : weight :=
  m.items.foldl (fun acc it => max acc it.wt) 0

/-- A weighting that satisfies the contract: `wqf * wdf / (wdf + 1)`, bounded by
`wqf`. -/
def sample_weighting : Weighting :=
  { term_weight := fun wdf _ _ _ wqf _ => (wqf * wdf : Nat) / ((wdf : Rat) + 1)
    term_maxweight := fun _ _ wqf _ => wqf
    weight_nonneg := fun wdf _ _ _ wqf _ => by positivity
    weight_le_max := fun wdf _ _ _ wqf _ => by
      have h : (0 : Rat) < (wdf : Rat) + 1 := by positivity
      rw [div_le_iff₀ h]
      push_cast
      nlinarith [Nat.cast_nonneg (α := Rat) wqf, Nat.cast_nonneg (α := Rat) wdf] }

/-- A backend of six documents: "thi" occurs `d` times in document `d`, "word"
once in documents 2 and 4; key 1 of a document is "even" or "odd". -/
def sample_backend : Backend :=
  { lastdocid := 6
    posting := fun t d =>
      if t = "thi" ∧ 1 ≤ d ∧ d ≤ 6 then some { wdf := d, positions := none }
      else if t = "word" ∧ (d = 2 ∨ d = 4) then some { wdf := 1, positions := none }
      else none
    doclength := fun _ => 10
    key := fun d k => if k = 1 then (if d % 2 = 0 then "even" else "odd") else "" }

/-!
## Reads of `data`, composed calls, the term-list cursor and the `make_*` members
-/

/-- The index at which `SleepyPostList::get_docid` reads `data`: `pos - 1`. -/
def SleepyPostList.get_docid_index (bits : Nat) (s : SleepyPostList) : Nat :=
  doccount_pred bits s.pos

/-- The indices at which the `while` loop of `SleepyPostList::skip_to` reads
`data`, in the order of the reads, while its body runs at most `fuel` times.
The condition `!at_end() && data[pos - 1] < did` reads `data[pos - 1]` exactly
when `at_end()` is false; the body (`next`) reads nothing. -/
def SleepyPostList.skip_to_loop_reads (bits did : Nat) (w_min : weight) :
    Nat → SleepyPostList → List Nat
  | 0, s => if s.at_end = false then [doccount_pred bits s.pos] else []
  | fuel + 1, s =>
    if s.at_end = false then
      doccount_pred bits s.pos ::
        (if s.data (doccount_pred bits s.pos) < did then
          match s.next bits w_min with
          | (some _, _) => []
          | (none, s') => skip_to_loop_reads bits did w_min fuel s'
        else [])
    else []

/-- The postings `data[0 .. termfreq-1]` are sorted ascending (a doc-id may
repeat). -/
def SleepyPostList.sorted_ascending (s : SleepyPostList) : Prop :=
  ∀ i j, i ≤ j → j < s.termfreq → s.data i ≤ s.data j

/-- The calls `skip_to(d1, w)` and then, if the list is not `at_end`,
`skip_to(d2, w)`, as a caller performs them on the same node: the pointer last
returned and the state left, or `none` when one of the two loops is still
running after `fuel1` (respectively `fuel2`) iterations. -/
def SleepyPostList.skip_to_twice (bits fuel1 fuel2 : Nat) (s : SleepyPostList)
    (d1 d2 : Nat) (w_min : weight) : Option (Option PostList × SleepyPostList) :=
  match s.skip_to bits fuel1 d1 w_min with
  | none => none
  | some (ret, s1) => if s1.at_end then some (ret, s1) else s1.skip_to bits fuel2 d2 w_min

/-- The call `next(w)` followed by `skip_to(did, w)` on the same node (`next`
returns `NULL`, so the node is not replaced). -/
def SleepyPostList.next_then_skip_to (bits fuel : Nat) (s : SleepyPostList) (did : Nat)
    (w_min : weight) : Option (Option PostList × SleepyPostList) :=
  match s.next bits w_min with
  | (some ret, s1) => some (some ret, s1)
  | (none, s1) => s1.skip_to bits fuel did w_min

/-- The term-list nodes a `TermList *` can address in these sources. -/
inductive TermList where
  | sleepy (t : SleepyTermList)

/-- Embeds `SleepyTermList::next`: the pointer returned and the state left.
`pos` is a `termcount`, a typedef declared outside these sources, taken to be an
unsigned integer type of `bits` bits. -/
def SleepyTermList.next (bits : Nat) (t : SleepyTermList) :
    Option TermList × SleepyTermList :=
  (none, { t with pos := (t.pos + 1) % 2 ^ bits })

/-- The index at which `SleepyTermList::get_termname` reads `data`: `pos`. -/
def SleepyTermList.get_termname_index (t : SleepyTermList) : Nat := t.pos

/-- A traversal of a term list as a caller performs it: call `next`, stop when
the list is `at_end`, otherwise record `get_termname` (with the index of `data`
it read) and go on.  `fuel` bounds the number of calls of `next`; `none` means
the list was not `at_end` after `fuel` calls. -/
def SleepyTermList.traverse (bits : Nat) :
    Nat → SleepyTermList → Option (List (Nat × String))
  | 0, _ => none
  | fuel + 1, t =>
    let t' := (t.next bits).2
    if t'.at_end then some []
    else (traverse bits fuel t').map
      (fun ns => (t'.get_termname_index, t'.get_termname) :: ns)

/-- The exception object `OmError(msg)` thrown by the `make_*` members.  The class
is declared outside these sources; the model keeps the message it is built
from.  (`OmError` above lists the error kinds of the specification.) -/
structure OmErrorException where
  msg : String
  deriving DecidableEq, Repr

/-- Embeds `SleepyDatabase::make_term`: the outcome (the function has one
statement, a `throw`) and the database left. -/
def SleepyDatabase.make_term (db : SleepyDatabase) (_tname : String) :
    Except OmErrorException Unit × SleepyDatabase :=
  (.error ⟨"DADatabase::make_term() not implemented"⟩, db)

/-- Embeds `SleepyDatabase::make_doc`: the outcome (the function has one
statement, a `throw`) and the database left.  A `docname` is a string. -/
def SleepyDatabase.make_doc (db : SleepyDatabase) (_dname : String) :
    Except OmErrorException Nat × SleepyDatabase :=
  (.error ⟨"DADatabase::make_doc() not implemented"⟩, db)

/-- Embeds `SleepyDatabase::make_posting`: the outcome (the function has one
statement, a `throw`) and the database left. -/
def SleepyDatabase.make_posting (db : SleepyDatabase) (_tname : String) (_a _b : Nat) :
    Except OmErrorException Unit × SleepyDatabase :=
  (.error ⟨"DADatabase::make_posting() not implemented"⟩, db)

/-- The posting list of `full_ones`, not yet positioned. -/
def SleepyPostList.full_ones_start : SleepyPostList :=
  { SleepyPostList.full_ones with pos := 0 }

/-- The postings are doc-ids as the specification has them (section 3:
"Doc-ids are strictly positive; iterators yield monotonically increasing
doc-ids"): strictly increasing and strictly positive. -/
def SleepyPostList.well_formed (s : SleepyPostList) : Prop :=
  s.strictly_increasing ∧ ∀ i, i < s.termfreq → 1 ≤ s.data i

/-- The 2^32 - 1 postings 1, ..., 2^32 - 1 of `full_last`, the cursor on
position `p`. -/
def SleepyPostList.full_at (p : Nat) : SleepyPostList :=
  { SleepyPostList.full_last with pos := p }

/-- Modelled from the spec: one merge of position-collapse (section 4.7, "OR
children that are identical (same term name, same position) are merged by
summing wqfs and deleting duplicates"): a term leaf that comes after the first
leaf of its name and position is deleted, and its wqf is added to that first
leaf; every other child stays where it is. -/
def QueryTree.merge_step (l l' : List QueryTree) : Prop :=
  ∃ (a b c : List QueryTree) (n : String) (w1 w2 p : Nat),
    a.any (QueryTree.is_leaf_at n p) = false ∧
    l = a ++ QueryTree.term n w1 p :: (b ++ QueryTree.term n w2 p :: c) ∧
    l' = a ++ QueryTree.term n (w1 + w2) p :: (b ++ c)

/-- Modelled from the spec: the total wqf of the term leaves of this name and
position among the children of a node. -/
def QueryTree.wqf_at (tname : String) (term_pos : Nat) : List QueryTree → Nat
  | [] => 0
  | .term n w p :: rest =>
    (if n = tname ∧ p = term_pos then w else 0) + QueryTree.wqf_at tname term_pos rest
  | .compound _ _ _ :: rest => QueryTree.wqf_at tname term_pos rest

/-- C1: in every state an empty posting list reaches by a sequence of `next`
and `skip_to` calls it is at its end, its term frequency is 0, and both
`get_maxweight` and `recalc_maxweight` give 0; every call returns `NULL` (the
node is never replaced), and a traversal from that state ends at its first
`next` having produced no document. -/
theorem EmptyPostList.yields_nothing (e : EmptyPostList) (calls : List PostListCall) :
    (e.run calls).at_end = true ∧
    (e.run calls).get_termfreq = 0 ∧
    (e.run calls).get_maxweight = 0 ∧
    (e.run calls).recalc_maxweight.1 = 0 ∧
    (∀ c : PostListCall, ((e.run calls).call c).1 = none) ∧
    ∀ (w : weight) (fuel : Nat), (e.run calls).traverse w (fuel + 1) = some [] := by
  refine ⟨rfl, rfl, rfl, rfl, ?_, fun _ _ => rfl⟩
  intro c
  cases c <;> rfl

/-! ## Arithmetic of `doccount` -/

theorem doccount_incr_of_lt {bits n : Nat} (h : n + 1 < 2 ^ bits) :
    doccount_incr bits n = n + 1 := by
  unfold doccount_incr
  exact Nat.mod_eq_of_lt h

theorem doccount_pred_of_pos {bits n : Nat} (h0 : 0 < n) (h : n ≤ 2 ^ bits) :
    doccount_pred bits n = n - 1 := by
  unfold doccount_pred
  have e : n + 2 ^ bits - 1 = (n - 1) + 2 ^ bits := by omega
  rw [e, Nat.add_mod_right]
  exact Nat.mod_eq_of_lt (by omega)

theorem doccount_incr_lt (bits n : Nat) : doccount_incr bits n < 2 ^ bits := by
  unfold doccount_incr
  exact Nat.mod_lt _ (Nat.two_pow_pos bits)

theorem one_lt_two_pow {bits : Nat} (h : 0 < bits) : 1 < 2 ^ bits :=
  Nat.one_lt_two_pow (by omega)

theorem SleepyPostList.at_end_eq_true_iff (s : SleepyPostList) :
    s.at_end = true ↔ s.termfreq < s.pos := by
  unfold SleepyPostList.at_end
  split <;> simp_all

theorem SleepyPostList.at_end_eq_false_iff (s : SleepyPostList) :
    s.at_end = false ↔ s.pos ≤ s.termfreq := by
  unfold SleepyPostList.at_end
  split <;> simp_all

/-! ## `next` -/

theorem SleepyPostList.sample_strictly_increasing :
    SleepyPostList.sample.strictly_increasing := by
  intro i j hij hj
  have hj' : j < 2 := hj
  have hi0 : i = 0 := by omega
  have hj1 : j = 1 := by omega
  subst hi0 hj1
  decide

/-- C6: on a `doccount` of at least one bit, the first `next` brings an
unpositioned posting list with `termfreq >= 1` to its first document (it is not
`at_end` and `get_docid` is `data[0]`); with `termfreq = 0` the unpositioned
list is not `at_end` and the first `next` makes it `at_end`. -/
theorem SleepyPostList.first_next (bits : Nat) (s : SleepyPostList) (w : weight)
    (hbits : 0 < bits) (hpos : s.pos = 0) :
    (1 ≤ s.termfreq →
      (s.next bits w).2.at_end = false ∧ (s.next bits w).2.get_docid bits = s.data 0) ∧
    (s.termfreq = 0 → s.at_end = false ∧ (s.next bits w).2.at_end = true) := by
  have h2 : 1 < 2 ^ bits := one_lt_two_pow hbits
  have hincr : doccount_incr bits s.pos = 1 := by
    rw [hpos]; exact doccount_incr_of_lt (by omega)
  have hpred : doccount_pred bits 1 = 0 := doccount_pred_of_pos (by omega) (by omega)
  constructor
  · intro htf
    constructor
    · rw [SleepyPostList.at_end_eq_false_iff]
      simpa [SleepyPostList.next, hincr] using htf
    · simp [SleepyPostList.get_docid, SleepyPostList.next, hincr, hpred]
  · intro htf
    constructor
    · rw [SleepyPostList.at_end_eq_false_iff]; omega
    · rw [SleepyPostList.at_end_eq_true_iff]
      simp [SleepyPostList.next, hincr, htf]

/-- Witness of C6: the posting list of documents 2 and 4, before its first
`next`, on a 32-bit `doccount`. -/
theorem SleepyPostList.first_next_witness :
    (({ SleepyPostList.sample with pos := 0 } : SleepyPostList).next 32 0).2.at_end = false ∧
    (({ SleepyPostList.sample with pos := 0 } : SleepyPostList).next 32 0).2.get_docid 32 = 2 :=
  (SleepyPostList.first_next 32 { SleepyPostList.sample with pos := 0 } 0 (by decide) rfl).1
    (by decide)

/-! ## `skip_to` -/

theorem SleepyPostList.skip_to_loop_of_stop (bits did : Nat) (w : weight) (fuel : Nat)
    (s : SleepyPostList)
    (h : ¬ (s.at_end = false ∧ s.data (doccount_pred bits s.pos) < did)) :
    SleepyPostList.skip_to_loop bits did w fuel s = some (none, s) := by
  cases fuel <;> simp only [SleepyPostList.skip_to_loop, if_neg h]

theorem SleepyPostList.skip_to_of_pos_ne_zero (bits fuel : Nat) (s : SleepyPostList)
    (did : Nat) (w : weight) (h : s.pos ≠ 0) :
    s.skip_to bits fuel did w = SleepyPostList.skip_to_loop bits did w fuel s := by
  simp only [SleepyPostList.skip_to, if_neg h]

/-- C3: `at_end` is sticky.  With `pos` below the largest `doccount` value, a
`SleepyPostList` that is `at_end` is still `at_end` after `next` and after
`skip_to` (which returns, whatever the bound on its loop); an `EmptyPostList`
is `at_end` after either call. -/
theorem at_end_sticky (bits fuel : Nat) (s : SleepyPostList) (e : EmptyPostList)
    (d : Nat) (w : weight) (hend : s.at_end = true) (hpos : s.pos + 1 < 2 ^ bits) :
    (s.next bits w).2.at_end = true ∧
    (∃ s', s.skip_to bits fuel d w = some (none, s') ∧ s'.at_end = true) ∧
    (e.at_end = true → (e.next w).2.at_end = true ∧ (e.skip_to d w).2.at_end = true) := by
  have hlt : s.termfreq < s.pos := (SleepyPostList.at_end_eq_true_iff s).1 hend
  refine ⟨?_, ⟨s, ?_, hend⟩, fun _ => ⟨rfl, rfl⟩⟩
  · rw [SleepyPostList.at_end_eq_true_iff]
    simp only [SleepyPostList.next, doccount_incr_of_lt hpos]
    omega
  · rw [SleepyPostList.skip_to_of_pos_ne_zero bits fuel s d w (by omega)]
    exact SleepyPostList.skip_to_loop_of_stop bits d w fuel s (by simp [hend])

/-- Witness of C3: the posting list of documents 2 and 4 with the cursor past
its end, on a 32-bit `doccount`, skipping to document 9 with a bound of 0 on
the loop. -/
theorem at_end_sticky_witness :
    (({ SleepyPostList.sample with pos := 3 } : SleepyPostList).next 32 0).2.at_end = true ∧
    (∃ s', ({ SleepyPostList.sample with pos := 3 } : SleepyPostList).skip_to 32 0 9 0
        = some (none, s') ∧ s'.at_end = true) ∧
    ((EmptyPostList.mk).at_end = true →
      ((EmptyPostList.mk).next 0).2.at_end = true ∧
      ((EmptyPostList.mk).skip_to 9 0).2.at_end = true) :=
  at_end_sticky 32 0 { SleepyPostList.sample with pos := 3 } EmptyPostList.mk 9 0
    (by decide) (by decide)

/-- C5: `skip_to` to a doc-id the cursor has reached is a no-op.  For a
`SleepyPostList` on a posting with `get_docid() >= d`, `skip_to(d, w)` returns
`NULL` and leaves the whole state (so the cursor position, `get_docid` and
`at_end`) unchanged, whatever the bound on its loop; for an `EmptyPostList`
`skip_to` returns `NULL` and leaves the state unchanged. -/
theorem skip_to_reached_is_noop (bits fuel : Nat) (s : SleepyPostList) (e : EmptyPostList)
    (d : Nat) (w : weight) (h1 : 1 ≤ s.pos) (_h2 : s.pos ≤ s.termfreq)
    (hd : d ≤ s.get_docid bits) :
    s.skip_to bits fuel d w = some (none, s) ∧ e.skip_to d w = (none, e) := by
  refine ⟨?_, rfl⟩
  rw [SleepyPostList.skip_to_of_pos_ne_zero bits fuel s d w (by omega)]
  apply SleepyPostList.skip_to_loop_of_stop
  intro hc
  have : s.data (doccount_pred bits s.pos) < d := hc.2
  simp only [SleepyPostList.get_docid] at hd
  omega

/-- Witness of C5: the cursor on document 2, skipping to document 1. -/
theorem skip_to_reached_is_noop_witness :
    SleepyPostList.sample.skip_to 32 0 1 0 = some (none, SleepyPostList.sample) ∧
    (EmptyPostList.mk).skip_to 1 0 = (none, EmptyPostList.mk) :=
  skip_to_reached_is_noop 32 0 SleepyPostList.sample EmptyPostList.mk 1 0
    (by decide) (by decide) (by decide)

theorem SleepyPostList.skip_to_loop_spec (bits did : Nat) (w : weight) :
    ∀ (fuel : Nat) (s : SleepyPostList), s.termfreq + 1 < 2 ^ bits → 1 ≤ s.pos →
      s.pos ≤ s.termfreq + 1 → s.termfreq + 1 - s.pos ≤ fuel →
      ∃ s', SleepyPostList.skip_to_loop bits did w fuel s = some (none, s') ∧
        s'.data = s.data ∧ s'.termfreq = s.termfreq ∧ s.pos ≤ s'.pos ∧
        s'.pos ≤ s.termfreq + 1 ∧
        (∀ p, s.pos ≤ p → p < s'.pos → s.data (p - 1) < did) ∧
        (s'.pos ≤ s.termfreq → did ≤ s.data (s'.pos - 1)) := by
  intro fuel
  induction fuel with
  | zero =>
    intro s _ _ hle hfuel
    have hend : s.at_end = true := by
      rw [SleepyPostList.at_end_eq_true_iff]; omega
    refine ⟨s, ?_, rfl, rfl, le_refl _, hle, ?_, ?_⟩
    · exact SleepyPostList.skip_to_loop_of_stop bits did w 0 s (by simp [hend])
    · intro p h1 h2; omega
    · intro h; omega
  | succ n ih =>
    intro s hmax h1 hle hfuel
    have hpred : doccount_pred bits s.pos = s.pos - 1 := doccount_pred_of_pos h1 (by omega)
    by_cases hc : s.at_end = false ∧ s.data (doccount_pred bits s.pos) < did
    · have hlt : s.pos ≤ s.termfreq := (SleepyPostList.at_end_eq_false_iff s).1 hc.1
      have hincr : doccount_incr bits s.pos = s.pos + 1 := doccount_incr_of_lt (by omega)
      have hstep : SleepyPostList.skip_to_loop bits did w (n + 1) s =
          SleepyPostList.skip_to_loop bits did w n { s with pos := s.pos + 1 } := by
        simp only [SleepyPostList.skip_to_loop, if_pos hc, SleepyPostList.next, hincr]
      obtain ⟨s', hs', hdata, htf, hge, hup, hbelow, hhit⟩ :=
        ih { s with pos := s.pos + 1 } hmax (by simp) (by simpa using hlt)
          (by simp only []; omega)
      refine ⟨s', by rw [hstep, hs'], hdata, htf, ?_, hup, ?_, hhit⟩
      · have : s.pos + 1 ≤ s'.pos := hge
        omega
      · intro p hp1 hp2
        by_cases hp : p = s.pos
        · subst hp
          have := hc.2
          rwa [hpred] at this
        · exact hbelow p (by show s.pos + 1 ≤ p; omega) hp2
    · refine ⟨s, SleepyPostList.skip_to_loop_of_stop bits did w (n + 1) s hc, rfl, rfl,
        le_refl _, hle, ?_, ?_⟩
      · intro p hp1 hp2; omega
      · intro hle'
        have hne : s.at_end = false := (SleepyPostList.at_end_eq_false_iff s).2 hle'
        have hnlt : ¬ s.data (doccount_pred bits s.pos) < did := fun h => hc ⟨hne, h⟩
        rw [hpred] at hnlt
        omega

theorem SleepyPostList.skip_to_loop_full_ones :
    ∀ (fuel : Nat) (s : SleepyPostList), s.data = SleepyPostList.full_ones.data →
      s.termfreq = 2 ^ 32 - 1 → s.pos < 2 ^ 32 →
      SleepyPostList.skip_to_loop 32 2 0 fuel s = none := by
  intro fuel
  induction fuel with
  | zero =>
    intro s hdata htf hpos
    have hc : s.at_end = false ∧ s.data (doccount_pred 32 s.pos) < 2 := by
      refine ⟨(SleepyPostList.at_end_eq_false_iff s).2 (by omega), ?_⟩
      rw [hdata]; exact Nat.one_lt_two
    simp only [SleepyPostList.skip_to_loop, if_pos hc]
  | succ n ih =>
    intro s hdata htf hpos
    have hc : s.at_end = false ∧ s.data (doccount_pred 32 s.pos) < 2 := by
      refine ⟨(SleepyPostList.at_end_eq_false_iff s).2 (by omega), ?_⟩
      rw [hdata]; exact Nat.one_lt_two
    simp only [SleepyPostList.skip_to_loop, if_pos hc, SleepyPostList.next]
    exact ih _ hdata htf (doccount_incr_lt 32 s.pos)

/-! ## Traversal -/

theorem SleepyPostList.traverse_spec (bits : Nat) (w : weight) :
    ∀ (fuel : Nat) (s : SleepyPostList), s.termfreq + 1 < 2 ^ bits → s.pos ≤ s.termfreq →
      s.termfreq + 1 - s.pos ≤ fuel →
      SleepyPostList.traverse bits w fuel s =
        some ((List.range' s.pos (s.termfreq - s.pos)).map s.data) := by
  intro fuel
  induction fuel with
  | zero => intro s _ hle hfuel; omega
  | succ n ih =>
    intro s hmax hle hfuel
    have hincr : doccount_incr bits s.pos = s.pos + 1 := doccount_incr_of_lt (by omega)
    by_cases hlast : s.pos = s.termfreq
    · have hend : ({ s with pos := s.pos + 1 } : SleepyPostList).at_end = true := by
        rw [SleepyPostList.at_end_eq_true_iff]; simp only []; omega
      simp only [SleepyPostList.traverse, SleepyPostList.next, hincr, hend, if_true]
      simp [hlast]
    · have hne : ({ s with pos := s.pos + 1 } : SleepyPostList).at_end = false := by
        rw [SleepyPostList.at_end_eq_false_iff]; simp only []; omega
      have hpred : doccount_pred bits (s.pos + 1) = s.pos := by
        rw [doccount_pred_of_pos (by omega) (by omega)]; omega
      have hrec := ih { s with pos := s.pos + 1 } hmax (by simp only []; omega)
        (by simp only []; omega)
      simp only [] at hrec
      have hlen : s.termfreq - s.pos = (s.termfreq - (s.pos + 1)) + 1 := by omega
      simp only [SleepyPostList.traverse, SleepyPostList.next, hincr, hne, hrec,
        SleepyPostList.get_docid, hpred, Option.map_some']
      rw [hlen, List.range'_succ]
      simp

theorem SleepyPostList.traverse_short (bits : Nat) (w : weight) :
    ∀ (fuel : Nat) (s : SleepyPostList), s.termfreq + 1 < 2 ^ bits →
      fuel + s.pos ≤ s.termfreq → SleepyPostList.traverse bits w fuel s = none := by
  intro fuel
  induction fuel with
  | zero => intro s _ _; rfl
  | succ n ih =>
    intro s hmax hle
    have hincr : doccount_incr bits s.pos = s.pos + 1 := doccount_incr_of_lt (by omega)
    have hne : ({ s with pos := s.pos + 1 } : SleepyPostList).at_end = false := by
      rw [SleepyPostList.at_end_eq_false_iff]; simp only []; omega
    have hrec := ih { s with pos := s.pos + 1 } hmax (by simp only []; omega)
    simp [SleepyPostList.traverse, SleepyPostList.next, hincr, hne, hrec]

theorem SleepyPostList.traverse_full (bits : Nat) (w : weight) :
    ∀ (fuel : Nat) (s : SleepyPostList), s.termfreq + 1 = 2 ^ bits →
      SleepyPostList.traverse bits w fuel s = none := by
  intro fuel
  induction fuel with
  | zero => intro s _; rfl
  | succ n ih =>
    intro s hfull
    have hlt := doccount_incr_lt bits s.pos
    have hne : ({ s with pos := doccount_incr bits s.pos } : SleepyPostList).at_end = false := by
      rw [SleepyPostList.at_end_eq_false_iff]; simp only []; omega
    have hrec := ih { s with pos := doccount_incr bits s.pos } hfull
    simp [SleepyPostList.traverse, SleepyPostList.next, hne, hrec]

theorem SleepyPostList.nexts_spec (bits : Nat) (w : weight) :
    ∀ (k : Nat) (s : SleepyPostList), s.pos + k < 2 ^ bits →
      (SleepyPostList.nexts bits w k s).pos = s.pos + k ∧
      (SleepyPostList.nexts bits w k s).termfreq = s.termfreq := by
  intro k
  induction k with
  | zero => intro s _; exact ⟨rfl, rfl⟩
  | succ n ih =>
    intro s h
    have hincr : doccount_incr bits s.pos = s.pos + 1 := doccount_incr_of_lt (by omega)
    obtain ⟨h1, h2⟩ := ih { s with pos := s.pos + 1 } (by simp only []; omega)
    simp only [SleepyPostList.nexts, SleepyPostList.next, hincr]
    exact ⟨by rw [h1]; simp only []; omega, h2⟩

theorem SleepyPostList.nexts_full (bits : Nat) (w : weight) :
    ∀ (k : Nat) (s : SleepyPostList), s.termfreq + 1 = 2 ^ bits → s.pos < 2 ^ bits →
      (SleepyPostList.nexts bits w k s).at_end = false := by
  intro k
  induction k with
  | zero =>
    intro s hfull hpos
    exact (SleepyPostList.at_end_eq_false_iff s).2 (by omega)
  | succ n ih =>
    intro s hfull hpos
    exact ih { s with pos := doccount_incr bits s.pos } hfull (doccount_incr_lt bits s.pos)

/-- C7 fails as stated: on a 32-bit `doccount`, the unpositioned list of the
2^32 - 1 postings 1, ..., 2^32 - 1 is never `at_end`, however many times `next`
is called (`pos` wraps to 0 on call `termfreq + 1`), so the traversal does not
end after `termfreq + 1` calls, nor after any other number. -/
theorem SleepyPostList.traverse_never_ends_at_full :
    SleepyPostList.full_start.pos = 0 ∧
    SleepyPostList.full_start.strictly_increasing ∧
    (∀ k, (SleepyPostList.nexts 32 0 k SleepyPostList.full_start).at_end = false) ∧
    ∀ fuel, SleepyPostList.traverse 32 0 fuel SleepyPostList.full_start = none := by
  refine ⟨rfl, ?_, fun k => SleepyPostList.nexts_full 32 0 k _ (by decide) (by decide),
    fun fuel => SleepyPostList.traverse_full 32 0 fuel _ (by decide)⟩
  intro i j hij hj
  have hj' : j < 2 ^ 32 - 1 := hj
  have hi' : i < 2 ^ 32 - 1 := by omega
  show (if i < 2 ^ 32 - 1 then i + 1 else 1) < (if j < 2 ^ 32 - 1 then j + 1 else 1)
  rw [if_pos hi', if_pos hj']
  omega

/-- C7 (amended): for a posting list whose term frequency is below the largest
`doccount` value, the traversal from the unpositioned state (calling `next`
until `at_end`) yields exactly the doc-ids `data[0]`, ..., `data[termfreq-1]`
in that order; their number is `get_termfreq()`; and `at_end` first becomes
true after exactly `termfreq + 1` calls of `next`: it is false after `k` calls
for every `k <= termfreq` and true after `termfreq + 1`, so the traversal is
complete with `termfreq + 1` calls or more, and is not with `termfreq` calls
or fewer. -/
theorem SleepyPostList.traverse_yields_postings (bits : Nat) (s : SleepyPostList)
    (w : weight) (hpos : s.pos = 0) (hmax : s.termfreq + 1 < 2 ^ bits) :
    (∀ fuel, s.termfreq + 1 ≤ fuel →
      SleepyPostList.traverse bits w fuel s = some ((List.range s.termfreq).map s.data)) ∧
    ((List.range s.termfreq).map s.data).length = s.get_termfreq ∧
    (∀ fuel, fuel ≤ s.termfreq → SleepyPostList.traverse bits w fuel s = none) ∧
    (∀ k, k ≤ s.termfreq → (SleepyPostList.nexts bits w k s).at_end = false) ∧
    (SleepyPostList.nexts bits w (s.termfreq + 1) s).at_end = true := by
  refine ⟨?_, by simp [SleepyPostList.get_termfreq], ?_, ?_, ?_⟩
  · intro fuel hfuel
    rw [SleepyPostList.traverse_spec bits w fuel s hmax (by omega) (by omega), hpos,
      List.range_eq_range']
    simp
  · intro fuel hfuel
    exact SleepyPostList.traverse_short bits w fuel s hmax (by omega)
  · intro k hk
    obtain ⟨h1, h2⟩ := SleepyPostList.nexts_spec bits w k s (by omega)
    rw [SleepyPostList.at_end_eq_false_iff, h1, h2]
    omega
  · obtain ⟨h1, h2⟩ := SleepyPostList.nexts_spec bits w (s.termfreq + 1) s (by omega)
    rw [SleepyPostList.at_end_eq_true_iff, h1, h2]
    omega

/-- Witness of C7: the unpositioned posting list of documents 2 and 4 on a
32-bit `doccount` yields 2 and 4 with three calls of `next`, and is not
finished with two. -/
theorem SleepyPostList.traverse_yields_postings_witness :
    SleepyPostList.traverse 32 0 3 { SleepyPostList.sample with pos := 0 } = some [2, 4] ∧
    SleepyPostList.traverse 32 0 2 { SleepyPostList.sample with pos := 0 } = none :=
  ⟨(SleepyPostList.traverse_yields_postings 32 { SleepyPostList.sample with pos := 0 } 0
      rfl (by decide)).1 3 (by decide),
   (SleepyPostList.traverse_yields_postings 32 { SleepyPostList.sample with pos := 0 } 0
      rfl (by decide)).2.2.1 2 (by decide)⟩

/-! ## Term frequencies -/

/-- C8 (the code departs from it): `sample_termlist` is positioned on a term
of a database in which that term indexes two documents, as
`SleepyDatabase::get_termfreq(get_termname())` reports, yet
`SleepyTermList::get_termfreq()` is 1. -/
theorem SleepyTermList.get_termfreq_is_placeholder :
    sample_termlist.on_term = true ∧
    sample_termlist.get_termname = "word" ∧
    sample_database.get_termfreq sample_termlist.get_termname = 2 ∧
    sample_termlist.get_termfreq = 1 ∧
    sample_termlist.get_termfreq ≠
      sample_database.get_termfreq sample_termlist.get_termname := by
  refine ⟨by decide, by decide, by decide, rfl, by decide⟩

/-- C9: `SleepyDatabase::get_termfreq(t)` is 0 when `open_post_list` yields no
posting list for `t`, and otherwise is `get_termfreq()` of the posting list
opened for `t`. -/
theorem SleepyDatabase.get_termfreq_of_open_post_list (db : SleepyDatabase) (t : String) :
    (db.open_post_list t none = none → db.get_termfreq t = 0) ∧
    (∀ pl, db.open_post_list t none = some pl → db.get_termfreq t = pl.get_termfreq) := by
  constructor
  · intro h
    simp only [SleepyDatabase.get_termfreq, h]
  · intro pl h
    simp only [SleepyDatabase.get_termfreq, h]

/-- Witness of C9: in `sample_database` the absent term "frink" has term
frequency 0 and "word" has the term frequency of its posting list. -/
theorem SleepyDatabase.get_termfreq_of_open_post_list_witness :
    sample_database.get_termfreq "frink" = 0 ∧
    sample_database.get_termfreq "word" =
      (PostList.sleepy { SleepyPostList.sample with pos := 0 }).get_termfreq :=
  ⟨(SleepyDatabase.get_termfreq_of_open_post_list sample_database "frink").1 rfl,
   (SleepyDatabase.get_termfreq_of_open_post_list sample_database "word").2 _ rfl⟩

/-! ## Doc-ids of a multi-database -/

/-- C10: with `N` sub-databases, mapping local id `l >= 1` of sub-database
`i < N` to `(l - 1) * N + i + 1` is injective on pairs `(i, l)` and yields an
id `>= 1`, so two different sub-databases never share a mapped id; with
`N = 2`, locals 2 and 4 of sub-database 0 map to 3 and 7 and local 1 of
sub-database 1 maps to 2. -/
theorem multidb_map_docid_injective (N i₁ l₁ i₂ l₂ : Nat) (hi₁ : i₁ < N) (hi₂ : i₂ < N)
    (hl₁ : 1 ≤ l₁) (hl₂ : 1 ≤ l₂) :
    (multidb_map_docid N i₁ l₁ = multidb_map_docid N i₂ l₂ → i₁ = i₂ ∧ l₁ = l₂) ∧
    1 ≤ multidb_map_docid N i₁ l₁ ∧
    (i₁ ≠ i₂ → multidb_map_docid N i₁ l₁ ≠ multidb_map_docid N i₂ l₂) ∧
    (multidb_map_docid 2 0 2 = 3 ∧ multidb_map_docid 2 0 4 = 7 ∧
      multidb_map_docid 2 1 1 = 2) := by
  have hinj : multidb_map_docid N i₁ l₁ = multidb_map_docid N i₂ l₂ → i₁ = i₂ ∧ l₁ = l₂ := by
    intro h
    unfold multidb_map_docid at h
    have h' : (l₁ - 1) * N + i₁ = (l₂ - 1) * N + i₂ := by omega
    have hm := congrArg (· % N) h'
    simp only [Nat.mul_add_mod', Nat.mod_eq_of_lt hi₁, Nat.mod_eq_of_lt hi₂] at hm
    subst hm
    have hN : 0 < N := by omega
    have hmul : (l₁ - 1) * N = (l₂ - 1) * N := by omega
    have := Nat.eq_of_mul_eq_mul_right hN hmul
    exact ⟨rfl, by omega⟩
  refine ⟨hinj, ?_, fun hne h => hne (hinj h).1, rfl, rfl, rfl⟩
  unfold multidb_map_docid
  omega

/-- Witness of C10: local 2 of sub-database 0 and local 1 of sub-database 1,
of two. -/
theorem multidb_map_docid_injective_witness :
    (multidb_map_docid 2 0 2 = multidb_map_docid 2 1 1 → 0 = 1 ∧ 2 = 1) ∧
    1 ≤ multidb_map_docid 2 0 2 ∧
    (0 ≠ 1 → multidb_map_docid 2 0 2 ≠ multidb_map_docid 2 1 1) ∧
    (multidb_map_docid 2 0 2 = 3 ∧ multidb_map_docid 2 0 4 = 7 ∧
      multidb_map_docid 2 1 1 = 2) :=
  multidb_map_docid_injective 2 0 2 1 1 (by decide) (by decide) (by decide) (by decide)

/-! ## Query length and canonical form -/

theorem QueryTree.wqf_sum_list_append (a b : List QueryTree) :
    QueryTree.wqf_sum_list (a ++ b) = QueryTree.wqf_sum_list a + QueryTree.wqf_sum_list b := by
  induction a with
  | nil => simp [QueryTree.wqf_sum_list]
  | cons c cs ih => simp [QueryTree.wqf_sum_list, ih, Nat.add_assoc]

theorem QueryTree.wqf_sum_list_splice (op : om_queryop) (cs : List QueryTree) :
    QueryTree.wqf_sum_list (QueryTree.splice op cs) = QueryTree.wqf_sum_list cs := by
  induction cs with
  | nil => rfl
  | cons c rest ih =>
    cases c with
    | term n w p => simp [QueryTree.splice, QueryTree.wqf_sum_list, ih]
    | compound op' cs' w =>
      by_cases h : (op = .OP_OR ∨ op = .OP_AND) ∧ op' = op
      · simp only [QueryTree.splice, if_pos h, QueryTree.wqf_sum_list_append, ih,
          QueryTree.wqf_sum_list, QueryTree.wqf_sum]
      · simp only [QueryTree.splice, if_neg h, ih, QueryTree.wqf_sum_list]

theorem QueryTree.wqf_sum_list_add_wqf (n : String) (p w : Nat) (kept : List QueryTree)
    (h : kept.any (QueryTree.is_leaf_at n p) = true) :
    QueryTree.wqf_sum_list (QueryTree.add_wqf n p w kept) = QueryTree.wqf_sum_list kept + w := by
  induction kept with
  | nil => simp at h
  | cons c cs ih =>
    cases c with
    | term n' w' p' =>
      by_cases hc : n' = n ∧ p' = p
      · simp only [QueryTree.add_wqf, if_pos hc, QueryTree.wqf_sum_list, QueryTree.wqf_sum]
        omega
      · have hrest : cs.any (QueryTree.is_leaf_at n p) = true := by
          simpa [QueryTree.is_leaf_at, hc] using h
        simp only [QueryTree.add_wqf, if_neg hc, QueryTree.wqf_sum_list, ih hrest]
        omega
    | compound op' cs' w' =>
      have hrest : cs.any (QueryTree.is_leaf_at n p) = true := by
        simpa [QueryTree.is_leaf_at] using h
      simp only [QueryTree.add_wqf, QueryTree.wqf_sum_list, ih hrest]
      omega

theorem QueryTree.wqf_sum_list_collapse_into (kept : List QueryTree) (c : QueryTree) :
    QueryTree.wqf_sum_list (QueryTree.collapse_into kept c) =
      QueryTree.wqf_sum_list kept + QueryTree.wqf_sum c := by
  cases c with
  | term n w p =>
    by_cases h : kept.any (QueryTree.is_leaf_at n p) = true
    · simp only [QueryTree.collapse_into, if_pos h, QueryTree.wqf_sum_list_add_wqf n p w kept h,
        QueryTree.wqf_sum]
    · simp only [QueryTree.collapse_into, if_neg h, QueryTree.wqf_sum_list_append,
        QueryTree.wqf_sum_list, QueryTree.wqf_sum, Nat.add_zero]
  | compound op cs w =>
    simp only [QueryTree.collapse_into, QueryTree.wqf_sum_list_append, QueryTree.wqf_sum_list,
      Nat.add_zero]

theorem QueryTree.wqf_sum_list_foldl_collapse_into (cs kept : List QueryTree) :
    QueryTree.wqf_sum_list (cs.foldl QueryTree.collapse_into kept) =
      QueryTree.wqf_sum_list kept + QueryTree.wqf_sum_list cs := by
  induction cs generalizing kept with
  | nil => simp [QueryTree.wqf_sum_list]
  | cons c rest ih =>
    simp only [List.foldl_cons, ih, QueryTree.wqf_sum_list_collapse_into, QueryTree.wqf_sum_list]
    omega

theorem QueryTree.wqf_sum_list_canonical_children (op : om_queryop) (cs : List QueryTree) :
    QueryTree.wqf_sum_list (QueryTree.canonical_children op cs) = QueryTree.wqf_sum_list cs := by
  unfold QueryTree.canonical_children
  split
  · simp only [QueryTree.collapse, QueryTree.wqf_sum_list_foldl_collapse_into,
      QueryTree.wqf_sum_list_splice, QueryTree.wqf_sum_list, Nat.zero_add]
  · exact QueryTree.wqf_sum_list_splice op cs

theorem OmQuery.wqf_sum_list_trees (qs : List OmQuery) :
    QueryTree.wqf_sum_list (OmQuery.trees qs) = (qs.map OmQuery.wqf_sum).sum := by
  induction qs with
  | nil => rfl
  | cons q rest ih =>
    cases hq : q.tree with
    | none => simp [OmQuery.trees, OmQuery.wqf_sum, hq, ih]
    | some t => simp [OmQuery.trees, OmQuery.wqf_sum, hq, ih, QueryTree.wqf_sum_list]

theorem OmQuery.compound_ok (op : om_queryop) (qs : List OmQuery) (window : Nat) (q : OmQuery)
    (h : OmQuery.compound op qs window = .ok q) :
    (∃ l r t, op = .OP_FILTER ∧ qs = [l, r] ∧ l.tree = none ∧ r.tree = some t ∧
      q = { tree := some t, is_bool := true, qlen := t.wqf_sum }) ∨
    (qs = [] ∧ q = OmQuery.null) ∨
    ((∀ o ∈ qs, o.is_bool = true → op = .OP_FILTER) ∧ (∀ o ∈ qs, o.tree.isNone = false) ∧
      qs ≠ [] ∧
      q = { tree := some (.compound op (QueryTree.canonical_children op (OmQuery.trees qs)) window),
            is_bool := false,
            qlen := QueryTree.wqf_sum_list
              (QueryTree.canonical_children op (OmQuery.trees qs)) }) := by
  unfold OmQuery.compound at h
  split at h
  · cases h
  · rename_i hbool
    split at h
    · rename_i l_bool l_len t r_bool r_len
      left
      refine ⟨_, _, t, rfl, rfl, rfl, rfl, ?_⟩
      injection h with h
      exact h.symm
    · right
      split at h
      · cases h
      · rename_i hnull
        split at h
        · rename_i hempty
          left
          injection h with h
          exact ⟨List.isEmpty_iff.1 hempty, h.symm⟩
        · rename_i hne
          right
          injection h with h
          refine ⟨?_, ?_, ?_, h.symm⟩
          · intro o ho hb
            by_contra hop
            exact hbool ⟨hop, List.any_eq_true.2 ⟨o, ho, hb⟩⟩
          · intro o ho
            cases hn : o.tree.isNone with
            | false => rfl
            | true => exact absurd (List.any_eq_true.2 ⟨o, ho, hn⟩) hnull
          · intro he
            exact hne (by simp [he])

theorem OmQuery.compound_length (op : om_queryop) (qs : List OmQuery) (window : Nat)
    (q : OmQuery) (h : OmQuery.compound op qs window = .ok q) :
    q.get_length = q.wqf_sum ∧ q.get_length = (qs.map OmQuery.wqf_sum).sum := by
  rcases OmQuery.compound_ok op qs window q h with
    ⟨l, r, t, _, hqs, hl, hr, hq⟩ | ⟨hqs, hq⟩ | ⟨_, _, _, hq⟩
  · subst hq hqs
    simp [OmQuery.get_length, OmQuery.wqf_sum, hl, hr]
  · subst hq hqs
    simp [OmQuery.get_length, OmQuery.wqf_sum, OmQuery.null]
  · subst hq
    simp only [OmQuery.get_length, OmQuery.wqf_sum, QueryTree.wqf_sum,
      QueryTree.wqf_sum_list_canonical_children, OmQuery.wqf_sum_list_trees, and_self]

theorem OmQuery.Built.length_eq (q : OmQuery) (h : OmQuery.Built q) :
    q.get_length = q.wqf_sum := by
  induction h with
  | null => rfl
  | term n w p => rfl
  | compound op qs window q _ hq _ => exact (OmQuery.compound_length op qs window q hq).1
  | set_bool q b _ ih =>
    simpa [OmQuery.set_bool, OmQuery.get_length, OmQuery.wqf_sum] using ih

/-- C11: `get_length()` is 0 for the null query and the wqf of a term query; for
every query a compound constructor returns (from a pair or a vector of operand
queries) it is the sum of the wqf of the leaves of the query, which is the sum
of the wqf of all the leaves of the operands; so it is for every query built
from terms and compound constructors, and for a query from a vector of terms it
is the number of terms; `set_length` overrides it.  The query
`(foo OR bar) AND (wibble OR spoon)` has length 4 and that of `test_querylen3`
length 10. -/
theorem OmQuery.get_length_is_wqf_sum :
    OmQuery.null.get_length = 0 ∧
    (∀ tname wqf term_pos, (OmQuery.term tname wqf term_pos).get_length = wqf) ∧
    (∀ op qs window q, OmQuery.compound op qs window = .ok q →
      q.get_length = q.wqf_sum ∧ q.get_length = (qs.map OmQuery.wqf_sum).sum) ∧
    (∀ q : OmQuery, OmQuery.Built q → q.get_length = q.wqf_sum) ∧
    (∀ op tnames q, OmQuery.from_terms op tnames = .ok q → q.get_length = tnames.length) ∧
    (∀ (q : OmQuery) (n : Nat), (q.set_length n).get_length = n) ∧
    querylen2_query.toOption.map OmQuery.get_length = some 4 ∧
    querylen3_query.toOption.map OmQuery.get_length = some 10 := by
  refine ⟨rfl, fun _ _ _ => rfl, OmQuery.compound_length, OmQuery.Built.length_eq, ?_,
    fun _ _ => rfl, by decide, by decide⟩
  intro op tnames q h
  rw [(OmQuery.compound_length op _ 0 q h).2, List.map_map]
  have : (OmQuery.wqf_sum ∘ fun n => OmQuery.term n 1 1) = fun _ => 1 := by
    funext n
    rfl
  rw [this]
  simp

/-- Witness of C11: the pair constructor on `foo` and `bar`. -/
theorem OmQuery.get_length_is_wqf_sum_witness :
    ({ tree := some (.compound .OP_OR [.term "foo" 1 1, .term "bar" 1 1] 0), is_bool := false,
       qlen := 2 } : OmQuery).get_length =
      ([OmQuery.term "foo" 1 1, OmQuery.term "bar" 1 1].map OmQuery.wqf_sum).sum :=
  (OmQuery.get_length_is_wqf_sum.2.2.1 .OP_OR [OmQuery.term "foo" 1 1, OmQuery.term "bar" 1 1] 0
    _ rfl).2

/-- C14: for every operator other than `FILTER`, constructing a compound query
with an operand marked boolean fails with an invalid-argument error (so it
produces no query), whatever the other operands. -/
theorem OmQuery.boolean_subquery_rejected (op : om_queryop) (qs : List OmQuery) (window : Nat)
    (b : OmQuery) (hop : op ≠ .OP_FILTER) (hb : b.is_bool = true) (hmem : b ∈ qs) :
    OmQuery.compound op qs window = .error .InvalidArgument ∧
    ∀ b0 : OmQuery, (b0.set_bool true).is_bool = true := by
  refine ⟨?_, fun _ => rfl⟩
  have hany : qs.any (fun q => q.is_bool) = true := List.any_eq_true.2 ⟨b, hmem, hb⟩
  simp only [OmQuery.compound, if_pos (And.intro hop hany)]

/-- Witness of C14: `test_boolsubq1`, `OR` of `bar` and the boolean query `foo`. -/
theorem OmQuery.boolean_subquery_rejected_witness :
    OmQuery.compound .OP_OR [OmQuery.term "bar" 1 1, (OmQuery.term "foo" 1 1).set_bool true] 0 =
      .error .InvalidArgument ∧
    ∀ b0 : OmQuery, (b0.set_bool true).is_bool = true :=
  OmQuery.boolean_subquery_rejected .OP_OR
    [OmQuery.term "bar" 1 1, (OmQuery.term "foo" 1 1).set_bool true] 0
    ((OmQuery.term "foo" 1 1).set_bool true) (by decide) rfl (by simp)

/-! ## Flattening -/

theorem QueryTree.nests_of_mem_splice (op : om_queryop) :
    ∀ (cs : List QueryTree), (∀ c ∈ cs, QueryTree.top_flat c) →
      ∀ c ∈ QueryTree.splice op cs, QueryTree.nests op c = false := by
  intro cs
  induction cs with
  | nil => intro _ c hc; simp [QueryTree.splice] at hc
  | cons a rest ih =>
    intro hflat c hc
    have hrest : ∀ c ∈ rest, QueryTree.top_flat c := fun c h => hflat c (List.mem_cons_of_mem _ h)
    cases a with
    | term n w p =>
      simp only [QueryTree.splice, List.mem_cons] at hc
      rcases hc with hc | hc
      · subst hc; rfl
      · exact ih hrest c hc
    | compound op' cs' w =>
      by_cases h : (op = .OP_OR ∨ op = .OP_AND) ∧ op' = op
      · simp only [QueryTree.splice, if_pos h, List.mem_append] at hc
        rcases hc with hc | hc
        · have hf : QueryTree.top_flat (.compound op' cs' w) := hflat _ (List.mem_cons_self _ _)
          have := hf c hc
          rw [h.2] at this
          exact this
        · exact ih hrest c hc
      · simp only [QueryTree.splice, if_neg h, List.mem_cons] at hc
        rcases hc with hc | hc
        · subst hc
          simpa [QueryTree.nests] using h
        · exact ih hrest c hc

theorem QueryTree.nests_of_mem_add_wqf (op : om_queryop) (n : String) (p w : Nat) :
    ∀ (kept : List QueryTree), (∀ c ∈ kept, QueryTree.nests op c = false) →
      ∀ c ∈ QueryTree.add_wqf n p w kept, QueryTree.nests op c = false := by
  intro kept
  induction kept with
  | nil => intro _ c hc; simp [QueryTree.add_wqf] at hc
  | cons a rest ih =>
    intro h c hc
    have hrest : ∀ c ∈ rest, QueryTree.nests op c = false :=
      fun c hc => h c (List.mem_cons_of_mem _ hc)
    cases a with
    | term n' w' p' =>
      by_cases hcnd : n' = n ∧ p' = p
      · simp only [QueryTree.add_wqf, if_pos hcnd, List.mem_cons] at hc
        rcases hc with hc | hc
        · subst hc; rfl
        · exact hrest c hc
      · simp only [QueryTree.add_wqf, if_neg hcnd, List.mem_cons] at hc
        rcases hc with hc | hc
        · subst hc; rfl
        · exact ih hrest c hc
    | compound op' cs' w' =>
      simp only [QueryTree.add_wqf, List.mem_cons] at hc
      rcases hc with hc | hc
      · subst hc; exact h _ (List.mem_cons_self _ _)
      · exact ih hrest c hc

theorem QueryTree.nests_of_mem_collapse (op : om_queryop) :
    ∀ (cs kept : List QueryTree), (∀ c ∈ kept, QueryTree.nests op c = false) →
      (∀ c ∈ cs, QueryTree.nests op c = false) →
      ∀ c ∈ cs.foldl QueryTree.collapse_into kept, QueryTree.nests op c = false := by
  intro cs
  induction cs with
  | nil => intro kept hk _ c hc; exact hk c hc
  | cons a rest ih =>
    intro kept hk hcs c hc
    refine ih (QueryTree.collapse_into kept a) ?_
      (fun c h => hcs c (List.mem_cons_of_mem _ h)) c hc
    intro c hc
    cases a with
    | term n w p =>
      by_cases hany : kept.any (QueryTree.is_leaf_at n p) = true
      · simp only [QueryTree.collapse_into, if_pos hany] at hc
        exact QueryTree.nests_of_mem_add_wqf op n p w kept hk c hc
      · simp only [QueryTree.collapse_into, if_neg hany, List.mem_append,
          List.mem_singleton] at hc
        rcases hc with hc | hc
        · exact hk c hc
        · subst hc; rfl
    | compound op' cs' w' =>
      simp only [QueryTree.collapse_into, List.mem_append, List.mem_singleton] at hc
      rcases hc with hc | hc
      · exact hk c hc
      · subst hc; exact hcs _ (List.mem_cons_self _ _)

theorem QueryTree.foldl_collapse_into_distinct :
    ∀ (cs kept : List QueryTree), List.Pairwise QueryTree.not_identical (kept ++ cs) →
      cs.foldl QueryTree.collapse_into kept = kept ++ cs := by
  intro cs
  induction cs with
  | nil => intro kept _; simp
  | cons a rest ih =>
    intro kept hp
    have hstep : QueryTree.collapse_into kept a = kept ++ [a] := by
      cases a with
      | term n w p =>
        have hnone : kept.any (QueryTree.is_leaf_at n p) = false := by
          rw [List.any_eq_false]
          intro e he
          have hrel : QueryTree.not_identical e (.term n w p) :=
            (List.pairwise_append.1 hp).2.2 e he _ (List.mem_cons_self _ _)
          simpa [QueryTree.not_identical] using hrel
        simp [QueryTree.collapse_into, hnone]
      | compound op' cs' w' => rfl
    rw [List.foldl_cons, hstep, ih (kept ++ [a]) (by simpa using hp)]
    simp

theorem QueryTree.collapse_distinct (cs : List QueryTree)
    (h : List.Pairwise QueryTree.not_identical cs) : QueryTree.collapse cs = cs := by
  have := QueryTree.foldl_collapse_into_distinct cs [] (by simpa using h)
  simpa [QueryTree.collapse] using this

theorem OmQuery.compound_associative (op : om_queryop) (qs : List OmQuery) (window : Nat)
    (hop : op = .OP_OR ∨ op = .OP_AND) (hbool : ∀ o ∈ qs, o.is_bool = false)
    (hnull : ∀ o ∈ qs, o.tree.isNone = false) (hne : qs ≠ []) :
    OmQuery.compound op qs window =
      .ok { tree := some (.compound op (QueryTree.canonical_children op (OmQuery.trees qs)) window),
            is_bool := false,
            qlen := QueryTree.wqf_sum_list
              (QueryTree.canonical_children op (OmQuery.trees qs)) } := by
  have h1 : ¬ (op ≠ .OP_FILTER ∧ qs.any (fun q => q.is_bool) = true) := by
    intro h
    obtain ⟨o, ho, hb⟩ := List.any_eq_true.1 h.2
    rw [hbool o ho] at hb
    cases hb
  have h2 : ¬ (qs.any (fun q => q.tree.isNone) = true) := by
    intro h
    obtain ⟨o, ho, hb⟩ := List.any_eq_true.1 h
    rw [hnull o ho] at hb
    cases hb
  have h3 : ¬ (qs.isEmpty = true) := by
    intro h
    exact hne (List.isEmpty_iff.1 h)
  unfold OmQuery.compound
  rw [if_neg h1]
  split
  · rcases hop with h | h <;> cases h
  · rw [if_neg h2, if_neg h3]

/-- C13 fails as stated: `OR` over the operands `a` and `(a OR b)` does not
yield the children `a`, `a`, `b` of the spliced list: position-collapse merges
the two identical leaves `a`, and the node has the two children `a` (wqf 2) and
`b`. -/
theorem OmQuery.flattening_merges_duplicates :
    OmQuery.compound .OP_OR [OmQuery.term "a" 1 1, OmQuery.term "b" 1 1] 0 = .ok a_or_b ∧
    QueryTree.splice .OP_OR (OmQuery.trees [OmQuery.term "a" 1 1, a_or_b]) =
      [.term "a" 1 1, .term "a" 1 1, .term "b" 1 1] ∧
    OmQuery.compound .OP_OR [OmQuery.term "a" 1 1, a_or_b] 0 =
      .ok { tree := some (.compound .OP_OR [.term "a" 2 1, .term "b" 1 1] 0), is_bool := false,
            qlen := 3 } ∧
    ([.term "a" 2 1, .term "b" 1 1] : List QueryTree).length ≠
      (QueryTree.splice .OP_OR (OmQuery.trees [OmQuery.term "a" 1 1, a_or_b])).length :=
  ⟨rfl, rfl, rfl, by decide⟩

/-! ## Weights of the iterator algebra -/

theorem om_queryop.combine_closed (Q : weight → Prop) (hadd : ∀ a b, Q a → Q b → Q (a + b))
    (op : om_queryop) (a b : Option weight) (ha : ∀ w, a = some w → Q w)
    (hb : ∀ w, b = some w → Q w) : ∀ w, op.combine a b = some w → Q w := by
  intro w hw
  cases op <;> cases a <;> cases b <;> simp only [om_queryop.combine] at hw <;>
    (try cases hw) <;>
    first
    | exact hadd _ _ (ha _ rfl) (hb _ rfl)
    | exact ha _ rfl
    | exact hb _ rfl

theorem om_queryop.foldl_combine_closed (Q : weight → Prop)
    (hadd : ∀ a b, Q a → Q b → Q (a + b)) (op : om_queryop) :
    ∀ (rs : List (Option weight)) (r : Option weight), (∀ w, r = some w → Q w) →
      (∀ x ∈ rs, ∀ w, x = some w → Q w) → ∀ w, rs.foldl op.combine r = some w → Q w := by
  intro rs
  induction rs with
  | nil => intro r hr _ w hw; exact hr w hw
  | cons x rest ih =>
    intro r hr hrs w hw
    exact ih (op.combine r x)
      (om_queryop.combine_closed Q hadd op r x hr (hrs x (List.mem_cons_self _ _)))
      (fun y hy => hrs y (List.mem_cons_of_mem _ hy)) w hw

theorem om_queryop.combine_all_closed (Q : weight → Prop)
    (hadd : ∀ a b, Q a → Q b → Q (a + b)) (op : om_queryop) (rs : List (Option weight))
    (hrs : ∀ x ∈ rs, ∀ w, x = some w → Q w) : ∀ w, op.combine_all rs = some w → Q w := by
  cases rs with
  | nil => intro w hw; simp [om_queryop.combine_all] at hw
  | cons r rest =>
    intro w hw
    exact om_queryop.foldl_combine_closed Q hadd op rest r (hrs r (List.mem_cons_self _ _))
      (fun y hy => hrs y (List.mem_cons_of_mem _ hy)) w hw

mutual
theorem QueryTree.eval_closed (db : Backend) (W : Weighting) (is_bool : Bool) (qlen : Nat)
    (Q : weight → Prop) (hadd : ∀ a b, Q a → Q b → Q (a + b))
    (hleaf : ∀ n wqf did w, QueryTree.leaf_weight db W is_bool qlen n wqf did = some w → Q w) :
    ∀ (t : QueryTree) (did : Nat) (w : weight),
      QueryTree.eval db W is_bool qlen t did = some w → Q w
  | .term n wqf _, did, w, h => hleaf n wqf did w (by simpa [QueryTree.eval] using h)
  | .compound op cs window, did, w, h => by
    simp only [QueryTree.eval] at h
    split at h
    · exact om_queryop.combine_all_closed Q hadd op _
        (QueryTree.eval_children_closed db W is_bool qlen Q hadd hleaf cs did) w h
    · cases h
theorem QueryTree.eval_children_closed (db : Backend) (W : Weighting) (is_bool : Bool)
    (qlen : Nat) (Q : weight → Prop) (hadd : ∀ a b, Q a → Q b → Q (a + b))
    (hleaf : ∀ n wqf did w, QueryTree.leaf_weight db W is_bool qlen n wqf did = some w → Q w) :
    ∀ (cs : List QueryTree) (did : Nat),
      ∀ x ∈ QueryTree.eval_children db W is_bool qlen cs did, ∀ w, x = some w → Q w
  | [], _, x, hx, _, _ => by simp [QueryTree.eval_children] at hx
  | c :: cs, did, x, hx, w, hw => by
    simp only [QueryTree.eval_children, List.mem_cons] at hx
    rcases hx with hx | hx
    · subst hx
      exact QueryTree.eval_closed db W is_bool qlen Q hadd hleaf c did w hw
    · exact QueryTree.eval_children_closed db W is_bool qlen Q hadd hleaf cs did x hx w hw
end

theorem QueryTree.eval_nonneg (db : Backend) (W : Weighting) (is_bool : Bool) (qlen : Nat)
    (t : QueryTree) (did : Nat) (w : weight)
    (h : QueryTree.eval db W is_bool qlen t did = some w) : 0 ≤ w := by
  refine QueryTree.eval_closed db W is_bool qlen (fun w => 0 ≤ w) (fun a b => add_nonneg) ?_
    t did w h
  intro n wqf did w hw
  simp only [QueryTree.leaf_weight, Option.map_eq_some'] at hw
  obtain ⟨p, _, hp⟩ := hw
  subst hp
  split
  · exact le_refl _
  · exact W.weight_nonneg _ _ _ _ _ _

theorem QueryTree.eval_bool_zero (db : Backend) (W : Weighting) (qlen : Nat)
    (t : QueryTree) (did : Nat) (w : weight)
    (h : QueryTree.eval db W true qlen t did = some w) : w = 0 := by
  refine QueryTree.eval_closed db W true qlen (fun w => w = 0) ?_ ?_ t did w h
  · intro a b ha hb
    simp [ha, hb]
  · intro n wqf did w hw
    simp only [QueryTree.leaf_weight, Option.map_eq_some'] at hw
    obtain ⟨p, _, hp⟩ := hw
    simpa using hp.symm

theorem om_queryop.combine_max_closed (Q : weight → Prop)
    (hadd : ∀ a b, Q a → Q b → Q (a + b)) (hmax : ∀ a b, Q a → Q b → Q (max a b))
    (op : om_queryop) (a b : weight) (ha : Q a) (hb : Q b) : Q (op.combine_max a b) := by
  cases op <;> simp only [om_queryop.combine_max] <;>
    first
    | exact hadd _ _ ha hb
    | exact hmax _ _ ha hb
    | exact ha

theorem om_queryop.combine_max_all_closed (Q : weight → Prop) (h0 : Q 0)
    (hadd : ∀ a b, Q a → Q b → Q (a + b)) (hmax : ∀ a b, Q a → Q b → Q (max a b))
    (op : om_queryop) (ms : List weight) (hms : ∀ m ∈ ms, Q m) : Q (op.combine_max_all ms) := by
  cases ms with
  | nil => exact h0
  | cons m rest =>
    simp only [om_queryop.combine_max_all]
    have hm : Q m := hms m (List.mem_cons_self _ _)
    have hrest : ∀ x ∈ rest, Q x := fun x hx => hms x (List.mem_cons_of_mem _ hx)
    clear hms
    induction rest generalizing m with
    | nil => exact hm
    | cons x xs ih =>
      exact ih (op.combine_max m x)
        (om_queryop.combine_max_closed Q hadd hmax op m x hm (hrest x (List.mem_cons_self _ _)))
        (fun y hy => hrest y (List.mem_cons_of_mem _ hy))

mutual
theorem QueryTree.maxweight_closed (db : Backend) (W : Weighting) (is_bool : Bool) (qlen : Nat)
    (Q : weight → Prop) (h0 : Q 0) (hadd : ∀ a b, Q a → Q b → Q (a + b))
    (hmax : ∀ a b, Q a → Q b → Q (max a b))
    (hleaf : ∀ n wqf, Q (if is_bool then 0
      else W.term_maxweight (db.termfreq n) db.lastdocid wqf qlen)) :
    ∀ t : QueryTree, Q (QueryTree.maxweight db W is_bool qlen t)
  | .term n wqf _ => by
    simp only [QueryTree.maxweight]
    exact hleaf n wqf
  | .compound op cs _ => by
    simp only [QueryTree.maxweight]
    exact om_queryop.combine_max_all_closed Q h0 hadd hmax op _
      (QueryTree.maxweight_children_closed db W is_bool qlen Q h0 hadd hmax hleaf cs)
theorem QueryTree.maxweight_children_closed (db : Backend) (W : Weighting) (is_bool : Bool)
    (qlen : Nat) (Q : weight → Prop) (h0 : Q 0) (hadd : ∀ a b, Q a → Q b → Q (a + b))
    (hmax : ∀ a b, Q a → Q b → Q (max a b))
    (hleaf : ∀ n wqf, Q (if is_bool then 0
      else W.term_maxweight (db.termfreq n) db.lastdocid wqf qlen)) :
    ∀ cs : List QueryTree, ∀ m ∈ QueryTree.maxweight_children db W is_bool qlen cs, Q m
  | [], m, hm => by simp [QueryTree.maxweight_children] at hm
  | c :: cs, m, hm => by
    simp only [QueryTree.maxweight_children, List.mem_cons] at hm
    rcases hm with hm | hm
    · subst hm
      exact QueryTree.maxweight_closed db W is_bool qlen Q h0 hadd hmax hleaf c
    · exact QueryTree.maxweight_children_closed db W is_bool qlen Q h0 hadd hmax hleaf cs m hm
end

theorem QueryTree.maxweight_nonneg (db : Backend) (W : Weighting) (is_bool : Bool) (qlen : Nat)
    (t : QueryTree) : 0 ≤ QueryTree.maxweight db W is_bool qlen t := by
  refine QueryTree.maxweight_closed db W is_bool qlen (fun w => 0 ≤ w) (le_refl _)
    (fun a b => add_nonneg) (fun a b ha _ => le_trans ha (le_max_left a b)) ?_ t
  intro n wqf
  split
  · exact le_refl _
  · exact le_trans (W.weight_nonneg 0 0 _ _ _ _) (W.weight_le_max 0 0 _ _ _ _)

theorem QueryTree.maxweight_bool_zero (db : Backend) (W : Weighting) (qlen : Nat)
    (t : QueryTree) : QueryTree.maxweight db W true qlen t = 0 := by
  refine QueryTree.maxweight_closed db W true qlen (fun w => w = 0) rfl ?_ ?_ ?_ t
  · intro a b ha hb; simp [ha, hb]
  · intro a b ha hb; simp [ha, hb]
  · intro n wqf; rfl

theorem QueryTree.mem_candidates (db : Backend) (W : Weighting) (is_bool : Bool) (qlen : Nat)
    (t : QueryTree) (c : Nat × weight) (h : c ∈ QueryTree.candidates db W is_bool qlen t) :
    QueryTree.eval db W is_bool qlen t c.1 = some c.2 := by
  simp only [QueryTree.candidates, List.mem_filterMap, List.mem_range, Option.map_eq_some'] at h
  obtain ⟨i, _, w, hw, hc⟩ := h
  subst hc
  exact hw

theorem QueryTree.candidates_increasing (db : Backend) (W : Weighting) (is_bool : Bool)
    (qlen : Nat) (t : QueryTree) :
    List.Pairwise (fun a b : Nat × weight => a.1 < b.1)
      (QueryTree.candidates db W is_bool qlen t) := by
  unfold QueryTree.candidates
  refine List.Pairwise.filterMap _ ?_ (List.pairwise_lt_range db.lastdocid)
  intro a a' hlt b hb b' hb'
  simp only [Option.mem_def, Option.map_eq_some'] at hb hb'
  obtain ⟨_, _, rfl⟩ := hb
  obtain ⟨_, _, rfl⟩ := hb'
  simpa using hlt

/-! ## The match collector -/

theorem collect_induction (db : Backend) (opts : MatchOptions) (decider : Option (Nat → Bool))
    (capacity : Nat) (P : Collector → Prop) :
    ∀ (cands : List (Nat × weight)) (st : Collector), P st →
      (∀ st c, c ∈ cands → P st → P (collect_step db opts decider capacity st c)) →
      P (cands.foldl (collect_step db opts decider capacity) st) := by
  intro cands
  induction cands with
  | nil => intro st h _; exact h
  | cons c rest ih =>
    intro st h hstep
    exact ih _ (hstep st c (List.mem_cons_self _ _) h)
      (fun st' c' hc' => hstep st' c' (List.mem_cons_of_mem _ hc'))

theorem collect_step_cases (db : Backend) (opts : MatchOptions)
    (decider : Option (Nat → Bool)) (capacity : Nat) (st : Collector) (c : Nat × weight) :
    collect_step db opts decider capacity st c = st ∨
    ((∃ h ∈ st.heap, c.2 ≤ h.wt) ∧
      collect_step db opts decider capacity st c =
        { heap := st.heap, mbound := st.mbound + 1,
          max_attained := max st.max_attained c.2 }) ∨
    ∃ (key : String) (others : List OmMSetItem), others.Sublist st.heap ∧
      (∀ h ∈ st.heap, h ∉ others → h.wt < c.2) ∧
      collect_step db opts decider capacity st c =
        { heap := (others.orderedInsert (ranks_before opts.match_sort_forward)
            { wt := c.2, did := c.1, collapse_key := key }).take capacity,
          mbound := st.mbound + 1, max_attained := max st.max_attained c.2 } := by
  unfold collect_step
  simp only []
  split
  · exact Or.inl rfl
  · right
    split
    · rename_i hskip
      left
      obtain ⟨h, hh, hcond⟩ := List.any_eq_true.1 hskip.2
      have hcond' := of_decide_eq_true hcond
      exact ⟨⟨h, hh, hcond'.2⟩, rfl⟩
    · rename_i hnoskip
      right
      refine ⟨_, _, ?_, ?_, rfl⟩
      · split
        · exact List.filter_sublist _
        · exact List.Sublist.refl _
      · intro h hh hnot
        split at hnot
        · rename_i hkey
          have hsame : h.collapse_key =
              (match opts.match_collapse_key with
                | some k => db.key c.1 k
                | none => "") := by
            by_contra hne
            exact hnot (List.mem_filter.2 ⟨hh, decide_eq_true hne⟩)
          by_contra hlt
          apply hnoskip
          refine ⟨hkey, List.any_eq_true.2 ⟨h, hh, decide_eq_true ⟨hsame, ?_⟩⟩⟩
          exact not_lt.1 hlt
        · exact absurd hh hnot

theorem wt_sorted_orderedInsert (fwd : Bool) (it : OmMSetItem) :
    ∀ l : List OmMSetItem, List.Pairwise (fun a b : OmMSetItem => b.wt ≤ a.wt) l →
      List.Pairwise (fun a b : OmMSetItem => b.wt ≤ a.wt)
        (l.orderedInsert (ranks_before fwd) it) := by
  intro l
  induction l with
  | nil => intro _; simp
  | cons b rest ih =>
    intro h
    have hb := List.pairwise_cons.1 h
    by_cases hr : ranks_before fwd it b
    · simp only [List.orderedInsert, if_pos hr]
      refine List.pairwise_cons.2 ⟨?_, h⟩
      have hbi : b.wt ≤ it.wt := by
        rcases hr with hr | hr
        · exact le_of_lt hr
        · exact le_of_eq hr.1.symm
      intro x hx
      rcases List.mem_cons.1 hx with hx | hx
      · subst hx; exact hbi
      · exact le_trans (hb.1 x hx) hbi
    · simp only [List.orderedInsert, if_neg hr]
      refine List.pairwise_cons.2 ⟨?_, ih hb.2⟩
      intro x hx
      rcases (List.mem_orderedInsert (ranks_before fwd)).1 hx with hx | hx
      · subst hx
        by_contra hlt
        exact hr (Or.inl (not_le.1 hlt))
      · exact hb.1 x hx

theorem collect_sorted_bounded (db : Backend) (opts : MatchOptions)
    (decider : Option (Nat → Bool)) (capacity : Nat) (cands : List (Nat × weight)) :
    List.Pairwise (fun a b : OmMSetItem => b.wt ≤ a.wt)
      (collect db opts decider capacity cands).heap ∧
    (collect db opts decider capacity cands).heap.length ≤ capacity := by
  refine collect_induction db opts decider capacity
    (fun st => List.Pairwise (fun a b : OmMSetItem => b.wt ≤ a.wt) st.heap ∧
      st.heap.length ≤ capacity) cands _ ⟨List.Pairwise.nil, Nat.zero_le _⟩ ?_
  intro st c _ hst
  rcases collect_step_cases db opts decider capacity st c with h | ⟨_, h⟩ | ⟨key, others, hsub, _, h⟩
  · rw [h]; exact hst
  · rw [h]; exact hst
  · rw [h]
    refine ⟨?_, ?_⟩
    · exact List.Pairwise.sublist (List.take_sublist _ _)
        (wt_sorted_orderedInsert _ _ _ (List.Pairwise.sublist hsub hst.1))
    · simp only [List.length_take]
      exact Nat.min_le_left _ _

theorem collect_from_candidates (db : Backend) (opts : MatchOptions)
    (decider : Option (Nat → Bool)) (capacity : Nat) (cands : List (Nat × weight)) :
    ∀ it ∈ (collect db opts decider capacity cands).heap,
      ∃ c ∈ cands, c.1 = it.did ∧ c.2 = it.wt := by
  refine collect_induction db opts decider capacity
    (fun st => ∀ it ∈ st.heap, ∃ c ∈ cands, c.1 = it.did ∧ c.2 = it.wt) cands _
    (by intro it hit; simp at hit) ?_
  intro st c hc hst
  rcases collect_step_cases db opts decider capacity st c with h | ⟨_, h⟩ | ⟨key, others, hsub, _, h⟩
  · rw [h]; exact hst
  · rw [h]; exact hst
  · rw [h]
    intro it hit
    have hmem := List.mem_of_mem_take hit
    rcases (List.mem_orderedInsert _).1 hmem with hx | hx
    · subst hx
      exact ⟨c, hc, rfl, rfl⟩
    · exact hst it (hsub.subset hx)

theorem cutoff_keeps_mono (percent : Nat) (max_possible : weight) (a b : OmMSetItem)
    (hab : b.wt ≤ a.wt) (hb : cutoff_keeps percent max_possible b = true) :
    cutoff_keeps percent max_possible a = true := by
  simp only [cutoff_keeps, decide_eq_true_eq] at hb ⊢
  have : (100 : weight) * b.wt ≤ 100 * a.wt := by
    apply mul_le_mul_of_nonneg_left hab
    norm_num
  exact le_trans hb this

theorem filter_drop_of_sorted (keep : OmMSetItem → Bool)
    (hmono : ∀ a b : OmMSetItem, b.wt ≤ a.wt → keep b = true → keep a = true) :
    ∀ (l : List OmMSetItem) (k : Nat),
      List.Pairwise (fun a b : OmMSetItem => b.wt ≤ a.wt) l →
      (l.drop k).filter keep = (l.filter keep).drop k := by
  intro l
  induction l with
  | nil => intro k _; simp
  | cons a rest ih =>
    intro k hs
    have ha := List.pairwise_cons.1 hs
    cases k with
    | zero => simp
    | succ k =>
      by_cases hk : keep a = true
      · simp only [List.drop_succ_cons, List.filter_cons_of_pos hk]
        exact ih k ha.2
      · have hnone : ∀ x ∈ rest, ¬ keep x = true := fun x hx hkx =>
          hk (hmono a x (ha.1 x hx) hkx)
        have h1 : rest.filter keep = [] := List.filter_eq_nil_iff.2 hnone
        have h2 : (rest.drop k).filter keep = [] :=
          List.filter_eq_nil_iff.2 (fun x hx => hnone x (List.mem_of_mem_drop hx))
        simp only [List.drop_succ_cons, List.filter_cons_of_neg hk, h1, h2, List.drop_nil]

/-- C15: for every query, range and option setting, the items of
`get_mset(first, n)` are exactly the items `[first, first + n)` of
`get_mset(0, first + n)`, in the same order (both calls fail alike on the null
query).  On the sample backend `get_mset(3, 3)` for `thi` holds documents 3, 2,
1, the items 3 to 5 of `get_mset(0, 6)`. -/
theorem OmEnquire.get_mset_first_window (db : Backend) (W : Weighting) (q : OmQuery)
    (first n : Nat) (opts : MatchOptions) (decider : Option (Nat → Bool)) :
    (OmEnquire.get_mset db W q first n opts decider).map (fun m => m.items) =
      (OmEnquire.get_mset db W q 0 (first + n) opts decider).map
        (fun m => (m.items.drop first).take n) ∧
    (OmEnquire.get_mset sample_backend sample_weighting (OmQuery.term "thi" 1 1) 3 3
        MatchOptions.default none).toOption.map (fun m => m.items.map (fun it => it.did)) =
      some [3, 2, 1] ∧
    (OmEnquire.get_mset sample_backend sample_weighting (OmQuery.term "thi" 1 1) 0 6
        MatchOptions.default none).toOption.map (fun m => m.items.map (fun it => it.did)) =
      some [6, 5, 4, 3, 2, 1] := by
  refine ⟨?_, by decide!, by decide!⟩
  unfold OmEnquire.get_mset
  cases q.tree with
  | none => rfl
  | some t =>
    simp only [Except.map, Nat.zero_add, List.drop_zero]
    congr 1
    obtain ⟨hs, hlen⟩ := collect_sorted_bounded db opts decider (first + n)
      (QueryTree.candidates db W q.is_bool q.qlen t)
    rw [filter_drop_of_sorted _ (cutoff_keeps_mono _ _) _ first hs]
    symm
    apply List.take_of_length_le
    rw [List.length_drop]
    have := List.length_filter_le
      (cutoff_keeps opts.match_percent_cutoff (QueryTree.maxweight db W q.is_bool q.qlen t))
      (collect db opts decider (first + n) (QueryTree.candidates db W q.is_bool q.qlen t)).heap
    omega

theorem Except.eq_ok_of_toOption {ε α : Type} (e : Except ε α) (a : α)
    (h : e.toOption = some a) : e = .ok a := by
  cases e with
  | error _ => simp [Except.toOption] at h
  | ok b =>
    simp only [Except.toOption, Option.some.injEq] at h
    rw [h]

theorem OmQuery.filter_null_left_is_bool (r q : OmQuery) (window : Nat)
    (h : OmQuery.compound .OP_FILTER [OmQuery.null, r] window = .ok q) : q.is_bool = true := by
  rcases OmQuery.compound_ok _ _ _ _ h with ⟨_, _, _, _, _, _, _, hq⟩ | ⟨hqs, _⟩ | ⟨_, hnull, _, _⟩
  · rw [hq]
  · cases hqs
  · have := hnull OmQuery.null (List.mem_cons_self _ _)
    simp [OmQuery.null] at this

theorem OmEnquire.item_weight_of_eval (db : Backend) (W : Weighting) (q : OmQuery)
    (first n : Nat) (opts : MatchOptions) (decider : Option (Nat → Bool)) (m : OmMSet)
    (hm : OmEnquire.get_mset db W q first n opts decider = .ok m) :
    ∃ t, q.tree = some t ∧ m.max_possible = QueryTree.maxweight db W q.is_bool q.qlen t ∧
      m.items = ((collect db opts decider (first + n)
        (QueryTree.candidates db W q.is_bool q.qlen t)).heap.drop first).filter
          (cutoff_keeps opts.match_percent_cutoff m.max_possible) ∧
      m.max_attained = (collect db opts decider (first + n)
        (QueryTree.candidates db W q.is_bool q.qlen t)).max_attained ∧
      ∀ it ∈ (collect db opts decider (first + n)
          (QueryTree.candidates db W q.is_bool q.qlen t)).heap,
        QueryTree.eval db W q.is_bool q.qlen t it.did = some it.wt := by
  unfold OmEnquire.get_mset at hm
  cases ht : q.tree with
  | none => simp [ht] at hm
  | some t =>
    simp only [ht] at hm
    injection hm with hm
    subst hm
    refine ⟨t, rfl, rfl, rfl, rfl, ?_⟩
    intro it hit
    obtain ⟨c, hc, h1, h2⟩ := collect_from_candidates db opts decider _ _ it hit
    rw [← h1, ← h2]
    exact QueryTree.mem_candidates db W q.is_bool q.qlen t c hc

/-- C18: for every pure-boolean query (one marked by `set_bool(true)`, or a
`FILTER` with a null left operand), every item of the match set `get_mset`
returns has weight 0, and `max_possible` is 0. -/
theorem OmEnquire.boolean_zero_weight (db : Backend) (W : Weighting) (q : OmQuery)
    (first n : Nat) (opts : MatchOptions) (decider : Option (Nat → Bool)) (m : OmMSet)
    (hq : q.is_bool = true ∨
      ∃ r window, OmQuery.compound .OP_FILTER [OmQuery.null, r] window = .ok q)
    (hm : OmEnquire.get_mset db W q first n opts decider = .ok m) :
    (∀ it ∈ m.items, it.wt = 0) ∧ m.max_possible = 0 := by
  have hbool : q.is_bool = true := by
    rcases hq with h | ⟨r, window, h⟩
    · exact h
    · exact OmQuery.filter_null_left_is_bool r q window h
  obtain ⟨t, _, hmax, hitems, _, heval⟩ := OmEnquire.item_weight_of_eval db W q first n opts
    decider m hm
  rw [hbool] at hmax heval hitems
  refine ⟨?_, by rw [hmax]; exact QueryTree.maxweight_bool_zero db W q.qlen t⟩
  intro it hit
  rw [hitems] at hit
  have hmem := List.mem_of_mem_drop (List.mem_filter.1 hit).1
  exact QueryTree.eval_bool_zero db W q.qlen t it.did it.wt (heval it hmem)

/-- Witness of C18: the query of `test_boolquery1`, `FILTER` of the null query
and `thi`, on the sample backend: six items of weight 0. -/
theorem OmEnquire.boolean_zero_weight_witness :
    (∀ it ∈ ([⟨0, 1, ""⟩, ⟨0, 2, ""⟩, ⟨0, 3, ""⟩, ⟨0, 4, ""⟩, ⟨0, 5, ""⟩, ⟨0, 6, ""⟩] :
      List OmMSetItem), it.wt = 0) ∧ (0 : weight) = 0 :=
  OmEnquire.boolean_zero_weight sample_backend sample_weighting
    { tree := some (.term "thi" 1 1), is_bool := true, qlen := 1 } 0 10 MatchOptions.default none
    { items := [⟨0, 1, ""⟩, ⟨0, 2, ""⟩, ⟨0, 3, ""⟩, ⟨0, 4, ""⟩, ⟨0, 5, ""⟩, ⟨0, 6, ""⟩],
      firstitem := 0, mbound := 6, max_attained := 0, max_possible := 0 }
    (Or.inr ⟨OmQuery.term "thi" 1 1, 0, rfl⟩)
    (Except.eq_ok_of_toOption _ _ (by decide!))

theorem collect_cutoff_irrelevant (db : Backend) (opts : MatchOptions) (p : Nat)
    (decider : Option (Nat → Bool)) (capacity : Nat) (cands : List (Nat × weight)) :
    collect db { opts with match_percent_cutoff := p } decider capacity cands =
      collect db opts decider capacity cands := by
  have hstep : collect_step db { opts with match_percent_cutoff := p } decider capacity =
      collect_step db opts decider capacity := by
    funext st c
    rfl
  unfold collect
  rw [hstep]

theorem cutoff_keeps_zero (max_possible : weight) (it : OmMSetItem) (h : 0 ≤ it.wt) :
    cutoff_keeps 0 max_possible it = true := by
  simp only [cutoff_keeps, decide_eq_true_eq, Nat.cast_zero, zero_mul]
  positivity

theorem cutoff_keeps_antitone (p p' : Nat) (hp : p ≤ p') (max_possible : weight)
    (hmax : 0 ≤ max_possible) (it : OmMSetItem)
    (h : cutoff_keeps p' max_possible it = true) : cutoff_keeps p max_possible it = true := by
  simp only [cutoff_keeps, decide_eq_true_eq] at h ⊢
  have hpp : (p : weight) ≤ (p' : weight) := by exact_mod_cast hp
  exact le_trans (mul_le_mul_of_nonneg_right hpp hmax) h

/-- C19: with `match_percent_cutoff = p` the match set consists of the items of
the uncut match set (cutoff 0) whose weight is at least `p` percent of
`max_possible`, in the same order: an item exactly at `p` percent is kept, an
item below is not; so the match set for a greater cutoff is a sub-list of the
one for a smaller cutoff. -/
theorem OmEnquire.percent_cutoff (db : Backend) (W : Weighting) (q : OmQuery)
    (first n : Nat) (opts : MatchOptions) (decider : Option (Nat → Bool)) (p : Nat) :
    (OmEnquire.get_mset db W q first n { opts with match_percent_cutoff := p } decider).map
        (fun m => m.items) =
      (OmEnquire.get_mset db W q first n { opts with match_percent_cutoff := 0 } decider).map
        (fun m => m.items.filter (cutoff_keeps p m.max_possible)) ∧
    (∀ (max_possible : weight) (it : OmMSetItem),
      (cutoff_keeps p max_possible it = true ↔ (p : weight) * max_possible ≤ 100 * it.wt)) ∧
    (∀ (p' : Nat) (m m' : OmMSet), p ≤ p' →
      OmEnquire.get_mset db W q first n { opts with match_percent_cutoff := p } decider = .ok m →
      OmEnquire.get_mset db W q first n { opts with match_percent_cutoff := p' } decider =
        .ok m' →
      m'.items.Sublist m.items) := by
  refine ⟨?_, ?_, ?_⟩
  · unfold OmEnquire.get_mset
    cases ht : q.tree with
    | none => rfl
    | some t =>
      simp only [Except.map, collect_cutoff_irrelevant]
      congr 1
      have hall : ∀ it ∈ (collect db opts decider (first + n)
          (QueryTree.candidates db W q.is_bool q.qlen t)).heap.drop first,
          cutoff_keeps 0 (QueryTree.maxweight db W q.is_bool q.qlen t) it = true := by
        intro it hit
        obtain ⟨c, hc, _, h2⟩ := collect_from_candidates db opts decider _ _ it
          (List.mem_of_mem_drop hit)
        apply cutoff_keeps_zero
        rw [← h2]
        exact QueryTree.eval_nonneg db W q.is_bool q.qlen t c.1 c.2
          (QueryTree.mem_candidates db W q.is_bool q.qlen t c hc)
      rw [List.filter_eq_self.2 hall]
  · intro max_possible it
    simp only [cutoff_keeps, decide_eq_true_eq]
  · intro p' m m' hp hm hm'
    obtain ⟨t, ht, hmax, hitems, _, _⟩ := OmEnquire.item_weight_of_eval db W q first n _ decider m hm
    obtain ⟨t', ht', hmax', hitems', _, _⟩ :=
      OmEnquire.item_weight_of_eval db W q first n _ decider m' hm'
    rw [ht] at ht'
    injection ht' with ht'
    subst ht'
    rw [hitems, hitems']
    simp only [collect_cutoff_irrelevant]
    rw [hmax, hmax']
    apply List.monotone_filter_right
    intro it hit
    exact cutoff_keeps_antitone p p' hp _ (QueryTree.maxweight_nonneg db W q.is_bool q.qlen t)
      it hit

/-- Witness of C19: `thi` on the sample backend with cutoffs 60 and 80. -/
theorem OmEnquire.percent_cutoff_witness :
    ([⟨6 / 7, 6, ""⟩, ⟨5 / 6, 5, ""⟩, ⟨4 / 5, 4, ""⟩] : List OmMSetItem).Sublist
      [⟨6 / 7, 6, ""⟩, ⟨5 / 6, 5, ""⟩, ⟨4 / 5, 4, ""⟩, ⟨3 / 4, 3, ""⟩, ⟨2 / 3, 2, ""⟩] :=
  (OmEnquire.percent_cutoff sample_backend sample_weighting (OmQuery.term "thi" 1 1) 0 10
    MatchOptions.default none 60).2.2 80
    { items := [⟨6 / 7, 6, ""⟩, ⟨5 / 6, 5, ""⟩, ⟨4 / 5, 4, ""⟩, ⟨3 / 4, 3, ""⟩, ⟨2 / 3, 2, ""⟩],
      firstitem := 0, mbound := 6, max_attained := 6 / 7, max_possible := 1 }
    { items := [⟨6 / 7, 6, ""⟩, ⟨5 / 6, 5, ""⟩, ⟨4 / 5, 4, ""⟩],
      firstitem := 0, mbound := 6, max_attained := 6 / 7, max_possible := 1 }
    (by decide) (Except.eq_ok_of_toOption _ _ (by decide!))
    (Except.eq_ok_of_toOption _ _ (by decide!))

theorem collect_max_attained (db : Backend) (opts : MatchOptions)
    (decider : Option (Nat → Bool)) (capacity : Nat) (cands : List (Nat × weight))
    (hnn : ∀ c ∈ cands, 0 ≤ c.2) :
    (∀ it ∈ (collect db opts decider capacity cands).heap,
      it.wt ≤ (collect db opts decider capacity cands).max_attained) ∧
    ((collect db opts decider capacity cands).heap ≠ [] →
      ∃ it ∈ (collect db opts decider capacity cands).heap,
        it.wt = (collect db opts decider capacity cands).max_attained) ∧
    0 ≤ (collect db opts decider capacity cands).max_attained := by
  have key := collect_induction db opts decider capacity
    (fun st => (∀ it ∈ st.heap, it.wt ≤ st.max_attained) ∧
      (st.heap ≠ [] → ∃ it ∈ st.heap, it.wt = st.max_attained) ∧
      (1 ≤ capacity → st.heap = [] → st.max_attained = 0) ∧
      0 ≤ st.max_attained ∧
      List.Pairwise (fun a b : OmMSetItem => b.wt ≤ a.wt) st.heap) cands
    { heap := [], mbound := 0, max_attained := 0 }
    ⟨by intro it hit; simp at hit, by intro h; exact absurd rfl h, fun _ _ => rfl, le_refl _,
      List.Pairwise.nil⟩ ?_
  · exact ⟨key.1, key.2.1, key.2.2.2.1⟩
  intro st c hc ⟨hle, hex, hempty, hM, hsorted⟩
  have hw : 0 ≤ c.2 := hnn c hc
  rcases collect_step_cases db opts decider capacity st c with
    h | ⟨⟨x, hx, hcx⟩, h⟩ | ⟨key, others, hsub, hevict, h⟩
  · rw [h]; exact ⟨hle, hex, hempty, hM, hsorted⟩
  · rw [h]
    have hmax : max st.max_attained c.2 = st.max_attained :=
      max_eq_left (le_trans hcx (hle x hx))
    simp only [hmax]
    exact ⟨hle, hex, hempty, hM, hsorted⟩
  · rw [h]
    simp only []
    have hLsorted := wt_sorted_orderedInsert opts.match_sort_forward
      { wt := c.2, did := c.1, collapse_key := key } others (List.Pairwise.sublist hsub hsorted)
    have hLle : ∀ y ∈ others.orderedInsert (ranks_before opts.match_sort_forward)
        { wt := c.2, did := c.1, collapse_key := key }, y.wt ≤ max st.max_attained c.2 := by
      intro y hy
      rcases (List.mem_orderedInsert _).1 hy with hy | hy
      · subst hy; exact le_max_right _ _
      · exact le_trans (hle y (hsub.subset hy)) (le_max_left _ _)
    have hLtop : 1 ≤ capacity →
        ∃ y ∈ others.orderedInsert (ranks_before opts.match_sort_forward)
          { wt := c.2, did := c.1, collapse_key := key }, y.wt = max st.max_attained c.2 := by
      intro hcap
      by_cases hcmp : st.max_attained ≤ c.2
      · exact ⟨_, (List.mem_orderedInsert _).2 (Or.inl rfl), (max_eq_right hcmp).symm⟩
      · have hlt : c.2 < st.max_attained := not_le.1 hcmp
        have hne : st.heap ≠ [] := by
          intro hnil
          have := hempty hcap hnil
          rw [this] at hlt
          exact absurd hw (not_le.2 hlt)
        obtain ⟨y, hy, hyM⟩ := hex hne
        have hyo : y ∈ others := by
          by_contra hno
          have := hevict y hy hno
          rw [hyM] at this
          exact absurd this (not_lt.2 (le_of_lt hlt))
        exact ⟨y, (List.mem_orderedInsert _).2 (Or.inr hyo),
          hyM.trans (max_eq_left (le_of_lt hlt)).symm⟩
    have hLne : others.orderedInsert (ranks_before opts.match_sort_forward)
        { wt := c.2, did := c.1, collapse_key := key } ≠ [] := by
      intro hnil
      have : ({ wt := c.2, did := c.1, collapse_key := key } : OmMSetItem) ∈
          others.orderedInsert (ranks_before opts.match_sort_forward)
            { wt := c.2, did := c.1, collapse_key := key } :=
        (List.mem_orderedInsert _).2 (Or.inl rfl)
      rw [hnil] at this
      simp at this
    refine ⟨fun y hy => hLle y (List.mem_of_mem_take hy), ?_, ?_,
      le_trans hM (le_max_left _ _), List.Pairwise.sublist (List.take_sublist _ _) hLsorted⟩
    · intro htake
      generalize hL : others.orderedInsert (ranks_before opts.match_sort_forward)
        { wt := c.2, did := c.1, collapse_key := key } = L at hLsorted hLle hLtop hLne htake ⊢
      cases L with
      | nil => exact absurd rfl hLne
      | cons hd tl =>
        cases capacity with
        | zero => simp at htake
        | succ k =>
          obtain ⟨y, hy, hyM⟩ := hLtop (Nat.succ_le_succ (Nat.zero_le k))
          refine ⟨hd, by simp, le_antisymm (hLle hd (List.mem_cons_self _ _)) ?_⟩
          rw [← hyM]
          rcases List.mem_cons.1 hy with hy | hy
          · rw [hy]
          · exact (List.pairwise_cons.1 hLsorted).1 y hy
    · intro hcap htake
      exfalso
      generalize hL : others.orderedInsert (ranks_before opts.match_sort_forward)
        { wt := c.2, did := c.1, collapse_key := key } = L at hLne htake
      cases L with
      | nil => exact hLne rfl
      | cons hd tl =>
        cases capacity with
        | zero => omega
        | succ k => simp at htake

theorem foldl_max_wt_le (B : weight) :
    ∀ (l : List OmMSetItem) (init : weight), init ≤ B → (∀ it ∈ l, it.wt ≤ B) →
      l.foldl (fun acc it => max acc it.wt) init ≤ B := by
  intro l
  induction l with
  | nil => intro init h _; exact h
  | cons a rest ih =>
    intro init h hall
    exact ih (max init a.wt) (max_le h (hall a (List.mem_cons_self _ _)))
      (fun it hit => hall it (List.mem_cons_of_mem _ hit))

theorem le_foldl_max_wt :
    ∀ (l : List OmMSetItem) (init : weight),
      init ≤ l.foldl (fun acc it => max acc it.wt) init ∧
      ∀ it ∈ l, it.wt ≤ l.foldl (fun acc it => max acc it.wt) init := by
  intro l
  induction l with
  | nil => intro init; exact ⟨le_refl _, by intro it hit; simp at hit⟩
  | cons a rest ih =>
    intro init
    obtain ⟨h1, h2⟩ := ih (max init a.wt)
    refine ⟨le_trans (le_max_left _ _) h1, ?_⟩
    intro it hit
    rcases List.mem_cons.1 hit with hit | hit
    · subst hit; exact le_trans (le_max_right _ _) h1
    · exact h2 it hit

/-- C17 fails as stated: on the sample backend `get_mset(1, 10)` for `thi`
returns the documents 5, 4, 3, 2, 1; the greatest weight among them is 5/6,
while `max_attained`, the greatest weight seen during the traversal, is the
weight 6/7 of document 6, which `first = 1` dropped from the match set. -/
theorem OmEnquire.max_attained_above_items :
    (OmEnquire.get_mset sample_backend sample_weighting (OmQuery.term "thi" 1 1) 1 10
        MatchOptions.default none).toOption.map
      (fun m => (m.items.map (fun it => it.did), m.max_attained, m.max_item_weight)) =
      some ([5, 4, 3, 2, 1], 6 / 7, 5 / 6) ∧
    (6 / 7 : weight) ≠ 5 / 6 := by
  refine ⟨by decide!, by decide!⟩

/-- C17 (amended): `max_attained` is the greatest weight seen during the
traversal: no item of the match set `get_mset` returns has a greater weight,
and when `first = 0` and the match set holds at least one item, `max_attained`
equals the maximum of `item[i].weight` over the returned items. -/
theorem OmEnquire.max_attained_is_top_weight (db : Backend) (W : Weighting) (q : OmQuery)
    (first n : Nat) (opts : MatchOptions) (decider : Option (Nat → Bool)) (m : OmMSet)
    (hm : OmEnquire.get_mset db W q first n opts decider = .ok m) :
    m.max_item_weight ≤ m.max_attained ∧
    (first = 0 → m.items ≠ [] → m.max_attained = m.max_item_weight) := by
  obtain ⟨t, _, _, hitems, hatt, heval⟩ :=
    OmEnquire.item_weight_of_eval db W q first n opts decider m hm
  obtain ⟨hle, hex, hM⟩ := collect_max_attained db opts decider (first + n)
    (QueryTree.candidates db W q.is_bool q.qlen t)
    (fun c hc => QueryTree.eval_nonneg db W q.is_bool q.qlen t c.1 c.2
      (QueryTree.mem_candidates db W q.is_bool q.qlen t c hc))
  rw [← hatt] at hle hex hM
  have hitems_le : ∀ it ∈ m.items, it.wt ≤ m.max_attained := by
    intro it hit
    rw [hitems] at hit
    exact hle it (List.mem_of_mem_drop (List.mem_filter.1 hit).1)
  have hupper : m.max_item_weight ≤ m.max_attained :=
    foldl_max_wt_le m.max_attained m.items 0 hM hitems_le
  refine ⟨hupper, ?_⟩
  intro hfirst hne
  subst hfirst
  apply le_antisymm _ hupper
  obtain ⟨x, hx⟩ := List.exists_mem_of_ne_nil _ hne
  have hx' := hx
  rw [hitems, List.drop_zero] at hx'
  obtain ⟨hxh, hxk⟩ := List.mem_filter.1 hx'
  obtain ⟨y, hy, hyM⟩ := hex (List.ne_nil_of_mem hxh)
  have hyk : cutoff_keeps opts.match_percent_cutoff m.max_possible y = true :=
    cutoff_keeps_mono _ _ y x (by rw [hyM]; exact hle x hxh) hxk
  have hyitems : y ∈ m.items := by
    rw [hitems, List.drop_zero]
    exact List.mem_filter.2 ⟨hy, hyk⟩
  rw [← hyM]
  exact (le_foldl_max_wt m.items 0).2 y hyitems

/-- Witness of C17: `get_mset(0, 10)` for `word` on the sample backend, as in
`test_maxattain1`. -/
theorem OmEnquire.max_attained_is_top_weight_witness :
    (1 / 2 : weight) =
      ({ items := [⟨1 / 2, 2, ""⟩, ⟨1 / 2, 4, ""⟩], firstitem := 0, mbound := 2,
         max_attained := 1 / 2, max_possible := 1 } : OmMSet).max_item_weight :=
  (OmEnquire.max_attained_is_top_weight sample_backend sample_weighting
    (OmQuery.term "word" 1 1) 0 10 MatchOptions.default none
    { items := [⟨1 / 2, 2, ""⟩, ⟨1 / 2, 4, ""⟩], firstitem := 0, mbound := 2,
      max_attained := 1 / 2, max_possible := 1 }
    (Except.eq_ok_of_toOption _ _ (by decide!))).2 rfl (by simp)

/-! ## Sort direction -/

theorem collect_step_plain (db : Backend) (opts : MatchOptions)
    (hkey : opts.match_collapse_key = none) (decider : Option (Nat → Bool)) (capacity : Nat)
    (st : Collector) (c : Nat × weight) :
    (collect_step db opts decider capacity st c).heap =
      if decider_accepts decider c.1 = true then
        (st.heap.orderedInsert (ranks_before opts.match_sort_forward) (plain_item c)).take capacity
      else st.heap := by
  unfold collect_step
  cases hacc : decider_accepts decider c.1 <;> simp [hkey, plain_item]

theorem orderedInsert_last (fwd : Bool) (it : OmMSetItem) :
    ∀ l : List OmMSetItem, (∀ h ∈ l, ¬ ranks_before fwd it h) →
      l.orderedInsert (ranks_before fwd) it = l ++ [it] := by
  intro l
  induction l with
  | nil => intro _; rfl
  | cons b rest ih =>
    intro h
    simp only [List.orderedInsert, if_neg (h b (List.mem_cons_self _ _)), List.cons_append]
    rw [ih (fun x hx => h x (List.mem_cons_of_mem _ hx))]

theorem orderedInsert_first (fwd : Bool) (it : OmMSetItem) (l : List OmMSetItem)
    (h : ∀ x ∈ l, ranks_before fwd it x) : l.orderedInsert (ranks_before fwd) it = it :: l := by
  cases l with
  | nil => rfl
  | cons b rest => simp only [List.orderedInsert, if_pos (h b (List.mem_cons_self _ _))]

theorem take_take_append (k : Nat) (l : List OmMSetItem) (x : OmMSetItem) :
    ((l.take k) ++ [x]).take k = (l ++ [x]).take k := by
  by_cases h : k ≤ l.length
  · rw [List.take_append_of_le_length (by simp [h]), List.take_take, Nat.min_self,
      List.take_append_of_le_length h]
  · rw [List.take_of_length_le (by omega : l.length ≤ k)]

theorem take_cons_take (k : Nat) (l : List OmMSetItem) (x : OmMSetItem) :
    (x :: l.take k).take k = (x :: l).take k := by
  cases k with
  | zero => rfl
  | succ k =>
    simp only [List.take_succ_cons, List.take_take]
    congr 1
    rw [Nat.min_eq_left (Nat.le_succ k)]

theorem collect_heap_forward (db : Backend) (opts : MatchOptions)
    (hkey : opts.match_collapse_key = none) (hfwd : opts.match_sort_forward = true)
    (decider : Option (Nat → Bool)) (capacity : Nat) :
    ∀ (cands : List (Nat × weight)) (H : List OmMSetItem) (mb : Nat) (ma : weight),
      (∀ c ∈ cands, c.2 = 0) → (∀ h ∈ H, h.wt = 0 ∧ ∀ c ∈ cands, h.did < c.1) →
      List.Pairwise (fun a b : Nat × weight => a.1 < b.1) cands →
      (cands.foldl (collect_step db opts decider capacity)
        { heap := H.take capacity, mbound := mb, max_attained := ma }).heap =
      (H ++ (cands.filter (fun c => decider_accepts decider c.1)).map plain_item).take
        capacity := by
  intro cands
  induction cands with
  | nil => intro H mb ma _ _ _; simp
  | cons c rest ih =>
    intro H mb ma hz hH hinc
    have hinc' := List.pairwise_cons.1 hinc
    rw [List.foldl_cons]
    have hheap := collect_step_plain db opts hkey decider capacity
      { heap := H.take capacity, mbound := mb, max_attained := ma } c
    cases hacc : decider_accepts decider c.1 with
    | false =>
      rw [hacc] at hheap
      simp only [Bool.false_eq_true, if_false] at hheap
      generalize collect_step db opts decider capacity
          { heap := H.take capacity, mbound := mb, max_attained := ma } c = S at hheap ⊢
      obtain ⟨heap, mb', ma'⟩ := S
      simp only at hheap
      subst hheap
      rw [ih H _ _ (fun x hx => hz x (List.mem_cons_of_mem _ hx))
        (fun h hh => ⟨(hH h hh).1, fun x hx => (hH h hh).2 x (List.mem_cons_of_mem _ hx)⟩)
        hinc'.2]
      simp [List.filter_cons, hacc]
    | true =>
      rw [hacc] at hheap
      simp only [if_true] at hheap
      have hlast : (H.take capacity).orderedInsert (ranks_before opts.match_sort_forward)
          (plain_item c) = H.take capacity ++ [plain_item c] := by
        apply orderedInsert_last
        intro h hh hr
        have hhH := hH h (List.mem_of_mem_take hh)
        have hc0 : c.2 = 0 := hz c (List.mem_cons_self _ _)
        have hlt := hhH.2 c (List.mem_cons_self _ _)
        rcases hr with hr | hr
        · simp only [plain_item, hhH.1, hc0] at hr
          exact absurd hr (lt_irrefl _)
        · rw [hfwd] at hr
          simp only [plain_item, if_true] at hr
          omega
      rw [hlast, take_take_append] at hheap
      generalize collect_step db opts decider capacity
          { heap := H.take capacity, mbound := mb, max_attained := ma } c = S at hheap ⊢
      obtain ⟨heap, mb', ma'⟩ := S
      simp only at hheap
      subst hheap
      rw [ih (H ++ [plain_item c]) _ _ (fun x hx => hz x (List.mem_cons_of_mem _ hx)) ?_
        hinc'.2]
      · simp [List.filter_cons, hacc]
      · intro h hh
        rcases List.mem_append.1 hh with hh | hh
        · exact ⟨(hH h hh).1, fun x hx => (hH h hh).2 x (List.mem_cons_of_mem _ hx)⟩
        · rw [List.mem_singleton.1 hh]
          exact ⟨hz c (List.mem_cons_self _ _), fun x hx => hinc'.1 x hx⟩

theorem collect_heap_reverse (db : Backend) (opts : MatchOptions)
    (hkey : opts.match_collapse_key = none) (hfwd : opts.match_sort_forward = false)
    (decider : Option (Nat → Bool)) (capacity : Nat) :
    ∀ (cands : List (Nat × weight)) (G : List OmMSetItem) (mb : Nat) (ma : weight),
      (∀ c ∈ cands, c.2 = 0) → (∀ h ∈ G, h.wt = 0 ∧ ∀ c ∈ cands, h.did < c.1) →
      List.Pairwise (fun a b : Nat × weight => a.1 < b.1) cands →
      (cands.foldl (collect_step db opts decider capacity)
        { heap := G.take capacity, mbound := mb, max_attained := ma }).heap =
      (((cands.filter (fun c => decider_accepts decider c.1)).map plain_item).reverse ++ G).take
        capacity := by
  intro cands
  induction cands with
  | nil => intro G mb ma _ _ _; simp
  | cons c rest ih =>
    intro G mb ma hz hG hinc
    have hinc' := List.pairwise_cons.1 hinc
    rw [List.foldl_cons]
    have hheap := collect_step_plain db opts hkey decider capacity
      { heap := G.take capacity, mbound := mb, max_attained := ma } c
    cases hacc : decider_accepts decider c.1 with
    | false =>
      rw [hacc] at hheap
      simp only [Bool.false_eq_true, if_false] at hheap
      generalize collect_step db opts decider capacity
          { heap := G.take capacity, mbound := mb, max_attained := ma } c = S at hheap ⊢
      obtain ⟨heap, mb', ma'⟩ := S
      simp only at hheap
      subst hheap
      rw [ih G _ _ (fun x hx => hz x (List.mem_cons_of_mem _ hx))
        (fun h hh => ⟨(hG h hh).1, fun x hx => (hG h hh).2 x (List.mem_cons_of_mem _ hx)⟩)
        hinc'.2]
      simp [List.filter_cons, hacc]
    | true =>
      rw [hacc] at hheap
      simp only [if_true] at hheap
      have hfirst : (G.take capacity).orderedInsert (ranks_before opts.match_sort_forward)
          (plain_item c) = plain_item c :: G.take capacity := by
        apply orderedInsert_first
        intro h hh
        have hhG := hG h (List.mem_of_mem_take hh)
        have hc0 : c.2 = 0 := hz c (List.mem_cons_self _ _)
        have hlt := hhG.2 c (List.mem_cons_self _ _)
        right
        rw [hfwd]
        simp only [plain_item, hhG.1, hc0, true_and]
        exact le_of_lt hlt
      rw [hfirst, take_cons_take] at hheap
      generalize collect_step db opts decider capacity
          { heap := G.take capacity, mbound := mb, max_attained := ma } c = S at hheap ⊢
      obtain ⟨heap, mb', ma'⟩ := S
      simp only at hheap
      subst hheap
      rw [ih (plain_item c :: G) _ _ (fun x hx => hz x (List.mem_cons_of_mem _ hx)) ?_
        hinc'.2]
      · simp [List.filter_cons, hacc]
      · intro h hh
        rcases List.mem_cons.1 hh with hh | hh
        · rw [hh]
          exact ⟨hz c (List.mem_cons_self _ _), fun x hx => hinc'.1 x hx⟩
        · exact ⟨(hG h hh).1, fun x hx => (hG h hh).2 x (List.mem_cons_of_mem _ hx)⟩

theorem OmEnquire.boolean_items (db : Backend) (W : Weighting) (q : OmQuery) (t : QueryTree)
    (ht : q.tree = some t) (K : Nat) (opts : MatchOptions)
    (hkey : opts.match_collapse_key = none) (decider : Option (Nat → Bool)) :
    (OmEnquire.get_mset db W (q.set_bool true) 0 K opts decider).map (fun m => m.items) =
      .ok (if opts.match_sort_forward = true then
        (((QueryTree.candidates db W true q.qlen t).filter
          (fun c => decider_accepts decider c.1)).map plain_item).take K
      else
        (((QueryTree.candidates db W true q.qlen t).filter
          (fun c => decider_accepts decider c.1)).map plain_item).reverse.take K) := by
  have hz : ∀ c ∈ QueryTree.candidates db W true q.qlen t, c.2 = 0 := fun c hc =>
    QueryTree.eval_bool_zero db W q.qlen t c.1 c.2 (QueryTree.mem_candidates db W true q.qlen t c hc)
  have hinc := QueryTree.candidates_increasing db W true q.qlen t
  have hheap : (collect db opts decider (0 + K) (QueryTree.candidates db W true q.qlen t)).heap =
      (if opts.match_sort_forward = true then
        (((QueryTree.candidates db W true q.qlen t).filter
          (fun c => decider_accepts decider c.1)).map plain_item).take K
      else
        (((QueryTree.candidates db W true q.qlen t).filter
          (fun c => decider_accepts decider c.1)).map plain_item).reverse.take K) := by
    rw [Nat.zero_add]
    cases hf : opts.match_sort_forward with
    | true =>
      have := collect_heap_forward db opts hkey hf decider K _ [] 0 0 hz
        (by intro h hh; simp at hh) hinc
      simpa [collect] using this
    | false =>
      have := collect_heap_reverse db opts hkey hf decider K _ [] 0 0 hz
        (by intro h hh; simp at hh) hinc
      simpa [collect] using this
  have hkeep : ∀ it ∈ (collect db opts decider (0 + K)
      (QueryTree.candidates db W true q.qlen t)).heap,
      cutoff_keeps opts.match_percent_cutoff (QueryTree.maxweight db W true q.qlen t) it
        = true := by
    intro it hit
    obtain ⟨c, hc, _, h2⟩ := collect_from_candidates db opts decider _ _ it hit
    have hw : it.wt = 0 := by rw [← h2]; exact hz c hc
    simp [cutoff_keeps, hw, QueryTree.maxweight_bool_zero]
  unfold OmEnquire.get_mset
  simp only [OmQuery.set_bool, ht, Except.map, List.drop_zero]
  rw [List.filter_eq_self.2 hkeep, hheap]

theorem Except.map_comp {ε α β γ : Type} (e : Except ε α) (f : α → β) (g : β → γ) :
    (e.map f).map g = e.map (fun a => g (f a)) := by
  cases e <;> rfl

theorem QueryTree.candidates_length_le (db : Backend) (W : Weighting) (is_bool : Bool)
    (qlen : Nat) (t : QueryTree) :
    (QueryTree.candidates db W is_bool qlen t).length ≤ db.lastdocid := by
  unfold QueryTree.candidates
  exact le_trans (List.length_filterMap_le _ _) (by simp)

/-- C16: for a boolean query (every weight is 0), with the other match options
at their defaults and any match decider: `match_sort_forward = true` gives the
match set of the default options; when the whole ranking is requested (`M` at
least the number of documents), `match_sort_forward = false` gives the same
items in exactly the reversed order; and when only `K` items are requested the
reversed-order match set is the last `K` items of the default order, reversed,
as the default-order one is its first `K` items. -/
theorem OmEnquire.reverse_sort (db : Backend) (W : Weighting) (q : OmQuery) (K M : Nat)
    (decider : Option (Nat → Bool)) (hM : db.lastdocid ≤ M) :
    OmEnquire.get_mset db W (q.set_bool true) 0 K
        { MatchOptions.default with match_sort_forward := true } decider =
      OmEnquire.get_mset db W (q.set_bool true) 0 K MatchOptions.default decider ∧
    (OmEnquire.get_mset db W (q.set_bool true) 0 M
        { MatchOptions.default with match_sort_forward := false } decider).map
        (fun m => m.items) =
      (OmEnquire.get_mset db W (q.set_bool true) 0 M MatchOptions.default decider).map
        (fun m => m.items.reverse) ∧
    (OmEnquire.get_mset db W (q.set_bool true) 0 K
        { MatchOptions.default with match_sort_forward := false } decider).map
        (fun m => m.items) =
      (OmEnquire.get_mset db W (q.set_bool true) 0 M MatchOptions.default decider).map
        (fun m => m.items.reverse.take K) ∧
    (OmEnquire.get_mset db W (q.set_bool true) 0 K MatchOptions.default decider).map
        (fun m => m.items) =
      (OmEnquire.get_mset db W (q.set_bool true) 0 M MatchOptions.default decider).map
        (fun m => m.items.take K) := by
  refine ⟨rfl, ?_⟩
  cases ht : q.tree with
  | none =>
    simp [OmEnquire.get_mset, OmQuery.set_bool, ht, Except.map]
  | some t =>
    have hlen : (((QueryTree.candidates db W true q.qlen t).filter
        (fun c => decider_accepts decider c.1)).map plain_item).length ≤ M := by
      rw [List.length_map]
      exact le_trans (List.length_filter_le _ _)
        (le_trans (QueryTree.candidates_length_le db W true q.qlen t) hM)
    have hfull := OmEnquire.boolean_items db W q t ht M MatchOptions.default rfl decider
    have hfwd := OmEnquire.boolean_items db W q t ht K MatchOptions.default rfl decider
    have hrevK := OmEnquire.boolean_items db W q t ht K
      { MatchOptions.default with match_sort_forward := false } rfl decider
    have hrevM := OmEnquire.boolean_items db W q t ht M
      { MatchOptions.default with match_sort_forward := false } rfl decider
    simp only [MatchOptions.default, if_true, Bool.false_eq_true, if_false] at hfull hfwd hrevK hrevM
    rw [List.take_of_length_le hlen] at hfull
    rw [List.take_of_length_le (by rw [List.length_reverse]; exact hlen)] at hrevM
    have e1 := Except.map_comp (OmEnquire.get_mset db W (q.set_bool true) 0 M
      MatchOptions.default decider) (fun m => m.items) (fun l => l.reverse)
    have e2 := Except.map_comp (OmEnquire.get_mset db W (q.set_bool true) 0 M
      MatchOptions.default decider) (fun m => m.items) (fun l => l.reverse.take K)
    have e3 := Except.map_comp (OmEnquire.get_mset db W (q.set_bool true) 0 M
      MatchOptions.default decider) (fun m => m.items) (fun l => l.take K)
    simp only [MatchOptions.default] at e1 e2 e3 ⊢
    rw [← e1, ← e2, ← e3, hfull, hfwd, hrevK, hrevM]
    exact ⟨rfl, rfl, rfl⟩

/-- Witness of C16: the boolean query `thi` on the sample backend of six
documents, three items requested, as in `test_reversebool2`. -/
theorem OmEnquire.reverse_sort_witness :
    (OmEnquire.get_mset sample_backend sample_weighting ((OmQuery.term "thi" 1 1).set_bool true)
        0 3 { MatchOptions.default with match_sort_forward := false } none).map
        (fun m => m.items) =
      (OmEnquire.get_mset sample_backend sample_weighting
        ((OmQuery.term "thi" 1 1).set_bool true) 0 6 MatchOptions.default none).map
        (fun m => m.items.reverse.take 3) :=
  (OmEnquire.reverse_sort sample_backend sample_weighting (OmQuery.term "thi" 1 1) 3 6 none
    (by decide)).2.2.1

/-! ## Placeholders of the term list -/

/-- C20: at every valid position (`pos != 0` and not `at_end()`),
`SleepyTermList::get_wdf()` and `SleepyTermList::get_termfreq()` return 1,
whatever the term-id data, the term cache (so the current term), the number of
terms and the database size: two term lists at valid positions give the same
values. -/
theorem SleepyTermList.placeholders (t t' : SleepyTermList) (_h : t.on_term = true)
    (_h' : t'.on_term = true) :
    t.get_wdf = 1 ∧ t.get_termfreq = 1 ∧ t.get_wdf = t'.get_wdf ∧
    t.get_termfreq = t'.get_termfreq :=
  ⟨rfl, rfl, rfl, rfl⟩

/-- Witness of C20: the sample term list at its first and at its second
position. -/
theorem SleepyTermList.placeholders_witness :
    sample_termlist.get_wdf = 1 ∧ sample_termlist.get_termfreq = 1 ∧
    sample_termlist.get_wdf = ({ sample_termlist with pos := 2 } : SleepyTermList).get_wdf ∧
    sample_termlist.get_termfreq =
      ({ sample_termlist with pos := 2 } : SleepyTermList).get_termfreq :=
  SleepyTermList.placeholders sample_termlist { sample_termlist with pos := 2 }
    (by decide) (by decide)

/-! ## The term-list cursor -/

/-- C21 fails in the code: `SleepyTermList::get_termname` reads `data[pos]`,
where `SleepyPostList::get_docid` reads `data[pos - 1]` with the same 1-based
cursor.  On the term list of terms 5 ("inmemory") and 6 ("word"), with a 32-bit
`termcount`, a traversal from the unpositioned state visits
`get_approx_size() = 2` positions before `at_end`, but at position 1 it reads
index 1 and names "word", and at position 2 it reads index 2, which is outside
`[0, terms)`, and names the term whose id lies in memory after the array.  The
document's terms are "inmemory" and "word"; "inmemory" (`data[0]`) is never
named.  At position 1 `SleepyPostList::get_docid` reads index 0. -/
theorem SleepyTermList.traverse_names_shifted :
    SleepyTermList.traverse 32 3 { sample_termlist with pos := 0 }
      = some [(1, "word"), (2, "")] ∧
    SleepyTermList.traverse 32 2 { sample_termlist with pos := 0 } = none ∧
    sample_termlist.get_approx_size = 2 ∧
    [sample_termlist.termcache.term_id_to_name (sample_termlist.data 0),
     sample_termlist.termcache.term_id_to_name (sample_termlist.data 1)]
      = ["inmemory", "word"] ∧
    ¬ (2 < sample_termlist.terms) ∧
    sample_termlist.on_term = true ∧
    sample_termlist.get_termname_index = 1 ∧
    sample_termlist.get_termname = "word" ∧
    (∀ t : SleepyTermList, t.get_termname
      = t.termcache.term_id_to_name (t.data t.get_termname_index)) ∧
    SleepyPostList.sample.pos = sample_termlist.pos ∧
    SleepyPostList.sample.get_docid_index 32 = 0 := by
  refine ⟨by decide, by decide, by decide, by decide, by decide, by decide, by decide,
    by decide, fun _ => rfl, by decide, by decide⟩

/-! ## The weight argument -/

theorem SleepyPostList.skip_to_loop_weight_irrelevant (bits did : Nat) (w1 w2 : weight) :
    ∀ (fuel : Nat) (s : SleepyPostList),
      SleepyPostList.skip_to_loop bits did w1 fuel s
        = SleepyPostList.skip_to_loop bits did w2 fuel s := by
  intro fuel
  induction fuel with
  | zero => intro s; rfl
  | succ n ih =>
    intro s
    simp only [SleepyPostList.skip_to_loop, SleepyPostList.next]
    split
    · exact ih _
    · rfl

/-- C26: the minimum-weight argument does not influence a leaf posting list.
For every `SleepyPostList` state, every `d` and any two weights, `next` returns
the same pointer and leaves the same state, and so does `skip_to` for every
bound on its loop (the call returns for one weight exactly when it returns for
the other, with the same pointer and state); the same holds for the two calls
of an `EmptyPostList`. -/
theorem leaf_ignores_w_min (bits fuel : Nat) (s : SleepyPostList) (e : EmptyPostList)
    (d : Nat) (w1 w2 : weight) :
    s.next bits w1 = s.next bits w2 ∧
    s.skip_to bits fuel d w1 = s.skip_to bits fuel d w2 ∧
    e.next w1 = e.next w2 ∧
    e.skip_to d w1 = e.skip_to d w2 :=
  ⟨rfl, SleepyPostList.skip_to_loop_weight_irrelevant bits d w1 w2 fuel _, rfl, rfl⟩

/-! ## The `make_*` members -/

/-- C28: for every database and every argument, `make_term`, `make_doc` and
`make_posting` raise an `OmError` (the one built from their "not implemented"
message), return no value, and leave the database unchanged. -/
theorem SleepyDatabase.make_members_raise (db : SleepyDatabase) (tname dname : String)
    (a b : Nat) :
    ((db.make_term tname).1 = .error ⟨"DADatabase::make_term() not implemented"⟩ ∧
      (∀ v, (db.make_term tname).1 ≠ .ok v) ∧ (db.make_term tname).2 = db) ∧
    ((db.make_doc dname).1 = .error ⟨"DADatabase::make_doc() not implemented"⟩ ∧
      (∀ v, (db.make_doc dname).1 ≠ .ok v) ∧ (db.make_doc dname).2 = db) ∧
    ((db.make_posting tname a b).1
        = .error ⟨"DADatabase::make_posting() not implemented"⟩ ∧
      (∀ v, (db.make_posting tname a b).1 ≠ .ok v) ∧ (db.make_posting tname a b).2 = db) :=
  ⟨⟨rfl, fun _ h => Except.noConfusion h, rfl⟩, ⟨rfl, fun _ h => Except.noConfusion h, rfl⟩,
    ⟨rfl, fun _ h => Except.noConfusion h, rfl⟩⟩

/-! ## Reads of the posting array -/

theorem SleepyPostList.skip_to_eq_loop_start (bits fuel : Nat) (s : SleepyPostList)
    (did : Nat) (w : weight) (h2 : 1 < 2 ^ bits) :
    s.skip_to bits fuel did w
      = SleepyPostList.skip_to_loop bits did w fuel { s with pos := s.start_pos } := by
  by_cases h0 : s.pos = 0
  · have hincr : doccount_incr bits s.pos = 1 := by
      rw [h0]; exact doccount_incr_of_lt (by omega)
    simp only [SleepyPostList.skip_to, SleepyPostList.start_pos, if_pos h0, hincr]
  · simp only [SleepyPostList.skip_to, SleepyPostList.start_pos, if_neg h0]

theorem SleepyPostList.skip_to_of_at_end (bits fuel : Nat) (s : SleepyPostList)
    (did : Nat) (w : weight) (hend : s.at_end = true) :
    s.skip_to bits fuel did w = some (none, s) := by
  have hlt : s.termfreq < s.pos := (SleepyPostList.at_end_eq_true_iff s).1 hend
  rw [SleepyPostList.skip_to_of_pos_ne_zero bits fuel s did w (by omega)]
  exact SleepyPostList.skip_to_loop_of_stop bits did w fuel s (by simp [hend])

theorem SleepyPostList.start_pos_bounds (s : SleepyPostList) (hne : s.at_end = false) :
    1 ≤ s.start_pos ∧ s.pos ≤ s.start_pos ∧ s.start_pos ≤ s.termfreq + 1 := by
  have hle : s.pos ≤ s.termfreq := (SleepyPostList.at_end_eq_false_iff s).1 hne
  unfold SleepyPostList.start_pos
  split <;> omega

theorem SleepyPostList.skip_to_spec (bits fuel : Nat) (s : SleepyPostList) (did : Nat)
    (w : weight) (hmax : s.termfreq + 1 < 2 ^ bits) (hne : s.at_end = false)
    (hfuel : s.termfreq + 1 - s.start_pos ≤ fuel) :
    ∃ s', s.skip_to bits fuel did w = some (none, s') ∧
      s'.data = s.data ∧ s'.termfreq = s.termfreq ∧ s.start_pos ≤ s'.pos ∧
      s'.pos ≤ s.termfreq + 1 ∧
      (∀ p, s.start_pos ≤ p → p < s'.pos → s.data (p - 1) < did) ∧
      (s'.pos ≤ s.termfreq → did ≤ s.data (s'.pos - 1)) := by
  obtain ⟨h1, _, h3⟩ := SleepyPostList.start_pos_bounds s hne
  rw [SleepyPostList.skip_to_eq_loop_start bits fuel s did w (by omega)]
  exact SleepyPostList.skip_to_loop_spec bits did w fuel { s with pos := s.start_pos } hmax
    h1 h3 hfuel

/-- C23 fails as stated: on a 32-bit `doccount`, take 2^32 - 1 postings, all of
document 1, and the unpositioned state.  The claimed bound on the advances is
`termfreq + 1 - pos = 2^32`, but `skip_to(2, w)` is still running after any
number of iterations of its loop: at `pos = termfreq` the advance wraps `pos` to
0 (it does not increase it), and no `pos` is `at_end`. -/
theorem SleepyPostList.skip_to_runs_forever_at_full :
    SleepyPostList.full_ones_start.termfreq + 1 - SleepyPostList.full_ones_start.pos
      = 2 ^ 32 ∧
    (∀ fuel, SleepyPostList.full_ones_start.skip_to 32 fuel 2 0 = none) ∧
    SleepyPostList.full_ones.pos = SleepyPostList.full_ones.termfreq ∧
    ¬ (SleepyPostList.full_ones.pos < (SleepyPostList.full_ones.next 32 0).2.pos) := by
  refine ⟨by decide, ?_, by decide, by decide⟩
  intro fuel
  rw [SleepyPostList.skip_to_eq_loop_start 32 fuel _ 2 0 (by decide)]
  exact SleepyPostList.skip_to_loop_full_ones fuel _ rfl rfl (by decide)

/-- C23 (amended): for a posting list whose term frequency is below the largest
`doccount` value, `skip_to` terminates in every state, for every `did` and
whatever the data: it returns once its loop may run `termfreq + 1 - pos` times,
the cursor it leaves is not before the one it found, not beyond
`max pos (termfreq + 1)`, and has advanced by at most `termfreq + 1 - pos`;
and each run of the loop body (which happens only when the list is not
`at_end`) strictly increases `pos`, to at most `termfreq + 1`. -/
theorem SleepyPostList.skip_to_terminates (bits fuel : Nat) (s : SleepyPostList)
    (did : Nat) (w : weight) (hmax : s.termfreq + 1 < 2 ^ bits)
    (hfuel : s.termfreq + 1 - s.pos ≤ fuel) :
    (∃ s', s.skip_to bits fuel did w = some (none, s') ∧ s.pos ≤ s'.pos ∧
      s'.pos ≤ max s.pos (s.termfreq + 1) ∧ s'.pos - s.pos ≤ s.termfreq + 1 - s.pos) ∧
    (∀ s1 : SleepyPostList, s1.termfreq = s.termfreq → s1.at_end = false →
      s1.pos < (s1.next bits w).2.pos ∧ (s1.next bits w).2.pos ≤ s.termfreq + 1) := by
  constructor
  · by_cases hend : s.at_end = true
    · refine ⟨s, SleepyPostList.skip_to_of_at_end bits fuel s did w hend, le_refl _,
        le_max_left _ _, by omega⟩
    · have hne : s.at_end = false := by simpa using hend
      obtain ⟨_, h2, _⟩ := SleepyPostList.start_pos_bounds s hne
      obtain ⟨s', hs', _, _, hge, hup, _, _⟩ :=
        SleepyPostList.skip_to_spec bits fuel s did w hmax hne (by omega)
      refine ⟨s', hs', by omega, le_trans hup (le_max_right _ _), by omega⟩
  · intro s1 htf hne1
    have hle : s1.pos ≤ s1.termfreq := (SleepyPostList.at_end_eq_false_iff s1).1 hne1
    have hincr : doccount_incr bits s1.pos = s1.pos + 1 := doccount_incr_of_lt (by omega)
    simp only [SleepyPostList.next, hincr]
    omega

/-- Witness of C23: the unpositioned posting list of documents 2 and 4,
skipping to document 9 with a bound of 3 on the loop. -/
theorem SleepyPostList.skip_to_terminates_witness :
    (∃ s', ({ SleepyPostList.sample with pos := 0 } : SleepyPostList).skip_to 32 3 9 0
        = some (none, s') ∧
      ({ SleepyPostList.sample with pos := 0 } : SleepyPostList).pos ≤ s'.pos ∧
      s'.pos ≤ max ({ SleepyPostList.sample with pos := 0 } : SleepyPostList).pos
        (({ SleepyPostList.sample with pos := 0 } : SleepyPostList).termfreq + 1) ∧
      s'.pos - ({ SleepyPostList.sample with pos := 0 } : SleepyPostList).pos
        ≤ ({ SleepyPostList.sample with pos := 0 } : SleepyPostList).termfreq + 1
          - ({ SleepyPostList.sample with pos := 0 } : SleepyPostList).pos) ∧
    (∀ s1 : SleepyPostList,
      s1.termfreq = ({ SleepyPostList.sample with pos := 0 } : SleepyPostList).termfreq →
      s1.at_end = false →
      s1.pos < (s1.next 32 0).2.pos ∧
      (s1.next 32 0).2.pos
        ≤ ({ SleepyPostList.sample with pos := 0 } : SleepyPostList).termfreq + 1) :=
  SleepyPostList.skip_to_terminates 32 3 { SleepyPostList.sample with pos := 0 } 9 0
    (by decide) (by decide)

/-! ## What an advance changes -/

theorem SleepyPostList.skip_to_loop_frame (bits did : Nat) (w : weight) :
    ∀ (fuel : Nat) (s : SleepyPostList) (r : Option PostList × SleepyPostList),
      SleepyPostList.skip_to_loop bits did w fuel s = some r →
      r.1 = none ∧ r.2.data = s.data ∧ r.2.termfreq = s.termfreq ∧
      (s.termfreq + 1 < 2 ^ bits → s.pos ≤ r.2.pos) := by
  intro fuel
  induction fuel with
  | zero =>
    intro s r h
    by_cases hc : s.at_end = false ∧ s.data (doccount_pred bits s.pos) < did
    · simp only [SleepyPostList.skip_to_loop, if_pos hc] at h
      exact absurd h (by simp)
    · simp only [SleepyPostList.skip_to_loop, if_neg hc, Option.some.injEq] at h
      subst h
      exact ⟨rfl, rfl, rfl, fun _ => le_refl _⟩
  | succ n ih =>
    intro s r h
    by_cases hc : s.at_end = false ∧ s.data (doccount_pred bits s.pos) < did
    · simp only [SleepyPostList.skip_to_loop, if_pos hc, SleepyPostList.next] at h
      obtain ⟨h1, h2, h3, h4⟩ := ih _ r h
      refine ⟨h1, h2, h3, ?_⟩
      intro hmax
      have hle : s.pos ≤ s.termfreq := (SleepyPostList.at_end_eq_false_iff s).1 hc.1
      have hincr : doccount_incr bits s.pos = s.pos + 1 := doccount_incr_of_lt (by omega)
      have := h4 hmax
      simp only [hincr] at this
      omega
    · simp only [SleepyPostList.skip_to_loop, if_neg hc, Option.some.injEq] at h
      subst h
      exact ⟨rfl, rfl, rfl, fun _ => le_refl _⟩

theorem SleepyPostList.skip_to_frame (bits fuel : Nat) (s : SleepyPostList) (did : Nat)
    (w : weight) (r : Option PostList × SleepyPostList)
    (h : s.skip_to bits fuel did w = some r) :
    r.1 = none ∧ r.2.data = s.data ∧ r.2.termfreq = s.termfreq ∧
    (s.termfreq + 1 < 2 ^ bits → s.pos ≤ r.2.pos) := by
  by_cases h0 : s.pos = 0
  · simp only [SleepyPostList.skip_to, if_pos h0] at h
    obtain ⟨h1, h2, h3, _⟩ := SleepyPostList.skip_to_loop_frame bits did w fuel _ r h
    exact ⟨h1, h2, h3, fun _ => by omega⟩
  · rw [SleepyPostList.skip_to_of_pos_ne_zero bits fuel s did w h0] at h
    exact SleepyPostList.skip_to_loop_frame bits did w fuel s r h

theorem SleepyPostList.nexts_frame (bits : Nat) (w : weight) :
    ∀ (k : Nat) (s : SleepyPostList),
      (SleepyPostList.nexts bits w k s).data = s.data ∧
      (SleepyPostList.nexts bits w k s).termfreq = s.termfreq := by
  intro k
  induction k with
  | zero => intro s; exact ⟨rfl, rfl⟩
  | succ n ih => intro s; exact ih { s with pos := doccount_incr bits s.pos }

/-- C27 fails as stated: on a 32-bit `doccount`, with the cursor on the last of
the 2^32 - 1 postings 1, ..., 2^32 - 1 (the list is not `at_end`, as `next`
asserts), `next` returns `NULL` and leaves `pos = 0`: it has decreased `pos`. -/
theorem SleepyPostList.next_decreases_pos_at_full :
    SleepyPostList.full_last.at_end = false ∧
    (SleepyPostList.full_last.next 32 0).1 = none ∧
    (SleepyPostList.full_last.next 32 0).2.pos < SleepyPostList.full_last.pos := by
  refine ⟨by decide, rfl, by decide⟩

/-! ## `skip_to` on an unpositioned list -/

/-- C25: on a `doccount` of at least one bit, from `pos = 0` with
`termfreq >= 1`, `skip_to(d, w)` first moves the cursor to position 1 (its loop
starts there), and it returns the same pointer and leaves the same state as
`next(w)` followed by `skip_to(d, w)`, for every `d` and every bound on the loop
(either both return, with the same result, or neither does).  `skip_to(0, w)`
returns at once with the cursor on position 1, which differs from the state
before the call: the list is not `at_end` and `get_docid()` is `data[0]`.  With
`termfreq` below the largest `doccount` value both sides return once the loop
may run `termfreq` times, with the cursor at a position `>= 1`. -/
theorem SleepyPostList.skip_to_from_unpositioned (bits fuel : Nat) (s : SleepyPostList)
    (d : Nat) (w : weight) (hbits : 0 < bits) (hpos : s.pos = 0)
    (htf : 1 ≤ s.termfreq) :
    s.skip_to bits fuel d w = s.next_then_skip_to bits fuel d w ∧
    s.skip_to bits fuel d w
      = SleepyPostList.skip_to_loop bits d w fuel { s with pos := 1 } ∧
    s.skip_to bits fuel 0 w = some (none, { s with pos := 1 }) ∧
    ({ s with pos := 1 } : SleepyPostList).pos ≠ s.pos ∧
    ({ s with pos := 1 } : SleepyPostList).at_end = false ∧
    ({ s with pos := 1 } : SleepyPostList).get_docid bits = s.data 0 ∧
    (s.termfreq + 1 < 2 ^ bits → s.termfreq ≤ fuel →
      ∃ s', s.skip_to bits fuel d w = some (none, s') ∧
        s.next_then_skip_to bits fuel d w = some (none, s') ∧ 1 ≤ s'.pos) := by
  have h2 : 1 < 2 ^ bits := one_lt_two_pow hbits
  have hincr : doccount_incr bits s.pos = 1 := by
    rw [hpos]; exact doccount_incr_of_lt (by omega)
  have hpred : doccount_pred bits 1 = 0 := doccount_pred_of_pos (by omega) (by omega)
  have hloop : ∀ d', s.skip_to bits fuel d' w
      = SleepyPostList.skip_to_loop bits d' w fuel { s with pos := 1 } := by
    intro d'
    simp only [SleepyPostList.skip_to, if_pos hpos, hincr]
  have hboth : s.skip_to bits fuel d w = s.next_then_skip_to bits fuel d w := by
    rw [hloop d]
    simp only [SleepyPostList.next_then_skip_to, SleepyPostList.next, hincr]
    rw [SleepyPostList.skip_to_of_pos_ne_zero bits fuel _ d w (by simp)]
  refine ⟨hboth, hloop d, ?_, ?_, ?_, ?_, ?_⟩
  · rw [hloop 0]
    exact SleepyPostList.skip_to_loop_of_stop bits 0 w fuel _ (by simp)
  · simp only [hpos]; omega
  · rw [SleepyPostList.at_end_eq_false_iff]; exact htf
  · simp only [SleepyPostList.get_docid, hpred]
  · intro hmax hfuel
    have hne : s.at_end = false := (SleepyPostList.at_end_eq_false_iff s).2 (by omega)
    have hstart : s.start_pos = 1 := by simp only [SleepyPostList.start_pos, if_pos hpos]
    obtain ⟨s', hs', _, _, hge, _⟩ :=
      SleepyPostList.skip_to_spec bits fuel s d w hmax hne (by omega)
    exact ⟨s', hs', by rw [← hboth, hs'], by omega⟩

/-- Witness of C25: the unpositioned posting list of documents 2 and 4,
skipping to document 3 with a bound of 2 on the loop. -/
theorem SleepyPostList.skip_to_from_unpositioned_witness :
    ({ SleepyPostList.sample with pos := 0 } : SleepyPostList).skip_to 32 2 3 0
      = ({ SleepyPostList.sample with pos := 0 } : SleepyPostList).next_then_skip_to
          32 2 3 0 ∧
    ({ SleepyPostList.sample with pos := 0 } : SleepyPostList).skip_to 32 2 3 0
      = some (none, { SleepyPostList.sample with pos := 2 }) ∧
    ({ SleepyPostList.sample with pos := 0 } : SleepyPostList).skip_to 32 2 0 0
      = some (none, { SleepyPostList.sample with pos := 1 }) :=
  ⟨(SleepyPostList.skip_to_from_unpositioned 32 2 { SleepyPostList.sample with pos := 0 }
      3 0 (by decide) rfl (by decide)).1,
    rfl,
    (SleepyPostList.skip_to_from_unpositioned 32 2 { SleepyPostList.sample with pos := 0 }
      0 0 (by decide) rfl (by decide)).2.2.1⟩

/-! ## Composition of `skip_to` calls -/

theorem SleepyPostList.skip_to_loop_step (bits did : Nat) (w : weight) (fuel : Nat)
    (s : SleepyPostList)
    (hc : s.at_end = false ∧ s.data (doccount_pred bits s.pos) < did) :
    SleepyPostList.skip_to_loop bits did w (fuel + 1) s
      = SleepyPostList.skip_to_loop bits did w fuel
          { s with pos := doccount_incr bits s.pos } := by
  simp only [SleepyPostList.skip_to_loop, if_pos hc, SleepyPostList.next]

theorem SleepyPostList.skip_to_loop_zero_running (bits did : Nat) (w : weight)
    (s : SleepyPostList)
    (hc : s.at_end = false ∧ s.data (doccount_pred bits s.pos) < did) :
    SleepyPostList.skip_to_loop bits did w 0 s = none := by
  simp only [SleepyPostList.skip_to_loop, if_pos hc]

theorem SleepyPostList.skip_to_loop_mono (bits did : Nat) (w : weight) :
    ∀ (fuel : Nat) (s : SleepyPostList) (r : Option PostList × SleepyPostList),
      SleepyPostList.skip_to_loop bits did w fuel s = some r →
      ∀ k, SleepyPostList.skip_to_loop bits did w (fuel + k) s = some r := by
  intro fuel
  induction fuel with
  | zero =>
    intro s r h k
    by_cases hc : s.at_end = false ∧ s.data (doccount_pred bits s.pos) < did
    · rw [SleepyPostList.skip_to_loop_zero_running bits did w s hc] at h
      exact absurd h (by simp)
    · rw [SleepyPostList.skip_to_loop_of_stop bits did w 0 s hc] at h
      rw [SleepyPostList.skip_to_loop_of_stop bits did w (0 + k) s hc]
      exact h
  | succ n ih =>
    intro s r h k
    by_cases hc : s.at_end = false ∧ s.data (doccount_pred bits s.pos) < did
    · rw [SleepyPostList.skip_to_loop_step bits did w n s hc] at h
      have hk := ih _ r h k
      have e : n + 1 + k = (n + k) + 1 := by omega
      rw [e, SleepyPostList.skip_to_loop_step bits did w (n + k) s hc]
      exact hk
    · rw [SleepyPostList.skip_to_loop_of_stop bits did w (n + 1) s hc] at h
      rw [SleepyPostList.skip_to_loop_of_stop bits did w (n + 1 + k) s hc]
      exact h

theorem SleepyPostList.skip_to_loop_det (bits did : Nat) (w : weight) (f f' : Nat)
    (s : SleepyPostList) (r r' : Option PostList × SleepyPostList)
    (h : SleepyPostList.skip_to_loop bits did w f s = some r)
    (h' : SleepyPostList.skip_to_loop bits did w f' s = some r') : r = r' := by
  have a := SleepyPostList.skip_to_loop_mono bits did w f s r h f'
  have b := SleepyPostList.skip_to_loop_mono bits did w f' s r' h' f
  rw [Nat.add_comm, a] at b
  exact Option.some.inj b

theorem SleepyPostList.skip_to_loop_returns_step (bits did : Nat) (w : weight)
    (s : SleepyPostList) (r : Option PostList × SleepyPostList)
    (hc : s.at_end = false ∧ s.data (doccount_pred bits s.pos) < did) :
    (∃ f, SleepyPostList.skip_to_loop bits did w f s = some r) ↔
    (∃ f, SleepyPostList.skip_to_loop bits did w f
        { s with pos := doccount_incr bits s.pos } = some r) := by
  constructor
  · rintro ⟨f, hf⟩
    cases f with
    | zero =>
      rw [SleepyPostList.skip_to_loop_zero_running bits did w s hc] at hf
      exact absurd hf (by simp)
    | succ n =>
      rw [SleepyPostList.skip_to_loop_step bits did w n s hc] at hf
      exact ⟨n, hf⟩
  · rintro ⟨f, hf⟩
    exact ⟨f + 1, by rw [SleepyPostList.skip_to_loop_step bits did w f s hc]; exact hf⟩

theorem SleepyPostList.skip_to_loop_prefix (bits d1 d2 : Nat) (w : weight) (hd : d1 ≤ d2) :
    ∀ (f1 : Nat) (s s1 : SleepyPostList),
      SleepyPostList.skip_to_loop bits d1 w f1 s = some (none, s1) →
      ∀ r, (∃ f, SleepyPostList.skip_to_loop bits d2 w f s = some r) ↔
        (∃ f, SleepyPostList.skip_to_loop bits d2 w f s1 = some r) := by
  intro f1
  induction f1 with
  | zero =>
    intro s s1 h r
    by_cases hc : s.at_end = false ∧ s.data (doccount_pred bits s.pos) < d1
    · rw [SleepyPostList.skip_to_loop_zero_running bits d1 w s hc] at h
      exact absurd h (by simp)
    · rw [SleepyPostList.skip_to_loop_of_stop bits d1 w 0 s hc] at h
      simp only [Option.some.injEq, Prod.mk.injEq, true_and] at h
      subst h
      exact Iff.rfl
  | succ n ih =>
    intro s s1 h r
    by_cases hc : s.at_end = false ∧ s.data (doccount_pred bits s.pos) < d1
    · rw [SleepyPostList.skip_to_loop_step bits d1 w n s hc] at h
      rw [SleepyPostList.skip_to_loop_returns_step bits d2 w s r
        ⟨hc.1, lt_of_lt_of_le hc.2 hd⟩]
      exact ih _ s1 h r
    · rw [SleepyPostList.skip_to_loop_of_stop bits d1 w (n + 1) s hc] at h
      simp only [Option.some.injEq, Prod.mk.injEq, true_and] at h
      subst h
      exact Iff.rfl

theorem SleepyPostList.skip_to_loop_diverges (bits d1 d2 : Nat) (w : weight)
    (hd : d1 ≤ d2) :
    ∀ (f : Nat) (s : SleepyPostList),
      (∀ f1, SleepyPostList.skip_to_loop bits d1 w f1 s = none) →
      SleepyPostList.skip_to_loop bits d2 w f s = none := by
  intro f
  induction f with
  | zero =>
    intro s h
    have hc : s.at_end = false ∧ s.data (doccount_pred bits s.pos) < d1 := by
      by_contra hn
      have := h 0
      rw [SleepyPostList.skip_to_loop_of_stop bits d1 w 0 s hn] at this
      exact absurd this (by simp)
    exact SleepyPostList.skip_to_loop_zero_running bits d2 w s
      ⟨hc.1, lt_of_lt_of_le hc.2 hd⟩
  | succ n ih =>
    intro s h
    have hc : s.at_end = false ∧ s.data (doccount_pred bits s.pos) < d1 := by
      by_contra hn
      have := h 0
      rw [SleepyPostList.skip_to_loop_of_stop bits d1 w 0 s hn] at this
      exact absurd this (by simp)
    rw [SleepyPostList.skip_to_loop_step bits d2 w n s ⟨hc.1, lt_of_lt_of_le hc.2 hd⟩]
    apply ih
    intro f1
    have := h (f1 + 1)
    rwa [SleepyPostList.skip_to_loop_step bits d1 w f1 s hc] at this

theorem SleepyPostList.skip_to_loop_wrapped (bits did : Nat) (w : weight) :
    ∀ (f : Nat) (s s' : SleepyPostList), 1 ≤ s.pos → s.pos < 2 ^ bits →
      SleepyPostList.skip_to_loop bits did w f s = some (none, s') → s'.pos = 0 →
      ∀ q, s.pos ≤ q → q < 2 ^ bits → q ≤ s.termfreq ∧ s.data (q - 1) < did := by
  intro f
  induction f with
  | zero =>
    intro s s' h1 _ h h0 q _ _
    by_cases hc : s.at_end = false ∧ s.data (doccount_pred bits s.pos) < did
    · rw [SleepyPostList.skip_to_loop_zero_running bits did w s hc] at h
      exact absurd h (by simp)
    · rw [SleepyPostList.skip_to_loop_of_stop bits did w 0 s hc] at h
      simp only [Option.some.injEq, Prod.mk.injEq, true_and] at h
      subst h
      omega
  | succ n ih =>
    intro s s' h1 h2 h h0 q hq1 hq2
    by_cases hc : s.at_end = false ∧ s.data (doccount_pred bits s.pos) < did
    · rw [SleepyPostList.skip_to_loop_step bits did w n s hc] at h
      have hle : s.pos ≤ s.termfreq := (SleepyPostList.at_end_eq_false_iff s).1 hc.1
      have hp : doccount_pred bits s.pos = s.pos - 1 := doccount_pred_of_pos h1 (by omega)
      by_cases hq : q = s.pos
      · subst hq
        have := hc.2
        rw [hp] at this
        exact ⟨hle, this⟩
      · have hlt : s.pos + 1 < 2 ^ bits := by omega
        rw [doccount_incr_of_lt hlt] at h
        exact ih { s with pos := s.pos + 1 } s' (by simp) hlt h h0 q
          (by show s.pos + 1 ≤ q; omega) hq2
    · rw [SleepyPostList.skip_to_loop_of_stop bits did w (n + 1) s hc] at h
      simp only [Option.some.injEq, Prod.mk.injEq, true_and] at h
      subst h
      omega

theorem SleepyPostList.skip_to_loop_around (bits did : Nat) (w : weight) :
    ∀ (m : Nat) (s : SleepyPostList), 1 ≤ s.pos → s.pos + m + 1 = 2 ^ bits →
      (∀ q, s.pos ≤ q → q < 2 ^ bits → q ≤ s.termfreq ∧ s.data (q - 1) < did) →
      ∀ r, (∃ f, SleepyPostList.skip_to_loop bits did w f s = some r) ↔
        (∃ f, SleepyPostList.skip_to_loop bits did w f { s with pos := 0 } = some r) := by
  intro m
  induction m with
  | zero =>
    intro s h1 hm hall r
    obtain ⟨hle, hlt⟩ := hall s.pos (le_refl _) (by omega)
    have hp : doccount_pred bits s.pos = s.pos - 1 := doccount_pred_of_pos h1 (by omega)
    have hc : s.at_end = false ∧ s.data (doccount_pred bits s.pos) < did :=
      ⟨(SleepyPostList.at_end_eq_false_iff s).2 hle, by rw [hp]; exact hlt⟩
    have hincr : doccount_incr bits s.pos = 0 := by
      unfold doccount_incr
      have e : s.pos + 1 = 2 ^ bits := by omega
      rw [e]; exact Nat.mod_self _
    rw [SleepyPostList.skip_to_loop_returns_step bits did w s r hc, hincr]
  | succ n ih =>
    intro s h1 hm hall r
    obtain ⟨hle, hlt⟩ := hall s.pos (le_refl _) (by omega)
    have hp : doccount_pred bits s.pos = s.pos - 1 := doccount_pred_of_pos h1 (by omega)
    have hc : s.at_end = false ∧ s.data (doccount_pred bits s.pos) < did :=
      ⟨(SleepyPostList.at_end_eq_false_iff s).2 hle, by rw [hp]; exact hlt⟩
    have hincr : doccount_incr bits s.pos = s.pos + 1 := doccount_incr_of_lt (by omega)
    rw [SleepyPostList.skip_to_loop_returns_step bits did w s r hc, hincr]
    exact ih { s with pos := s.pos + 1 } (by simp) (by simp only []; omega)
      (fun q hq1 hq2 => hall q (by have : s.pos + 1 ≤ q := hq1; omega) hq2) r

theorem SleepyPostList.skip_to_twice_of_first (bits f1 f2 : Nat) (s s1 : SleepyPostList)
    (d1 d2 : Nat) (w : weight) (ret : Option PostList)
    (h : s.skip_to bits f1 d1 w = some (ret, s1)) :
    s.skip_to_twice bits f1 f2 d1 d2 w
      = if s1.at_end then some (ret, s1) else s1.skip_to bits f2 d2 w := by
  simp only [SleepyPostList.skip_to_twice, h]

theorem SleepyPostList.skip_to_twice_of_running (bits f1 f2 : Nat) (s : SleepyPostList)
    (d1 d2 : Nat) (w : weight) (h : s.skip_to bits f1 d1 w = none) :
    s.skip_to_twice bits f1 f2 d1 d2 w = none := by
  simp only [SleepyPostList.skip_to_twice, h]

theorem SleepyPostList.skip_to_second_entry (bits d1 d2 : Nat) (w : weight)
    (s s1 : SleepyPostList) (f1 : Nat) (hbits : 0 < bits) (htyp : s.termfreq < 2 ^ bits)
    (h1 : 1 ≤ s.pos) (h2 : s.pos < 2 ^ bits) (hd : d1 ≤ d2) (hsorted : s.sorted_ascending)
    (hr1 : SleepyPostList.skip_to_loop bits d1 w f1 s = some (none, s1))
    (r : Option PostList × SleepyPostList) :
    (∃ f2, s1.skip_to bits f2 d2 w = some r) ↔
    (∃ f, SleepyPostList.skip_to_loop bits d2 w f s1 = some r) := by
  have hpow : 1 < 2 ^ bits := one_lt_two_pow hbits
  obtain ⟨_, hdata, htf, _⟩ := SleepyPostList.skip_to_loop_frame bits d1 w f1 s _ hr1
  simp only at hdata htf
  by_cases h0 : s1.pos = 0
  · have hall := SleepyPostList.skip_to_loop_wrapped bits d1 w f1 s s1 h1 h2 hr1 h0
    obtain ⟨hfull, hlast⟩ := hall (2 ^ bits - 1) (by omega) (by omega)
    have hincr : doccount_incr bits s1.pos = 1 := by
      rw [h0]; exact doccount_incr_of_lt (by omega)
    have hs1 : ({ s1 with pos := 0 } : SleepyPostList) = s1 := by
      cases s1; simp only at h0; subst h0; rfl
    have haround := SleepyPostList.skip_to_loop_around bits d2 w (2 ^ bits - 2)
      { s1 with pos := 1 } (by simp) (by simp only []; omega)
      (by
        intro q hq1 hq2
        have hq1' : 1 ≤ q := hq1
        refine ⟨by simp only [htf]; omega, ?_⟩
        have hle := hsorted (q - 1) (2 ^ bits - 1 - 1) (by omega) (by omega)
        simp only [hdata]
        omega) r
    rw [hs1] at haround
    simp only [SleepyPostList.skip_to, if_pos h0, hincr]
    exact haround
  · simp only [SleepyPostList.skip_to_of_pos_ne_zero bits _ s1 d2 w h0]

theorem SleepyPostList.sample_sorted_ascending (p : Nat) :
    ({ SleepyPostList.sample with pos := p } : SleepyPostList).sorted_ascending := by
  intro i j hij hj
  have hj' : j < 2 := hj
  show SleepyPostList.sample.data i ≤ SleepyPostList.sample.data j
  have hi : i = 0 ∨ i = 1 := by omega
  have hj2 : j = 0 ∨ j = 1 := by omega
  rcases hi with hi | hi <;> rcases hj2 with hj2 | hj2 <;> subst hi <;> subst hj2 <;>
    first
    | decide
    | omega

/-- C24: `skip_to` composes monotonically.  On a `doccount` of at least one bit,
for every state that is not `at_end` of a posting list whose data is sorted
ascending, and all `d1 <= d2`: performing `skip_to(d1, w)` and then, if the list
is not `at_end`, `skip_to(d2, w)` returns a pointer and leaves a state exactly
when a single `skip_to(d2, w)` returns that pointer and leaves that state (with
`d1 = d2` this is idempotence).  With `termfreq` below the largest `doccount`
value both do return, once each loop may run `termfreq + 1 - pos` times. -/
theorem SleepyPostList.skip_to_composes (bits : Nat) (s : SleepyPostList) (d1 d2 : Nat)
    (w : weight) (hbits : 0 < bits) (htyp : s.termfreq < 2 ^ bits)
    (hne : s.at_end = false) (hd : d1 ≤ d2) (hsorted : s.sorted_ascending) :
    (∀ r, (∃ f1 f2, s.skip_to_twice bits f1 f2 d1 d2 w = some r) ↔
      (∃ f, s.skip_to bits f d2 w = some r)) ∧
    (s.termfreq + 1 < 2 ^ bits → ∀ fuel, s.termfreq + 1 - s.pos ≤ fuel →
      ∃ r, s.skip_to_twice bits fuel fuel d1 d2 w = some r ∧
        s.skip_to bits fuel d2 w = some r) := by
  have hpow : 1 < 2 ^ bits := one_lt_two_pow hbits
  obtain ⟨hs1, hs2, _⟩ := SleepyPostList.start_pos_bounds s hne
  have hle : s.pos ≤ s.termfreq := (SleepyPostList.at_end_eq_false_iff s).1 hne
  have hslt : s.start_pos < 2 ^ bits := by
    unfold SleepyPostList.start_pos; split <;> omega
  have hentry : ∀ f d, s.skip_to bits f d w
      = SleepyPostList.skip_to_loop bits d w f { s with pos := s.start_pos } :=
    fun f d => SleepyPostList.skip_to_eq_loop_start bits f s d w hpow
  have hiff : ∀ r, (∃ f1 f2, s.skip_to_twice bits f1 f2 d1 d2 w = some r) ↔
      (∃ f, s.skip_to bits f d2 w = some r) := by
    intro r
    by_cases hret : ∃ f1 r1, s.skip_to bits f1 d1 w = some r1
    · obtain ⟨f1, ⟨ret1, s1⟩, hr1⟩ := hret
      have hr1' := hr1
      rw [hentry] at hr1'
      obtain ⟨hnone, _, _, _⟩ := SleepyPostList.skip_to_loop_frame bits d1 w f1 _ _ hr1'
      simp only at hnone
      subst hnone
      have hfirst : ∀ g1 r1, s.skip_to bits g1 d1 w = some r1 → r1 = (none, s1) := by
        intro g1 r1 hg1
        rw [hentry] at hg1
        exact SleepyPostList.skip_to_loop_det bits d1 w g1 f1 _ _ _ hg1 hr1'
      have hpre := SleepyPostList.skip_to_loop_prefix bits d1 d2 w hd f1 _ s1 hr1' r
      have hsingle : (∃ f, s.skip_to bits f d2 w = some r) ↔
          (∃ f, SleepyPostList.skip_to_loop bits d2 w f s1 = some r) := by
        simp only [hentry]
        exact hpre
      rw [hsingle]
      by_cases hend1 : s1.at_end = true
      · have hstop : ∀ f, SleepyPostList.skip_to_loop bits d2 w f s1 = some (none, s1) :=
          fun f => SleepyPostList.skip_to_loop_of_stop bits d2 w f s1 (by simp [hend1])
        constructor
        · rintro ⟨g1, g2, hg⟩
          cases hg1 : s.skip_to bits g1 d1 w with
          | none =>
            rw [SleepyPostList.skip_to_twice_of_running bits g1 g2 s d1 d2 w hg1] at hg
            exact absurd hg (by simp)
          | some r1 =>
            have e := hfirst g1 r1 hg1
            subst e
            rw [SleepyPostList.skip_to_twice_of_first bits g1 g2 s s1 d1 d2 w none hg1,
              if_pos hend1] at hg
            exact ⟨0, by rw [hstop 0]; exact hg⟩
        · rintro ⟨f, hf⟩
          rw [hstop f] at hf
          refine ⟨f1, 0, ?_⟩
          rw [SleepyPostList.skip_to_twice_of_first bits f1 0 s s1 d1 d2 w none hr1,
            if_pos hend1]
          exact hf
      · have hsec := SleepyPostList.skip_to_second_entry bits d1 d2 w
          { s with pos := s.start_pos } s1 f1 hbits htyp hs1 hslt hd hsorted hr1' r
        rw [← hsec]
        constructor
        · rintro ⟨g1, g2, hg⟩
          cases hg1 : s.skip_to bits g1 d1 w with
          | none =>
            rw [SleepyPostList.skip_to_twice_of_running bits g1 g2 s d1 d2 w hg1] at hg
            exact absurd hg (by simp)
          | some r1 =>
            have e := hfirst g1 r1 hg1
            subst e
            rw [SleepyPostList.skip_to_twice_of_first bits g1 g2 s s1 d1 d2 w none hg1,
              if_neg hend1] at hg
            exact ⟨g2, hg⟩
        · rintro ⟨f2, hf2⟩
          refine ⟨f1, f2, ?_⟩
          rw [SleepyPostList.skip_to_twice_of_first bits f1 f2 s s1 d1 d2 w none hr1,
            if_neg hend1]
          exact hf2
    · have hnone : ∀ f1, s.skip_to bits f1 d1 w = none := by
        intro f1
        cases h : s.skip_to bits f1 d1 w with
        | none => rfl
        | some r1 => exact absurd ⟨f1, r1, h⟩ hret
      constructor
      · rintro ⟨g1, g2, hg⟩
        rw [SleepyPostList.skip_to_twice_of_running bits g1 g2 s d1 d2 w (hnone g1)] at hg
        exact absurd hg (by simp)
      · rintro ⟨f, hf⟩
        rw [hentry] at hf
        have := SleepyPostList.skip_to_loop_diverges bits d1 d2 w hd f
          { s with pos := s.start_pos } (fun f1 => by rw [← hentry]; exact hnone f1)
        rw [this] at hf
        exact absurd hf (by simp)
  refine ⟨hiff, ?_⟩
  intro hmax fuel hfuel
  obtain ⟨s1, hr1, _, htf1, hge1, _⟩ :=
    SleepyPostList.skip_to_spec bits fuel s d1 w hmax hne (by omega)
  obtain ⟨s2, hr2, _⟩ := SleepyPostList.skip_to_spec bits fuel s d2 w hmax hne (by omega)
  have htwice : ∃ r, s.skip_to_twice bits fuel fuel d1 d2 w = some r := by
    rw [SleepyPostList.skip_to_twice_of_first bits fuel fuel s s1 d1 d2 w none hr1]
    by_cases hend1 : s1.at_end = true
    · rw [if_pos hend1]; exact ⟨_, rfl⟩
    · rw [if_neg hend1]
      have hne1 : s1.at_end = false := by simpa using hend1
      obtain ⟨_, h2', _⟩ := SleepyPostList.start_pos_bounds s1 hne1
      obtain ⟨s3, hr3, _⟩ := SleepyPostList.skip_to_spec bits fuel s1 d2 w
        (by rw [htf1]; exact hmax) hne1 (by rw [htf1]; omega)
      exact ⟨_, hr3⟩
  obtain ⟨r, hr⟩ := htwice
  obtain ⟨f, hf⟩ := (hiff r).1 ⟨fuel, fuel, hr⟩
  rw [hentry] at hf hr2
  have e := SleepyPostList.skip_to_loop_det bits d2 w f fuel _ _ _ hf hr2
  refine ⟨r, hr, ?_⟩
  rw [hentry, hr2, e]

/-- Witness of C24: the unpositioned posting list of documents 2 and 4, on a
32-bit `doccount`: `skip_to(1, w)` then `skip_to(3, w)` against a single
`skip_to(3, w)`, and `skip_to(3, w)` twice against once, with a bound of 3 on
each loop. -/
theorem SleepyPostList.skip_to_composes_witness :
    (∀ r, (∃ f1 f2, ({ SleepyPostList.sample with pos := 0 } : SleepyPostList).skip_to_twice
          32 f1 f2 1 3 0 = some r) ↔
      (∃ f, ({ SleepyPostList.sample with pos := 0 } : SleepyPostList).skip_to 32 f 3 0
          = some r)) ∧
    (∃ r, ({ SleepyPostList.sample with pos := 0 } : SleepyPostList).skip_to_twice
          32 3 3 1 3 0 = some r ∧
      ({ SleepyPostList.sample with pos := 0 } : SleepyPostList).skip_to 32 3 3 0 = some r) ∧
    (∃ r, ({ SleepyPostList.sample with pos := 0 } : SleepyPostList).skip_to_twice
          32 3 3 3 3 0 = some r ∧
      ({ SleepyPostList.sample with pos := 0 } : SleepyPostList).skip_to 32 3 3 0 = some r) :=
  ⟨(SleepyPostList.skip_to_composes 32 { SleepyPostList.sample with pos := 0 } 1 3 0
      (by decide) (by decide) (by decide) (by decide)
      (SleepyPostList.sample_sorted_ascending 0)).1,
    (SleepyPostList.skip_to_composes 32 { SleepyPostList.sample with pos := 0 } 1 3 0
      (by decide) (by decide) (by decide) (by decide)
      (SleepyPostList.sample_sorted_ascending 0)).2 (by decide) 3 (by decide),
    (SleepyPostList.skip_to_composes 32 { SleepyPostList.sample with pos := 0 } 3 3 0
      (by decide) (by decide) (by decide) (by decide)
      (SleepyPostList.sample_sorted_ascending 0)).2 (by decide) 3 (by decide)⟩

/-! ## The reads listed are the reads the loop depends on -/

theorem SleepyPostList.skip_to_loop_reads_determine (bits did : Nat) (w : weight) :
    ∀ (fuel : Nat) (s t : SleepyPostList), t.pos = s.pos → t.termfreq = s.termfreq →
      (∀ i ∈ SleepyPostList.skip_to_loop_reads bits did w fuel s, t.data i = s.data i) →
      SleepyPostList.skip_to_loop_reads bits did w fuel t
        = SleepyPostList.skip_to_loop_reads bits did w fuel s ∧
      (SleepyPostList.skip_to_loop bits did w fuel t).map (fun r => r.2.pos)
        = (SleepyPostList.skip_to_loop bits did w fuel s).map (fun r => r.2.pos) := by
  intro fuel
  induction fuel with
  | zero =>
    intro s t hp ht hd
    have hae : t.at_end = s.at_end := by simp only [SleepyPostList.at_end, hp, ht]
    by_cases hne : s.at_end = false
    · have hread : t.data (doccount_pred bits s.pos) = s.data (doccount_pred bits s.pos) :=
        hd _ (by simp [SleepyPostList.skip_to_loop_reads, hne])
      by_cases hc : s.data (doccount_pred bits s.pos) < did
      · simp [SleepyPostList.skip_to_loop_reads, SleepyPostList.skip_to_loop, hae, hp,
          hread, hne, hc]
      · simp [SleepyPostList.skip_to_loop_reads, SleepyPostList.skip_to_loop, hae, hp,
          hread, hne, hc]
    · simp [SleepyPostList.skip_to_loop_reads, SleepyPostList.skip_to_loop, hae, hp, hne]
  | succ n ih =>
    intro s t hp ht hd
    have hae : t.at_end = s.at_end := by simp only [SleepyPostList.at_end, hp, ht]
    by_cases hne : s.at_end = false
    · have hread : t.data (doccount_pred bits s.pos) = s.data (doccount_pred bits s.pos) :=
        hd _ (by simp [SleepyPostList.skip_to_loop_reads, hne])
      by_cases hc : s.data (doccount_pred bits s.pos) < did
      · have hrec := ih { s with pos := doccount_incr bits s.pos }
          { t with pos := doccount_incr bits s.pos } rfl ht
          (fun i hi => hd i (by
            simp only [SleepyPostList.skip_to_loop_reads, if_pos hne, if_pos hc,
              SleepyPostList.next, List.mem_cons]
            exact Or.inr hi))
        simp only [SleepyPostList.skip_to_loop_reads, SleepyPostList.skip_to_loop, hae, hp,
          hread, hne, hc, SleepyPostList.next, and_self, if_true]
        exact ⟨by rw [hrec.1], hrec.2⟩
      · simp [SleepyPostList.skip_to_loop_reads, SleepyPostList.skip_to_loop, hae, hp,
          hread, hne, hc]
    · simp [SleepyPostList.skip_to_loop_reads, SleepyPostList.skip_to_loop, hae, hp, hne]

/-! ## Posting lists of valid doc-ids -/

theorem SleepyPostList.well_formed_ge (s : SleepyPostList) (h : s.well_formed) :
    ∀ i, i < s.termfreq → i + 1 ≤ s.data i := by
  intro i
  induction i with
  | zero => intro hi; exact h.2 0 hi
  | succ n ih =>
    intro hi
    have h1 := ih (by omega)
    have h2 := h.1 n (n + 1) (by omega) hi
    omega

theorem SleepyPostList.full_at_well_formed (p : Nat) :
    (SleepyPostList.full_at p).well_formed := by
  constructor
  · intro i j hij hj
    have hj' : j < 2 ^ 32 - 1 := hj
    have hi' : i < 2 ^ 32 - 1 := by omega
    show (if i < 2 ^ 32 - 1 then i + 1 else 1) < (if j < 2 ^ 32 - 1 then j + 1 else 1)
    rw [if_pos hi', if_pos hj']
    omega
  · intro i hi
    have hi' : i < 2 ^ 32 - 1 := hi
    show 1 ≤ (if i < 2 ^ 32 - 1 then i + 1 else 1)
    rw [if_pos hi']
    omega

theorem SleepyPostList.sample_well_formed (p : Nat) :
    ({ SleepyPostList.sample with pos := p } : SleepyPostList).well_formed := by
  constructor
  · intro i j hij hj
    have hj' : j < 2 := hj
    have hi0 : i = 0 := by omega
    have hj1 : j = 1 := by omega
    subst hi0 hj1
    show SleepyPostList.sample.data 0 < SleepyPostList.sample.data 1
    decide
  · intro i hi
    have hi' : i < 2 := hi
    show 1 ≤ SleepyPostList.sample.data i
    have h : i = 0 ∨ i = 1 := by omega
    rcases h with h | h <;> subst h <;> decide

theorem SleepyPostList.skip_to_loop_spec_hit (bits did : Nat) (w : weight) :
    ∀ (fuel : Nat) (s : SleepyPostList), s.termfreq < 2 ^ bits → 1 ≤ s.pos →
      s.pos ≤ s.termfreq → did ≤ s.data (s.termfreq - 1) → s.termfreq - s.pos ≤ fuel →
      ∃ s', SleepyPostList.skip_to_loop bits did w fuel s = some (none, s') ∧
        s'.data = s.data ∧ s'.termfreq = s.termfreq ∧ s.pos ≤ s'.pos ∧
        s'.pos ≤ s.termfreq ∧
        (∀ p, s.pos ≤ p → p < s'.pos → s.data (p - 1) < did) ∧
        did ≤ s.data (s'.pos - 1) := by
  intro fuel
  induction fuel with
  | zero =>
    intro s htyp h1 hle hhit hfuel
    have hpred : doccount_pred bits s.pos = s.pos - 1 := doccount_pred_of_pos h1 (by omega)
    have hpos : s.pos = s.termfreq := by omega
    refine ⟨s, ?_, rfl, rfl, le_refl _, hle, ?_, by rw [hpos]; exact hhit⟩
    · apply SleepyPostList.skip_to_loop_of_stop
      rw [hpred, hpos]
      intro hc
      omega
    · intro p hp1 hp2; omega
  | succ n ih =>
    intro s htyp h1 hle hhit hfuel
    have hpred : doccount_pred bits s.pos = s.pos - 1 := doccount_pred_of_pos h1 (by omega)
    by_cases hc : s.at_end = false ∧ s.data (doccount_pred bits s.pos) < did
    · have hlt : s.pos < s.termfreq := by
        have h2 := hc.2
        rw [hpred] at h2
        by_contra hn
        have hpos : s.pos = s.termfreq := by omega
        rw [hpos] at h2
        omega
      have hincr : doccount_incr bits s.pos = s.pos + 1 := doccount_incr_of_lt (by omega)
      have hstep : SleepyPostList.skip_to_loop bits did w (n + 1) s =
          SleepyPostList.skip_to_loop bits did w n { s with pos := s.pos + 1 } := by
        simp only [SleepyPostList.skip_to_loop, if_pos hc, SleepyPostList.next, hincr]
      obtain ⟨s', hs', hdata, htf, hge, hup, hbelow, hhit'⟩ :=
        ih { s with pos := s.pos + 1 } htyp (by simp) (by simpa using hlt) hhit
          (by simp only []; omega)
      refine ⟨s', by rw [hstep, hs'], hdata, htf, ?_, hup, ?_, hhit'⟩
      · have : s.pos + 1 ≤ s'.pos := hge
        omega
      · intro p hp1 hp2
        by_cases hp : p = s.pos
        · subst hp
          have := hc.2
          rwa [hpred] at this
        · exact hbelow p (by show s.pos + 1 ≤ p; omega) hp2
    · refine ⟨s, SleepyPostList.skip_to_loop_of_stop bits did w (n + 1) s hc, rfl, rfl,
        le_refl _, hle, ?_, ?_⟩
      · intro p hp1 hp2; omega
      · have hne : s.at_end = false := (SleepyPostList.at_end_eq_false_iff s).2 hle
        have hnlt : ¬ s.data (doccount_pred bits s.pos) < did := fun h => hc ⟨hne, h⟩
        rw [hpred] at hnlt
        omega

theorem SleepyPostList.skip_to_spec_valid (bits fuel : Nat) (s : SleepyPostList) (did : Nat)
    (w : weight) (hbits : 0 < bits) (htyp : s.termfreq < 2 ^ bits)
    (hvalid : s.termfreq + 1 < 2 ^ bits ∨ (s.well_formed ∧ did < 2 ^ bits))
    (hne : s.at_end = false) (hfuel : s.termfreq + 1 - s.start_pos ≤ fuel) :
    ∃ s', s.skip_to bits fuel did w = some (none, s') ∧
      s'.data = s.data ∧ s'.termfreq = s.termfreq ∧ s.start_pos ≤ s'.pos ∧
      s'.pos ≤ s.termfreq + 1 ∧ s'.pos < 2 ^ bits ∧
      (∀ p, s.start_pos ≤ p → p < s'.pos → s.data (p - 1) < did) ∧
      (s'.pos ≤ s.termfreq → did ≤ s.data (s'.pos - 1)) := by
  by_cases hmax : s.termfreq + 1 < 2 ^ bits
  · obtain ⟨s', h1, h2, h3, h4, h5, h6, h7⟩ :=
      SleepyPostList.skip_to_spec bits fuel s did w hmax hne hfuel
    exact ⟨s', h1, h2, h3, h4, h5, by omega, h6, h7⟩
  · have hwf : s.well_formed ∧ did < 2 ^ bits := by
      rcases hvalid with h | h
      · exact absurd h hmax
      · exact h
    have hpow : 1 < 2 ^ bits := one_lt_two_pow hbits
    obtain ⟨hs1, _, _⟩ := SleepyPostList.start_pos_bounds s hne
    have hle : s.pos ≤ s.termfreq := (SleepyPostList.at_end_eq_false_iff s).1 hne
    have hstart : s.start_pos ≤ s.termfreq := by
      unfold SleepyPostList.start_pos; split <;> omega
    have hlast := SleepyPostList.well_formed_ge s hwf.1 (s.termfreq - 1) (by omega)
    rw [SleepyPostList.skip_to_eq_loop_start bits fuel s did w hpow]
    obtain ⟨s', h1, h2, h3, h4, h5, h6, h7⟩ :=
      SleepyPostList.skip_to_loop_spec_hit bits did w fuel { s with pos := s.start_pos }
        htyp hs1 hstart (by simp only []; omega) (by simp only []; omega)
    exact ⟨s', h1, h2, h3, h4, by have : s'.pos ≤ s.termfreq := h5; omega,
      by have : s'.pos ≤ s.termfreq := h5; omega, h6, fun _ => h7⟩

/-- C27 (amended): advancing a `SleepyPostList` changes only the cursor.  In
every state `next` returns `NULL` and leaves `data` and `termfreq` unchanged,
and `skip_to`, whenever it returns, returns `NULL` and leaves `data` and
`termfreq` unchanged; so `get_termfreq()` is the same before and after either
call and after any number of calls of `next`.  `next` does not decrease `pos`
when `pos` is below the largest `doccount` value.  `skip_to` does not decrease
`pos`, and returns once its loop may run `termfreq + 1 - pos` times, when
`termfreq` is below the largest `doccount` value, and also at the largest
`termfreq` for a posting list of valid doc-ids (strictly increasing and
positive) and a doc-id `d` (`d < 2^bits`). -/
theorem SleepyPostList.advance_changes_only_pos (bits fuel : Nat) (s : SleepyPostList)
    (d : Nat) (w : weight) :
    ((s.next bits w).1 = none ∧ (s.next bits w).2.data = s.data ∧
      (s.next bits w).2.termfreq = s.termfreq ∧
      (s.next bits w).2.get_termfreq = s.get_termfreq) ∧
    (s.pos + 1 < 2 ^ bits → s.pos ≤ (s.next bits w).2.pos) ∧
    (∀ r, s.skip_to bits fuel d w = some r →
      r.1 = none ∧ r.2.data = s.data ∧ r.2.termfreq = s.termfreq ∧
      r.2.get_termfreq = s.get_termfreq) ∧
    (s.termfreq + 1 < 2 ^ bits ∨
        (0 < bits ∧ s.termfreq < 2 ^ bits ∧ s.well_formed ∧ d < 2 ^ bits) →
      (∀ r, s.skip_to bits fuel d w = some r → s.pos ≤ r.2.pos) ∧
      (s.termfreq + 1 - s.pos ≤ fuel → ∃ s', s.skip_to bits fuel d w = some (none, s'))) ∧
    (∀ k, (s.nexts bits w k).data = s.data ∧
      (s.nexts bits w k).get_termfreq = s.get_termfreq) := by
  refine ⟨⟨rfl, rfl, rfl, rfl⟩, ?_, ?_, ?_, ?_⟩
  · intro hpos
    simp only [SleepyPostList.next, doccount_incr_of_lt hpos]
    omega
  · intro r hr
    obtain ⟨h1, h2, h3, _⟩ := SleepyPostList.skip_to_frame bits fuel s d w r hr
    exact ⟨h1, h2, h3, h3⟩
  · intro hvalid
    by_cases hend : s.at_end = true
    · have hret := SleepyPostList.skip_to_of_at_end bits fuel s d w hend
      refine ⟨?_, fun _ => ⟨s, hret⟩⟩
      intro r hr
      rw [hret] at hr
      rw [← Option.some.inj hr]
    · have hne : s.at_end = false := by simpa using hend
      have hle : s.pos ≤ s.termfreq := (SleepyPostList.at_end_eq_false_iff s).1 hne
      have hbits : 0 < bits := by
        rcases hvalid with h | h
        · by_contra hb
          have : bits = 0 := by omega
          subst this
          simp at h
        · exact h.1
      have htyp : s.termfreq < 2 ^ bits := by
        rcases hvalid with h | h
        · omega
        · exact h.2.1
      have hvalid' : s.termfreq + 1 < 2 ^ bits ∨ (s.well_formed ∧ d < 2 ^ bits) := by
        rcases hvalid with h | h
        · exact Or.inl h
        · exact Or.inr h.2.2
      obtain ⟨_, h2, _⟩ := SleepyPostList.start_pos_bounds s hne
      constructor
      · intro r hr
        obtain ⟨s', hs', _, _, hge, _⟩ :=
          SleepyPostList.skip_to_spec_valid bits (fuel + (s.termfreq + 1)) s d w hbits htyp
            hvalid' hne (by omega)
        have hpow : 1 < 2 ^ bits := one_lt_two_pow hbits
        rw [SleepyPostList.skip_to_eq_loop_start bits _ s d w hpow] at hr hs'
        have e := SleepyPostList.skip_to_loop_det bits d w _ _ _ _ _ hr hs'
        rw [e]
        show s.pos ≤ s'.pos
        omega
      · intro hfuel
        obtain ⟨s', hs', _⟩ :=
          SleepyPostList.skip_to_spec_valid bits fuel s d w hbits htyp hvalid' hne
            (by omega)
        exact ⟨s', hs'⟩
  · intro k
    obtain ⟨h1, h2⟩ := SleepyPostList.nexts_frame bits w k s
    exact ⟨h1, h2⟩

/-- Witness of C27: the posting list of documents 2 and 4, the cursor on
document 2, skipping to document 3 with a bound of 2 on the loop. -/
theorem SleepyPostList.advance_changes_only_pos_witness :
    SleepyPostList.sample.pos ≤ (SleepyPostList.sample.next 32 0).2.pos ∧
    (∀ r, SleepyPostList.sample.skip_to 32 2 3 0 = some r →
      SleepyPostList.sample.pos ≤ r.2.pos) ∧
    (∃ s', SleepyPostList.sample.skip_to 32 2 3 0 = some (none, s')) ∧
    (∀ r, (SleepyPostList.full_at 7).skip_to 32 2 9 0 = some r → 7 ≤ r.2.pos) :=
  ⟨(SleepyPostList.advance_changes_only_pos 32 2 SleepyPostList.sample 3 0).2.1 (by decide),
    ((SleepyPostList.advance_changes_only_pos 32 2 SleepyPostList.sample 3 0).2.2.2.1
      (Or.inl (by decide))).1,
    ((SleepyPostList.advance_changes_only_pos 32 2 SleepyPostList.sample 3 0).2.2.2.1
      (Or.inl (by decide))).2 (by decide),
    ((SleepyPostList.advance_changes_only_pos 32 2 (SleepyPostList.full_at 7) 9 0).2.2.2.1
      (Or.inr ⟨by decide, by decide, SleepyPostList.full_at_well_formed 7, by decide⟩)).1⟩

/-! ## Doc-ids of a traversal -/

theorem SleepyPostList.postings_pairwise_lt (s : SleepyPostList)
    (hinc : s.strictly_increasing) (a n : Nat) (h : a + n ≤ s.termfreq) :
    ((List.range' a n).map s.data).Pairwise (fun x y => x < y) := by
  rw [List.pairwise_map]
  have hr : (List.range' a n).Pairwise (fun x y => x < y) := List.pairwise_lt_range' a n
  refine List.Pairwise.imp_of_mem ?_ hr
  intro i j _ hj hij
  have hj' := (List.mem_range'_1.1 hj).2
  exact hinc i j hij (by omega)

/-- C2 (amended): for a posting list whose postings are strictly increasing and
a cursor on a posting, if the list is not `at_end` after `next` then the doc-id
after the call is strictly greater than the doc-id before it, provided `pos` is
below the largest `doccount` value; equally, provided `get_docid()` is called
after `next` where its own assertions hold (the list is not `at_end` and
`pos != 0`).  So a traversal (calling `next` until `at_end`, from the
unpositioned state or from any cursor) of a list whose `termfreq` is below the
largest `doccount` value ends and yields strictly increasing doc-ids, each
doc-id at most once. -/
theorem SleepyPostList.next_docid_increases (bits : Nat) (s : SleepyPostList) (w : weight)
    (hinc : s.strictly_increasing) (h1 : 1 ≤ s.pos) (h2 : s.pos ≤ s.termfreq) :
    (s.pos + 1 < 2 ^ bits → (s.next bits w).2.at_end = false →
      s.get_docid bits < (s.next bits w).2.get_docid bits) ∧
    (s.termfreq < 2 ^ bits → (s.next bits w).2.get_docid_asserted = true →
      s.get_docid bits < (s.next bits w).2.get_docid bits) ∧
    (s.termfreq + 1 < 2 ^ bits → ∀ p fuel, p ≤ s.termfreq → s.termfreq + 1 - p ≤ fuel →
      ∃ ds, ({ s with pos := p } : SleepyPostList).traverse bits w fuel = some ds ∧
        ds = (List.range' p (s.termfreq - p)).map s.data ∧
        ds.Pairwise (fun x y => x < y) ∧ ds.Nodup) := by
  have hstep : s.pos + 1 < 2 ^ bits → (s.next bits w).2.at_end = false →
      s.get_docid bits < (s.next bits w).2.get_docid bits := by
    intro hmax hne
    have hincr : doccount_incr bits s.pos = s.pos + 1 := doccount_incr_of_lt hmax
    have hle : s.pos + 1 ≤ s.termfreq := by
      have := (SleepyPostList.at_end_eq_false_iff _).1 hne
      simpa [SleepyPostList.next, hincr] using this
    have hp1 : doccount_pred bits s.pos = s.pos - 1 := doccount_pred_of_pos h1 (by omega)
    have hp2 : doccount_pred bits (s.pos + 1) = s.pos := by
      rw [doccount_pred_of_pos (by omega) (by omega)]; omega
    simp only [SleepyPostList.get_docid, SleepyPostList.next, hincr, hp1, hp2]
    exact hinc (s.pos - 1) s.pos (by omega) (by omega)
  refine ⟨hstep, ?_, ?_⟩
  · intro htyp hass
    simp only [SleepyPostList.get_docid_asserted, Bool.and_eq_true, Bool.not_eq_true',
      bne_iff_ne, ne_eq] at hass
    obtain ⟨hne, hpos⟩ := hass
    have hmax : s.pos + 1 < 2 ^ bits := by
      by_contra hn
      have e : s.pos + 1 = 2 ^ bits := by omega
      apply hpos
      simp only [SleepyPostList.next, doccount_incr, e, Nat.mod_self]
    exact hstep hmax hne
  · intro hmax p fuel hp hfuel
    have hds := SleepyPostList.traverse_spec bits w fuel { s with pos := p } hmax hp hfuel
    have hpw := SleepyPostList.postings_pairwise_lt s hinc p (s.termfreq - p) (by omega)
    refine ⟨_, hds, rfl, hpw, ?_⟩
    exact hpw.imp (fun h => Nat.ne_of_lt h)

/-- Witness of C2: the posting list of documents 2 and 4, the cursor on
document 2, on a 32-bit `doccount`; its traversal from the unpositioned state
yields 2 and 4. -/
theorem SleepyPostList.next_docid_increases_witness :
    SleepyPostList.sample.get_docid 32 < (SleepyPostList.sample.next 32 0).2.get_docid 32 ∧
    (∃ ds, ({ SleepyPostList.sample with pos := 0 } : SleepyPostList).traverse 32 0 3 = some ds ∧
      ds = (List.range' 0 (SleepyPostList.sample.termfreq - 0)).map SleepyPostList.sample.data ∧
      ds.Pairwise (fun x y => x < y) ∧ ds.Nodup) :=
  ⟨(SleepyPostList.next_docid_increases 32 SleepyPostList.sample 0
      SleepyPostList.sample_strictly_increasing (by decide) (by decide)).1 (by decide)
      (by decide),
    (SleepyPostList.next_docid_increases 32 SleepyPostList.sample 0
      SleepyPostList.sample_strictly_increasing (by decide) (by decide)).2.2 (by decide)
      0 3 (by decide) (by decide)⟩

theorem SleepyPostList.nexts_pos (bits : Nat) (w : weight) :
    ∀ (k : Nat) (s : SleepyPostList), s.pos < 2 ^ bits →
      (SleepyPostList.nexts bits w k s).pos = (s.pos + k) % 2 ^ bits := by
  intro k
  induction k with
  | zero => intro s h; exact (Nat.mod_eq_of_lt h).symm
  | succ n ih =>
    intro s _
    have h1 := ih { s with pos := doccount_incr bits s.pos } (doccount_incr_lt bits s.pos)
    simp only [SleepyPostList.nexts, SleepyPostList.next]
    rw [h1]
    simp only [doccount_incr, Nat.mod_add_mod]
    congr 1
    omega

theorem SleepyPostList.nexts_get_docid (bits : Nat) (w : weight) (k : Nat)
    (s : SleepyPostList) (h : s.pos < 2 ^ bits) :
    (SleepyPostList.nexts bits w k s).get_docid bits
      = s.data (doccount_pred bits ((s.pos + k) % 2 ^ bits)) := by
  unfold SleepyPostList.get_docid
  rw [SleepyPostList.nexts_pos bits w k s h, (SleepyPostList.nexts_frame bits w k s).1]

theorem SleepyPostList.nexts_get_docid_asserted (bits : Nat) (w : weight) (k : Nat)
    (s : SleepyPostList) (h : s.pos < 2 ^ bits)
    (hne : (SleepyPostList.nexts bits w k s).at_end = false)
    (hpos : (s.pos + k) % 2 ^ bits ≠ 0) :
    (SleepyPostList.nexts bits w k s).get_docid_asserted = true := by
  unfold SleepyPostList.get_docid_asserted
  rw [hne, SleepyPostList.nexts_pos bits w k s h]
  simpa using hpos

/-- C2 fails as stated: on a 32-bit `doccount`, take the strictly increasing
postings 1, ..., 2^32 - 1 with the cursor on the last one.  `next` wraps `pos`
to 0, the list is not `at_end`, the assertion `pos != 0` of `get_docid` fails,
and the doc-id read (at index 2^32 - 1, past the postings) is not greater than
the one before the call.  The traversal of this list from the unpositioned
state is never `at_end`, and it yields doc-id 1 at its first call of `next` and
again at call 2^32 + 1, both times with the assertions of `get_docid`
holding. -/
theorem SleepyPostList.next_docid_not_increasing_at_full :
    SleepyPostList.full_last.strictly_increasing ∧
    1 ≤ SleepyPostList.full_last.pos ∧
    SleepyPostList.full_last.pos ≤ SleepyPostList.full_last.termfreq ∧
    (SleepyPostList.full_last.next 32 0).2.at_end = false ∧
    (SleepyPostList.full_last.next 32 0).2.pos = 0 ∧
    (SleepyPostList.full_last.next 32 0).2.get_docid_asserted = false ∧
    ¬ (SleepyPostList.full_last.get_docid 32 <
        (SleepyPostList.full_last.next 32 0).2.get_docid 32) ∧
    (∀ k, (SleepyPostList.nexts 32 0 k (SleepyPostList.full_at 0)).at_end = false) ∧
    (SleepyPostList.nexts 32 0 1 (SleepyPostList.full_at 0)).get_docid_asserted = true ∧
    (SleepyPostList.nexts 32 0 1 (SleepyPostList.full_at 0)).get_docid 32 = 1 ∧
    (SleepyPostList.nexts 32 0 (2 ^ 32 + 1) (SleepyPostList.full_at 0)).get_docid_asserted
      = true ∧
    (SleepyPostList.nexts 32 0 (2 ^ 32 + 1) (SleepyPostList.full_at 0)).get_docid 32 = 1 := by
  have hne : ∀ k, (SleepyPostList.nexts 32 0 k (SleepyPostList.full_at 0)).at_end = false :=
    fun k => SleepyPostList.nexts_full 32 0 k (SleepyPostList.full_at 0) (by decide)
      (by decide)
  refine ⟨(SleepyPostList.full_at_well_formed (2 ^ 32 - 1)).1, by decide, by decide,
    by decide, by decide, by decide, by decide, hne, ?_, ?_, ?_, ?_⟩
  · exact SleepyPostList.nexts_get_docid_asserted 32 0 1 (SleepyPostList.full_at 0)
      (by decide) (hne 1) (by decide)
  · rw [SleepyPostList.nexts_get_docid 32 0 1 (SleepyPostList.full_at 0) (by decide)]
    decide
  · exact SleepyPostList.nexts_get_docid_asserted 32 0 (2 ^ 32 + 1) (SleepyPostList.full_at 0)
      (by decide) (hne (2 ^ 32 + 1)) (by decide)
  · rw [SleepyPostList.nexts_get_docid 32 0 (2 ^ 32 + 1) (SleepyPostList.full_at 0)
      (by decide)]
    decide

/-! ## Position-collapse as a sequence of merges -/

theorem QueryTree.add_wqf_decompose (n : String) (p w : Nat) :
    ∀ (kept : List QueryTree), kept.any (QueryTree.is_leaf_at n p) = true →
      ∃ a w1 b, kept = a ++ QueryTree.term n w1 p :: b ∧
        a.any (QueryTree.is_leaf_at n p) = false ∧
        QueryTree.add_wqf n p w kept = a ++ QueryTree.term n (w1 + w) p :: b := by
  intro kept
  induction kept with
  | nil => intro h; simp at h
  | cons c cs ih =>
    intro h
    cases c with
    | term n' w' p' =>
      by_cases hc : n' = n ∧ p' = p
      · obtain ⟨hn, hp⟩ := hc
        subst hn hp
        refine ⟨[], w', cs, rfl, rfl, ?_⟩
        simp [QueryTree.add_wqf]
      · have hrest : cs.any (QueryTree.is_leaf_at n p) = true := by
          simpa [QueryTree.is_leaf_at, hc] using h
        obtain ⟨a, w1, b, hcs, ha, hadd⟩ := ih hrest
        refine ⟨QueryTree.term n' w' p' :: a, w1, b, by rw [hcs]; rfl, ?_, ?_⟩
        · simp [QueryTree.is_leaf_at, hc, ha]
        · simp only [QueryTree.add_wqf, if_neg hc, hadd, List.cons_append]
    | compound op' cs' w' =>
      have hrest : cs.any (QueryTree.is_leaf_at n p) = true := by
        simpa [QueryTree.is_leaf_at] using h
      obtain ⟨a, w1, b, hcs, ha, hadd⟩ := ih hrest
      refine ⟨QueryTree.compound op' cs' w' :: a, w1, b, by rw [hcs]; rfl, ?_, ?_⟩
      · simp [QueryTree.is_leaf_at, ha]
      · simp only [QueryTree.add_wqf, hadd, List.cons_append]

theorem QueryTree.merges_collapse_into (kept : List QueryTree) (c : QueryTree)
    (rest : List QueryTree) :
    Relation.ReflTransGen QueryTree.merge_step (kept ++ c :: rest)
      (QueryTree.collapse_into kept c ++ rest) := by
  cases c with
  | term n w p =>
    by_cases h : kept.any (QueryTree.is_leaf_at n p) = true
    · obtain ⟨a, w1, b, hk, ha, hadd⟩ := QueryTree.add_wqf_decompose n p w kept h
      simp only [QueryTree.collapse_into, if_pos h, hadd]
      apply Relation.ReflTransGen.single
      refine ⟨a, b, rest, n, w1, w, p, ha, ?_, ?_⟩
      · rw [hk]; simp
      · simp
    · simp only [QueryTree.collapse_into, if_neg h, List.append_assoc, List.singleton_append]
      exact Relation.ReflTransGen.refl
  | compound op' cs' w' =>
    simp only [QueryTree.collapse_into, List.append_assoc, List.singleton_append]
    exact Relation.ReflTransGen.refl

theorem QueryTree.merges_foldl_collapse_into :
    ∀ (rest kept : List QueryTree),
      Relation.ReflTransGen QueryTree.merge_step (kept ++ rest)
        (rest.foldl QueryTree.collapse_into kept) := by
  intro rest
  induction rest with
  | nil => intro kept; simp only [List.append_nil, List.foldl_nil]; exact Relation.ReflTransGen.refl
  | cons c cs ih =>
    intro kept
    exact Relation.ReflTransGen.trans (QueryTree.merges_collapse_into kept c cs)
      (ih (QueryTree.collapse_into kept c))

theorem QueryTree.merges_collapse (l : List QueryTree) :
    Relation.ReflTransGen QueryTree.merge_step l (QueryTree.collapse l) := by
  have := QueryTree.merges_foldl_collapse_into l []
  simpa [QueryTree.collapse] using this

theorem QueryTree.not_identical_of_mem_add_wqf (e : QueryTree) (n : String) (p w : Nat) :
    ∀ (cs : List QueryTree), (∀ y ∈ cs, QueryTree.not_identical e y) →
      ∀ x ∈ QueryTree.add_wqf n p w cs, QueryTree.not_identical e x := by
  intro cs
  induction cs with
  | nil => intro _ x hx; simp [QueryTree.add_wqf] at hx
  | cons c rest ih =>
    intro h x hx
    have hrest : ∀ y ∈ rest, QueryTree.not_identical e y :=
      fun y hy => h y (List.mem_cons_of_mem _ hy)
    have hc := h c (List.mem_cons_self _ _)
    cases c with
    | term n' w' p' =>
      by_cases hcnd : n' = n ∧ p' = p
      · simp only [QueryTree.add_wqf, if_pos hcnd, List.mem_cons] at hx
        rcases hx with hx | hx
        · subst hx; exact hc
        · exact hrest x hx
      · simp only [QueryTree.add_wqf, if_neg hcnd, List.mem_cons] at hx
        rcases hx with hx | hx
        · subst hx; exact hc
        · exact ih hrest x hx
    | compound op' cs' w' =>
      simp only [QueryTree.add_wqf, List.mem_cons] at hx
      rcases hx with hx | hx
      · subst hx; exact hc
      · exact ih hrest x hx

theorem QueryTree.pairwise_add_wqf (n : String) (p w : Nat) :
    ∀ (cs : List QueryTree), List.Pairwise QueryTree.not_identical cs →
      List.Pairwise QueryTree.not_identical (QueryTree.add_wqf n p w cs) := by
  intro cs
  induction cs with
  | nil => intro _; simp [QueryTree.add_wqf]
  | cons c rest ih =>
    intro h
    obtain ⟨hc, hrest⟩ := List.pairwise_cons.1 h
    cases c with
    | term n' w' p' =>
      by_cases hcnd : n' = n ∧ p' = p
      · simp only [QueryTree.add_wqf, if_pos hcnd]
        refine List.pairwise_cons.2 ⟨?_, hrest⟩
        intro x hx
        have := hc x hx
        cases x with
        | term n2 w2 p2 => simpa [QueryTree.not_identical, QueryTree.is_leaf_at] using this
        | compound _ _ _ => trivial
      · simp only [QueryTree.add_wqf, if_neg hcnd]
        exact List.pairwise_cons.2
          ⟨QueryTree.not_identical_of_mem_add_wqf _ n p w rest hc, ih hrest⟩
    | compound op' cs' w' =>
      simp only [QueryTree.add_wqf]
      exact List.pairwise_cons.2
        ⟨QueryTree.not_identical_of_mem_add_wqf _ n p w rest hc, ih hrest⟩

theorem QueryTree.pairwise_collapse_into (kept : List QueryTree) (c : QueryTree)
    (h : List.Pairwise QueryTree.not_identical kept) :
    List.Pairwise QueryTree.not_identical (QueryTree.collapse_into kept c) := by
  cases c with
  | term n w p =>
    by_cases hany : kept.any (QueryTree.is_leaf_at n p) = true
    · simp only [QueryTree.collapse_into, if_pos hany]
      exact QueryTree.pairwise_add_wqf n p w kept h
    · simp only [QueryTree.collapse_into, if_neg hany]
      rw [List.pairwise_append]
      refine ⟨h, List.pairwise_singleton _ _, ?_⟩
      intro x hx y hy
      rw [List.mem_singleton] at hy
      subst hy
      have hfalse : kept.any (QueryTree.is_leaf_at n p) = false := by simpa using hany
      have hx' := (List.any_eq_false.1 hfalse) x hx
      simpa [QueryTree.not_identical] using hx'
  | compound op' cs' w' =>
    simp only [QueryTree.collapse_into]
    rw [List.pairwise_append]
    refine ⟨h, List.pairwise_singleton _ _, ?_⟩
    intro x _ y hy
    rw [List.mem_singleton] at hy
    subst hy
    trivial

theorem QueryTree.pairwise_collapse (l : List QueryTree) :
    List.Pairwise QueryTree.not_identical (QueryTree.collapse l) := by
  have : ∀ (rest kept : List QueryTree), List.Pairwise QueryTree.not_identical kept →
      List.Pairwise QueryTree.not_identical (rest.foldl QueryTree.collapse_into kept) := by
    intro rest
    induction rest with
    | nil => intro kept h; exact h
    | cons c cs ih =>
      intro kept h
      exact ih _ (QueryTree.pairwise_collapse_into kept c h)
  exact this l [] List.Pairwise.nil

theorem QueryTree.wqf_at_append (n : String) (p : Nat) (a b : List QueryTree) :
    QueryTree.wqf_at n p (a ++ b) = QueryTree.wqf_at n p a + QueryTree.wqf_at n p b := by
  induction a with
  | nil => simp [QueryTree.wqf_at]
  | cons c cs ih =>
    cases c with
    | term n' w' p' =>
      have e : (QueryTree.term n' w' p' :: cs) ++ b = QueryTree.term n' w' p' :: (cs ++ b) :=
        rfl
      rw [e]
      simp only [QueryTree.wqf_at, ih]
      omega
    | compound op' cs' w' =>
      have e : (QueryTree.compound op' cs' w' :: cs) ++ b
          = QueryTree.compound op' cs' w' :: (cs ++ b) := rfl
      rw [e]
      simp only [QueryTree.wqf_at, ih]

theorem QueryTree.wqf_at_merge_step (n : String) (p : Nat) (l l' : List QueryTree)
    (h : QueryTree.merge_step l l') : QueryTree.wqf_at n p l' = QueryTree.wqf_at n p l := by
  obtain ⟨a, b, c, n0, w1, w2, p0, _, hl, hl'⟩ := h
  subst hl hl'
  simp only [QueryTree.wqf_at_append, QueryTree.wqf_at]
  by_cases hc : n0 = n ∧ p0 = p
  · simp only [if_pos hc]; omega
  · simp only [if_neg hc]; omega

theorem QueryTree.wqf_at_merges (n : String) (p : Nat) (l l' : List QueryTree)
    (h : Relation.ReflTransGen QueryTree.merge_step l l') :
    QueryTree.wqf_at n p l' = QueryTree.wqf_at n p l := by
  induction h with
  | refl => rfl
  | tail _ hstep ih => rw [QueryTree.wqf_at_merge_step n p _ _ hstep, ih]

theorem QueryTree.splice_append (op : om_queryop) (a b : List QueryTree) :
    QueryTree.splice op (a ++ b) = QueryTree.splice op a ++ QueryTree.splice op b := by
  induction a with
  | nil => rfl
  | cons c cs ih =>
    cases c with
    | term n w p =>
      have e : (QueryTree.term n w p :: cs) ++ b = QueryTree.term n w p :: (cs ++ b) := rfl
      rw [e]
      simp only [QueryTree.splice, ih, List.cons_append]
    | compound op' cs' w' =>
      have e : (QueryTree.compound op' cs' w' :: cs) ++ b
          = QueryTree.compound op' cs' w' :: (cs ++ b) := rfl
      rw [e]
      by_cases h : (op = .OP_OR ∨ op = .OP_AND) ∧ op' = op
      · simp only [QueryTree.splice, if_pos h, ih, List.append_assoc]
      · simp only [QueryTree.splice, if_neg h, ih, List.cons_append]

theorem QueryTree.splice_of_not_nests (op : om_queryop) :
    ∀ (l : List QueryTree), (∀ c ∈ l, QueryTree.nests op c = false) →
      QueryTree.splice op l = l := by
  intro l
  induction l with
  | nil => intro _; rfl
  | cons c cs ih =>
    intro h
    have hrest := ih (fun c hc => h c (List.mem_cons_of_mem _ hc))
    cases c with
    | term n w p => simp only [QueryTree.splice, hrest]
    | compound op' cs' w' =>
      have hc := h _ (List.mem_cons_self _ _)
      have hn : ¬ ((op = .OP_OR ∨ op = .OP_AND) ∧ op' = op) := by
        simpa [QueryTree.nests] using hc
      simp only [QueryTree.splice, if_neg hn, hrest]

/-- C13 (amended): constructing an `OR` (an `AND`) query over non-null,
non-boolean operands yields one node whose children are the operands with the
children of every nested `OR` (`AND`) operand spliced in at its place, in order
(an operand that is not such a node stays as it is), the position-identical
term leaves of an `OR` then being merged: the children are reached from the
spliced list by merges, each deleting a leaf that follows the first leaf of its
name and position and adding its wqf to that first leaf; no two of them are
position-identical leaves; and for every name and position the total wqf is
that of the spliced list.  For `AND`, and for `OR` when no two spliced children
are position-identical leaves, the children are exactly the spliced list.  The
node is flat when the operands are.  `OR(wibble, wobble, OR(jelly, belly))`
has the children `wibble, wobble, jelly, belly`, and
`AND(AND(jelly, belly), wibble, wobble)` the children
`jelly, belly, wibble, wobble`. -/
theorem OmQuery.flattening (op : om_queryop) (qs : List OmQuery) (window : Nat)
    (hop : op = .OP_OR ∨ op = .OP_AND) (hbool : ∀ o ∈ qs, o.is_bool = false)
    (hnull : ∀ o ∈ qs, o.tree.isNone = false) (hne : qs ≠ []) :
    (∃ children,
      OmQuery.compound op qs window =
        .ok { tree := some (.compound op children window), is_bool := false,
              qlen := QueryTree.wqf_sum_list children } ∧
      children = (if op = .OP_OR then QueryTree.collapse (QueryTree.splice op (OmQuery.trees qs))
        else QueryTree.splice op (OmQuery.trees qs)) ∧
      (op = .OP_OR →
        Relation.ReflTransGen QueryTree.merge_step
          (QueryTree.splice op (OmQuery.trees qs)) children ∧
        List.Pairwise QueryTree.not_identical children ∧
        ∀ n p, QueryTree.wqf_at n p children
          = QueryTree.wqf_at n p (QueryTree.splice op (OmQuery.trees qs))) ∧
      (op = .OP_AND ∨ List.Pairwise QueryTree.not_identical
          (QueryTree.splice op (OmQuery.trees qs)) →
        children = QueryTree.splice op (OmQuery.trees qs)) ∧
      ((∀ t ∈ OmQuery.trees qs, QueryTree.top_flat t) →
        QueryTree.top_flat (.compound op children window))) ∧
    (∀ (pre cs post : List QueryTree) (w : Nat),
      QueryTree.splice op (pre ++ QueryTree.compound op cs w :: post)
        = QueryTree.splice op pre ++ cs ++ QueryTree.splice op post) ∧
    (∀ l : List QueryTree, (∀ c ∈ l, QueryTree.nests op c = false) →
      QueryTree.splice op l = l) ∧
    subqcollapse_or_query =
      .ok { tree := some (.compound .OP_OR
              [.term "wibble" 1 1, .term "wobble" 1 1, .term "jelly" 1 1, .term "belly" 1 1] 0),
            is_bool := false, qlen := 4 } ∧
    subqcollapse_and_query =
      .ok { tree := some (.compound .OP_AND
              [.term "jelly" 1 1, .term "belly" 1 1, .term "wibble" 1 1, .term "wobble" 1 1] 0),
            is_bool := false, qlen := 4 } := by
  refine ⟨⟨QueryTree.canonical_children op (OmQuery.trees qs),
    OmQuery.compound_associative op qs window hop hbool hnull hne, rfl, ?_, ?_, ?_⟩, ?_,
    QueryTree.splice_of_not_nests op, rfl, rfl⟩
  · intro hor
    have hc : QueryTree.canonical_children op (OmQuery.trees qs)
        = QueryTree.collapse (QueryTree.splice op (OmQuery.trees qs)) := by
      simp only [QueryTree.canonical_children, if_pos hor]
    rw [hc]
    have hm := QueryTree.merges_collapse (QueryTree.splice op (OmQuery.trees qs))
    exact ⟨hm, QueryTree.pairwise_collapse _,
      fun n p => QueryTree.wqf_at_merges n p _ _ hm⟩
  · intro h
    rcases h with h | h
    · subst h
      simp [QueryTree.canonical_children]
    · unfold QueryTree.canonical_children
      split
      · exact QueryTree.collapse_distinct _ h
      · rfl
  · intro hflat c hc
    have hs := QueryTree.nests_of_mem_splice op (OmQuery.trees qs) hflat
    unfold QueryTree.canonical_children at hc
    split at hc
    · exact QueryTree.nests_of_mem_collapse op _ [] (by simp) hs c hc
    · exact hs c hc
  · intro pre cs post w
    have hsp : QueryTree.splice op (QueryTree.compound op cs w :: post)
        = cs ++ QueryTree.splice op post := by
      simp [QueryTree.splice, hop]
    rw [QueryTree.splice_append, hsp, List.append_assoc]

/-- Witness of C13: `AND` over the operands `(jelly AND belly)`, `wibble`,
`wobble` of `test_subqcollapse1`; and `OR` over the operands `a` and
`(a OR b)`, whose spliced children `a, a, b` are merged into `a` (wqf 2) and
`b`. -/
theorem OmQuery.flattening_witness :
    OmQuery.compound .OP_AND
      [{ tree := some (.compound .OP_AND [.term "jelly" 1 1, .term "belly" 1 1] 0),
         is_bool := false, qlen := 2 }, OmQuery.term "wibble" 1 1, OmQuery.term "wobble" 1 1] 0 =
      .ok { tree := some (.compound .OP_AND
              [.term "jelly" 1 1, .term "belly" 1 1, .term "wibble" 1 1, .term "wobble" 1 1] 0),
            is_bool := false, qlen := 4 } ∧
    (∃ children,
      OmQuery.compound .OP_OR [OmQuery.term "a" 1 1, a_or_b] 0 =
        .ok { tree := some (.compound .OP_OR children 0), is_bool := false,
              qlen := QueryTree.wqf_sum_list children } ∧
      children = [.term "a" 2 1, .term "b" 1 1] ∧
      Relation.ReflTransGen QueryTree.merge_step
        [.term "a" 1 1, .term "a" 1 1, .term "b" 1 1] children ∧
      List.Pairwise QueryTree.not_identical children) := by
  constructor
  · obtain ⟨children, hc, hchildren, _, _, _⟩ := (OmQuery.flattening .OP_AND
      [{ tree := some (.compound .OP_AND [.term "jelly" 1 1, .term "belly" 1 1] 0),
         is_bool := false, qlen := 2 }, OmQuery.term "wibble" 1 1, OmQuery.term "wobble" 1 1] 0
      (Or.inr rfl) (by simp [OmQuery.term]) (by simp [OmQuery.term]) (by simp)).1
    rw [hc, hchildren]
    rfl
  · obtain ⟨children, hc, hchildren, hor, _, _⟩ := (OmQuery.flattening .OP_OR
      [OmQuery.term "a" 1 1, a_or_b] 0
      (Or.inl rfl) (by simp [OmQuery.term, a_or_b]) (by simp [OmQuery.term, a_or_b])
      (by simp)).1
    obtain ⟨hm, hp, _⟩ := hor rfl
    exact ⟨children, hc, by rw [hchildren]; rfl, hm, hp⟩
